import Mathlib

/-!
Verification development for the `enum_dispatch_pest_parser` crate (src/lib.rs).

The crate is a procedural macro that post-processes the textual output of the
external pest code generator (`pest_generator::derive_parser`).  All of its own
logic is plain string manipulation: substring search (`str::find`), insertion
(`String::insert_str`), literal replacement (`str::replace`) and six concrete
regex `replace_all` passes, plus a thin argument-validation front end built on
`syn` data.  We embed that string manipulation shallowly over `List Char`
(the inputs are ASCII, so byte indices and character indices coincide), with
the external collaborators (the pest generator itself and the `syn` parsing of
the extracted enum text) modelled from the output shapes documented in the
crate source comments.

Rust panics (`unwrap`, `expect`, `assert!`, explicit `panic!`, `unreachable!`,
slice-range panics) are modelled as `Except.error` with the corresponding
message (apostrophes in the original messages are elided).

Regex notes: the six patterns in the source have the shape
`literal [[:blank:]]* literal ... (?P<n>(\w+|r\#\w+)) tail` where the tail is a
literal `,` or `\s*]` or `\s*}`.  Because `\w+` is greedy, every shorter match
of `\w+` is followed by a word character which can never begin the tail, so
leftmost matching with a maximal word run followed by the tail check is exactly
the regex-crate semantics; the `r\#\w+` alternative is tried when the plain
`\w+` branch fails, which with a maximal-run first branch can only happen when
the run is the single letter `r` followed by `#`.  The matchers below implement
exactly this.
-/

namespace EnumDispatch

/-- Convert a string literal to the character-list representation used throughout. -/
def cs (s : String) : List Char := s.toList

/-- The open-brace character (written via escape throughout this file). -/
def lbrace : Char := '\x7b'

/-- The close-brace character. -/
def rbrace : Char := '\x7d'

/-- `[[:blank:]]` of the regex crate: space or tab. -/
def blankc (c : Char) : Bool := c = ' ' || c = '\t'

/-- `\w` of the regex crate (restricted to ASCII, which covers all inputs here). -/
def wordc (c : Char) : Bool := c.isAlphanum || c = '_'

/-- `\s` of the regex crate (ASCII part). -/
def wsc (c : Char) : Bool :=
  c = ' ' || c = '\t' || c = '\n' || c = '\r' || c = '\x0b' || c = '\x0c'

/-- Literal prefix test (structural on the pattern, so that it reduces even
when only a prefix of the text is concrete). -/
def litPre : List Char → List Char → Bool
  | [], _ => true
  | _ :: _, [] => false
  | p :: ps, c :: t => p == c && litPre ps t

theorem litPre_iff {p s : List Char} : litPre p s = true ↔ p <+: s := by
  induction p generalizing s with
  | nil => simp [litPre]
  | cons a ps ih =>
    cases s with
    | nil => simp [litPre]
    | cons b t =>
      simp only [litPre, Bool.and_eq_true, beq_iff_eq, List.cons_prefix_cons, ih]

/-- A rewrite matcher: at the current position either no match, or a match
producing a replacement string and the remaining (strictly shorter) input. -/
abbrev Matcher := List Char → Option (List Char × List Char)

/-- Every match consumes at least one character. -/
def Shrinks (m : Matcher) : Prop :=
  ∀ s r rest, m s = some (r, rest) → rest.length < s.length

/-- Fuel-indexed scanner: leftmost, non-overlapping rewriting, as performed by
`str::replace` and `Regex::replace_all`.  The fuel is only a termination
device; `scanM` below instantiates it with the input length, which suffices
for any shrinking matcher. -/
def scanF (m : Matcher) : Nat → List Char → List Char
  | 0, s => s
  | _ + 1, [] => []
  | f + 1, c :: s =>
    match m (c :: s) with
    | some (r, rest) => r ++ scanF m f rest
    | none => c :: scanF m f s

/-- Leftmost non-overlapping rewrite of a whole string. -/
def scanM (m : Matcher) (s : List Char) : List Char := scanF m s.length s

/-- Literal-pattern matcher; `scanM (litMatcher p rep)` is Rust `str::replace`. -/
def litMatcher (p rep : List Char) : Matcher := fun s =>
  if p ≠ [] ∧ litPre p s = true then some (rep, s.drop p.length) else none

/-- First index of an occurrence of `p` as a substring: Rust `str::find`. -/
def findSub (p : List Char) : List Char → Option Nat
  | [] => if p = [] then some 0 else none
  | c :: s => if litPre p (c :: s) then some 0 else (findSub p s).map (· + 1)

/-- Whether `p` occurs as a substring. -/
def containsSub (p s : List Char) : Bool := (findSub p s).isSome

/-- Fuelled occurrence counter (the fuel only bounds the recursion depth). -/
def countF (p : List Char) : Nat → List Char → Nat
  | 0, _ => 0
  | _ + 1, [] => 0
  | f + 1, c :: s =>
    if p ≠ [] ∧ litPre p (c :: s) = true then countF p f (s.drop (p.length - 1)) + 1
    else countF p f s

/-- Number of leftmost non-overlapping occurrences of `p` (`p` nonempty),
as iterated `str::find` / `replace_all` see them. -/
def countSub (p s : List Char) : Nat := countF p s.length s

/-- Rust `String::insert_str`. -/
def insertAt (pos : Nat) (ins s : List Char) : List Char :=
  s.take pos ++ ins ++ s.drop pos

/-- Consume a literal. -/
def eatLit (p s : List Char) : Option (List Char) :=
  if litPre p s then some (s.drop p.length) else none

/-- Consume `[[:blank:]]*`. -/
def eatBlanks (s : List Char) : List Char := s.dropWhile blankc

/-- Consume `\s*`. -/
def eatWs (s : List Char) : List Char := s.dropWhile wsc

/-- The plain `\w+` branch of the capture group, followed by `follow`. -/
def eatWordThen (follow : List Char → Option (List Char)) (s : List Char) :
    Option (List Char × List Char) :=
  let w := s.takeWhile wordc
  if w = [] then none else (follow (s.drop w.length)).map (fun rest => (w, rest))

/-- The `r\#\w+` branch of the capture group, followed by `follow`. -/
def eatRawThen (follow : List Char → Option (List Char)) (s : List Char) :
    Option (List Char × List Char) :=
  match s with
  | c1 :: c2 :: t =>
    if c1 = 'r' ∧ c2 = '#' then
      (eatWordThen follow t).map (fun x => (c1 :: c2 :: x.1, x.2))
    else none
  | _ => none

/-- Consume the capture group `(?P<n>(\w+|r\#\w+))` followed by `follow`,
with the regex-faithful branch order explained in the file header. -/
def eatNameThen (follow : List Char → Option (List Char)) (s : List Char) :
    Option (List Char × List Char) :=
  Option.or (eatWordThen follow s) (eatRawThen follow s)

/-! ### The six regex passes of `enum_dispatch_generated_enum_hooker`
(lib.rs lines 206-251), in their application order. -/

/-- Pass `Rule[[:blank:]]*::[[:blank:]]*r[[:blank:]]*\#[[:blank:]]*(?P<n>(\w+|r\#\w+)),`
replaced by `Rule::r#$n(crate::r#$n {}), `. -/
def mQual : Matcher := fun s =>
  (eatLit (cs ("Rule")) s).bind fun s1 =>
  (eatLit (cs ("::")) (eatBlanks s1)).bind fun s2 =>
  (eatLit (cs ("r")) (eatBlanks s2)).bind fun s3 =>
  (eatLit (cs ("#")) (eatBlanks s3)).bind fun s4 =>
  (eatNameThen (eatLit (cs (","))) (eatBlanks s4)).map fun x =>
    (cs ("Rule::r#") ++ x.1 ++ cs ("(crate::r#") ++ x.1 ++ cs (" \x7b\x7d), "), x.2)

/-- Pass `r[[:blank:]]*\#[[:blank:]]*(?P<n>(\w+|r\#\w+)),` replaced by
`r#$n(crate::r#$n), `. -/
def mVar : Matcher := fun s =>
  (eatLit (cs ("r")) s).bind fun s1 =>
  (eatLit (cs ("#")) (eatBlanks s1)).bind fun s2 =>
  (eatNameThen (eatLit (cs (","))) (eatBlanks s2)).map fun x =>
    (cs ("r#") ++ x.1 ++ cs ("(crate::r#") ++ x.1 ++ cs ("), "), x.2)

/-- Pass `Rule[[:blank:]]*::[[:blank:]]*EOI,` replaced by `Rule::EOI(crate::EOI {}), `. -/
def mQualEOI : Matcher := fun s =>
  (eatLit (cs ("Rule")) s).bind fun s1 =>
  (eatLit (cs ("::")) (eatBlanks s1)).bind fun s2 =>
  (eatLit (cs ("EOI,")) (eatBlanks s2)).map fun rest =>
    (cs ("Rule::EOI(crate::EOI \x7b\x7d), "), rest)

/-- Pass `EOI[[:blank:]]*\,` replaced by `EOI(crate::EOI), `. -/
def mVarEOI : Matcher := fun s =>
  (eatLit (cs ("EOI")) s).bind fun s1 =>
  (eatLit (cs (",")) (eatBlanks s1)).map fun rest =>
    (cs ("EOI(crate::EOI), "), rest)

/-- Pass `Rule[[:blank:]]*::[[:blank:]]*r[[:blank:]]*\#[[:blank:]]*(?P<n>(\w+|r\#\w+))\s*\]`
replaced by `Rule::r#$n(crate::r#$n {})]`. -/
def mQualLast : Matcher := fun s =>
  (eatLit (cs ("Rule")) s).bind fun s1 =>
  (eatLit (cs ("::")) (eatBlanks s1)).bind fun s2 =>
  (eatLit (cs ("r")) (eatBlanks s2)).bind fun s3 =>
  (eatLit (cs ("#")) (eatBlanks s3)).bind fun s4 =>
  (eatNameThen (fun t => eatLit (cs ("]")) (eatWs t)) (eatBlanks s4)).map fun x =>
    (cs ("Rule::r#") ++ x.1 ++ cs ("(crate::r#") ++ x.1 ++ cs (" \x7b\x7d)]"), x.2)

/-- Pass `r[[:blank:]]*\#[[:blank:]]*(?P<n>(\w+|r\#\w+))\s*\}` replaced by
`r#$n(crate::r#$n)}`. -/
def mVarLast : Matcher := fun s =>
  (eatLit (cs ("r")) s).bind fun s1 =>
  (eatLit (cs ("#")) (eatBlanks s1)).bind fun s2 =>
  (eatNameThen (fun t => eatLit (cs ("\x7d")) (eatWs t)) (eatBlanks s2)).map fun x =>
    (cs ("r#") ++ x.1 ++ cs ("(crate::r#") ++ x.1 ++ cs (")\x7d"), x.2)

/-- The literal matcher of the `raw_codes.replace("=>", "(_) =>")` step. -/
def mArrow : Matcher := litMatcher (cs ("=>")) (cs ("(_) =>"))

/-- The pattern searched for by the `#[enum_dispatch]` insertion step. -/
def derivePat : List Char := cs ("#[derive(")

/-- Model of `enum_dispatch_generated_enum_hooker` (lib.rs lines 164-254).
The input is the stringified output of `derive_parser(nodes, true)` (an
external collaborator), the output the rewritten string handed to
`TokenStream::from_str`.  The `unwrap` on the `find` is modelled as an error. -/
def enum_dispatch_generated_enum_hooker (raw_codes : List Char) (interface : List Char) :
    Except (List Char) (List Char) :=
  match findSub derivePat raw_codes with
  | none => Except.error (cs ("called Option::unwrap() on a None value"))
  | some pos =>
    let t0 := insertAt pos (cs ("#[enum_dispatch(") ++ interface ++ cs (")]\r\n")) raw_codes
    let t1 := scanM mArrow t0
    let t2 := scanM mQual t1
    let t3 := scanM mVar t2
    let t4 := scanM mQualEOI t3
    let t5 := scanM mVarEOI t4
    let t6 := scanM mQualLast t5
    let t7 := scanM mVarLast t6
    Except.ok t7

/-! ### `enum_dispatch_tag_generator` (lib.rs lines 114-162) -/

/-- The fixed marker preceding the rule enumeration in pest 2.5.4 output. -/
def allowMarker : List Char :=
  cs ("#[allow(dead_code, non_camel_case_types, clippy :: upper_case_acronyms)]")

/-- Drop characters up to and including the first `]` (used to skip an
attribute body when modelling the `syn` enum parse). -/
def dropToClose : List Char → Option (List Char)
  | [] => none
  | c :: t => if c = ']' then some t else dropToClose t

/-- Skip leading whitespace and `#[...]` outer attributes. -/
def skipAttrs : Nat → List Char → Option (List Char)
  | 0, s => some s
  | f + 1, s =>
    let s1 := s.dropWhile wsc
    match s1 with
    | '#' :: t =>
      (match t.dropWhile wsc with
       | '[' :: u =>
         match dropToClose u with
         | some rest => skipAttrs f rest
         | none => none
       | _ => none)
    | _ => some s1

/-- Parse one identifier, possibly in raw (`r#...`) form, returning its
rendered spelling and the rest. -/
def parseIdent (s : List Char) : Option (List Char × List Char) :=
  match s with
  | c1 :: c2 :: t =>
    if c1 = 'r' ∧ c2 = '#' then
      let w := t.takeWhile wordc
      if w = [] then none else some (cs ("r#") ++ w, t.drop w.length)
    else
      let w := (c1 :: c2 :: t).takeWhile wordc
      if w = [] then none else some (w, (c1 :: c2 :: t).drop w.length)
  | _ =>
    let w := s.takeWhile wordc
    if w = [] then none else some (w, s.drop w.length)

/-- Parse the comma-separated variant list of an enum body up to the closing
brace. -/
def parseVariantsF : Nat → List Char → Option (List (List Char))
  | 0, _ => none
  | f + 1, s =>
    (skipAttrs (s.length + 1) s).bind fun s1 =>
    (parseIdent s1).bind fun x =>
    let rest := x.2.dropWhile wsc
    match rest with
    | c :: t =>
      if c = ',' then (parseVariantsF f t).map (fun vs => x.1 :: vs)
      else if c = rbrace then some [x.1]
      else none
    | [] => none

/-- Model of `syn::parse_str::<ItemEnum>` restricted to extracting the ordered
variant identifier list, which is all the crate uses (an external collaborator,
modelled for the enum shapes pest emits). -/
def parseItemEnumVariants (s : List Char) : Option (List (List Char)) :=
  (skipAttrs (s.length + 1) s).bind fun s1 =>
  (eatLit (cs ("pub")) s1).bind fun s2 =>
  (eatLit (cs ("enum")) (s2.dropWhile wsc)).bind fun s4 =>
  (parseIdent (s4.dropWhile wsc)).bind fun x =>
  match x.2.dropWhile wsc with
  | c :: t => if c = lbrace then parseVariantsF (t.length + 1) t else none
  | [] => none

/-- The struct declaration emitted for one enum variant (lib.rs line 153). -/
def renderStructDecl (n : List Char) : List Char :=
  cs ("#[derive(Clone, Copy, Debug, Eq, Hash, Ord, PartialEq, PartialOrd)] pub struct ")
    ++ n ++ cs (" ;")

/-- Model of `enum_dispatch_tag_generator` (lib.rs lines 114-162): the input is
the stringified output of `derive_parser(nodes, false)`; the output is the
ordered list of per-variant struct declarations (the emitted token stream is
their concatenation).  `enum_end` is the position of the first `}` of the WHOLE
string, exactly as in the source (`raw_codes.find("}")`); the Rust slice
`[enum_start..=enum_end]` panics when `enum_start > enum_end + 1`, modelled as
an error. -/
def enum_dispatch_tag_generator (raw_codes : List Char) :
    Except (List Char) (List (List Char)) :=
  match findSub allowMarker raw_codes, findSub [rbrace] raw_codes with
  | some enum_start, some enum_end =>
    if enum_start ≤ enum_end + 1 then
      match parseItemEnumVariants ((raw_codes.take (enum_end + 1)).drop enum_start) with
      | some vs => Except.ok (vs.map renderStructDecl)
      | none => Except.error (cs ("cannot parse cutted pest enum definition string into enum."))
    else Except.error (cs ("slice index starts at a position beyond its end"))
  | _, _ =>
    Except.error (cs
      ("cannot find `pub enum Rule` in pest auto-generated code. this error might be a false positive in rust-analyzer, so please refer to the compilation results."))

/-! ### The `pest_parser` attribute front end (lib.rs lines 256-337) -/

/-- `syn::Lit`, restricted to what the front end distinguishes. -/
inductive RustLit
  | strLit (value : List Char)
  | otherLit

/-- `syn::Expr`, restricted to what the front end distinguishes. -/
inductive RustExpr
  | lit (l : RustLit)
  | nonLit

/-- One parsed `key = value` attribute argument (`syn::MetaNameValue`):
`pathIdent` is `some k` exactly when `path.get_ident()` succeeds. -/
structure RustMetaNameValue where
  pathIdent : Option (List Char)
  value : RustExpr

/-- The annotated item, parsed as `syn::ItemStruct`; only `vis` and `ident`
are ever read by the macro. -/
structure RustItemStruct where
  vis : List Char
  ident : List Char
  generics : List Char
  fields : List Char
  attrs : List (List Char)

/-- Model of `get_pest_parser_argument` (lib.rs lines 256-272); panics become
errors. -/
def get_pest_parser_argument (arg : RustMetaNameValue) :
    Except (List Char) (List Char × List Char) :=
  match arg.pathIdent with
  | none => Except.error (cs ("key of argument must be an identifier"))
  | some key =>
    match arg.value with
    | RustExpr.lit (RustLit.strLit v) => Except.ok (key, v)
    | _ => Except.error (cs ("value of argument must be a string literal"))

/-- The `assert!(args.len() == 2, ...)` message. -/
def argCountMsg (n : Nat) : List Char :=
  cs ("expected 2 arguments, but got ") ++ cs (toString n)

/-- The key-set `assert!` message. -/
def keyMsg (k0 k1 : List Char) : List Char :=
  cs ("expected arguments are `grammar` and `interface`, but got `") ++ k0
    ++ cs ("` and `") ++ k1 ++ cs ("`")

/-- `quote! { #vis struct #ident; }`, stringified. -/
def structDecl (vis ident : List Char) : List Char :=
  vis ++ cs (" struct ") ++ ident ++ cs (" ;")

/-- Model of the `pest_parser` attribute macro (lib.rs lines 280-337; renamed
here because of a local naming restriction).  `compile` is the external
`derive_parser` collaborator: it maps the grammar file and the
`include_grammar` flag to the generated source text. -/
def pest_parser_attr (compile : List Char → Bool → List Char)
    (input : RustItemStruct) (args : List RustMetaNameValue) :
    Except (List Char) (List Char) :=
  match args with
  | [a0, a1] =>
    (get_pest_parser_argument a0).bind fun x0 =>
    (get_pest_parser_argument a1).bind fun x1 =>
    if (x0.1 = cs ("grammar") ∧ x1.1 = cs ("interface")) ∨
       (x0.1 = cs ("interface") ∧ x1.1 = cs ("grammar")) then
      let v := if x0.1 = cs ("interface") then (x1.2, x0.2) else (x0.2, x1.2)
      let part1 := structDecl input.vis input.ident
      (enum_dispatch_tag_generator (compile v.1 false)).bind fun part2 =>
      (enum_dispatch_generated_enum_hooker (compile v.1 true) v.2).map fun part3 =>
      part1 ++ part2.flatten ++ part3
    else Except.error (keyMsg x0.1 x1.1)
  | _ => Except.error (argCountMsg args.length)

/-! ### Schematic pest 2.5.4 output shapes

The pest generator is an external collaborator; the shapes below are modelled
from the examples documented in the crate source comments (lib.rs lines
121-140 and 178-195): the attribute-decorated rule enumeration with the
`EOI` sentinel first, the `all_rules` listing function, the dispatcher
`match`, and one `state.rule(Rule :: ..., ...)` construction site per rule.
All token separators are single blanks (the wrap-free rendering; the
documented example also shows renderings with line breaks inside
`Rule :: name` sequences, which behave differently — see the C1 analysis). -/

/-- Marker attribute plus following blank. -/
def gAllow : List Char := allowMarker ++ cs (" ")

/-- Derive attribute, enum header and the sentinel doc attribute, up to (and
excluding) the leading `EOI` variant. -/
def gDeriveHead : List Char :=
  cs ("#[derive(Clone, Copy, Debug, Eq, Hash, Ord, PartialEq, PartialOrd)] pub enum Rule \x7b #[doc = \"End-of-input\"] ")

/-- The user-rule variant list of the enumeration, from the first user rule to
the closing brace (each element preceded by `, ` except the first; the last
followed by ` }`). -/
def vchain : List (List Char) → List Char
  | [] => cs (" \x7d")
  | [a] => cs ("r#") ++ a ++ cs (" \x7d")
  | a :: b :: t => cs ("r#") ++ a ++ cs (", ") ++ vchain (b :: t)

/-- The variant region between the sentinel and the brace. -/
def enumVariantsText : List (List Char) → List Char
  | [] => vchain []
  | a :: t => cs (", ") ++ vchain (a :: t)

/-- Enumeration-only part of the generated output (the part
`enum_dispatch_tag_generator` extracts). -/
def pestEnumText (rs : List (List Char)) : List Char :=
  gAllow ++ gDeriveHead ++ cs ("EOI") ++ enumVariantsText rs

/-- Start of `impl Rule`, `all_rules` signature and the opening of the
listing slice. -/
def gImplAll : List Char :=
  cs (" impl Rule \x7b pub fn all_rules() -> & [Rule] \x7b & [")

/-- Entries of the `all_rules` listing (the last followed directly by `]`). -/
def echain : List (List Char) → List Char
  | [] => cs ("]")
  | [a] => cs ("Rule :: r#") ++ a ++ cs ("]")
  | a :: b :: t => cs ("Rule :: r#") ++ a ++ cs (", ") ++ echain (b :: t)

/-- Close of `all_rules` and `impl Rule`, parser impl header, dispatcher head. -/
def gMatchHead : List Char :=
  cs (" \x7d \x7d impl Parser for S \x7b fn parse(rule : Rule, input : & str) -> Res \x7b state(input, | state | match rule \x7b ")

/-- The per-rule dispatcher arms. -/
def marms : List (List Char) → List Char
  | [] => []
  | a :: t =>
    cs ("Rule :: r#") ++ a ++ cs (" => rules :: r#") ++ a ++ cs ("(state), ") ++ marms t

/-- The sentinel arm, the close of the dispatcher and parser impl, and the
head of the rules module. -/
def gArmEOI : List Char :=
  cs ("Rule :: EOI => rules :: EOI(state) \x7d) \x7d \x7d mod rules \x7b ")

/-- Per-rule rule functions, each containing one
`state.rule(Rule :: r#name, ...)` construction site. -/
def fchain : List (List Char) → List Char
  | [] => []
  | a :: t =>
    cs ("pub fn r#") ++ a ++ cs ("(state : S) -> R \x7b state.rule(Rule :: r#") ++ a
      ++ cs (", f) \x7d ") ++ fchain t

/-- The sentinel rule function with its `Rule :: EOI` construction site, and
the module close. -/
def gFnEOI : List Char :=
  cs ("pub fn EOI(state : S) -> R \x7b state.rule(Rule :: EOI, f) \x7d \x7d")

/-- Full-implementation generated output for user rules `rs`, in the
documented pest 2.5.4 shape, wrap-free rendering. -/
def pestFullOut (rs : List (List Char)) : List Char :=
  pestEnumText rs ++ gImplAll ++ echain rs ++ gMatchHead ++ marms rs ++ gArmEOI
    ++ fchain rs ++ gFnEOI

/-! ### The expected rewritten output -/

/-- The inserted dispatch annotation. -/
def dAttrText (interface : List Char) : List Char :=
  cs ("#[enum_dispatch(") ++ interface ++ cs (")]\r\n")

/-- Rewritten variant chain: every user-rule alternative now carries exactly
one payload whose type is the synthesized nominal type of the same name. -/
def vchainR : List (List Char) → List Char
  | [] => cs (" \x7d")
  | [a] => cs ("r#") ++ a ++ cs ("(crate::r#") ++ a ++ cs (")\x7d")
  | a :: b :: t =>
    cs ("r#") ++ a ++ cs ("(crate::r#") ++ a ++ cs ("),  ") ++ vchainR (b :: t)

/-- Rewritten variant region including the sentinel alternative. -/
def enumVariantsTextR : List (List Char) → List Char
  | [] => cs ("EOI") ++ vchainR []
  | a :: t => cs ("EOI(crate::EOI),  ") ++ vchainR (a :: t)

/-- Rewritten `all_rules` entries: every entry is now a constructed value. -/
def echainR : List (List Char) → List Char
  | [] => cs ("]")
  | [a] => cs ("Rule::r#") ++ a ++ cs ("(crate::r#") ++ a ++ cs (" \x7b\x7d)]")
  | a :: b :: t =>
    cs ("Rule::r#") ++ a ++ cs ("(crate::r#") ++ a ++ cs (" \x7b\x7d),  ") ++ echainR (b :: t)

/-- Rewritten dispatcher arms: every arm now discards a payload. -/
def marmsR : List (List Char) → List Char
  | [] => []
  | a :: t =>
    cs ("Rule :: r#") ++ a ++ cs (" (_) => rules :: r#") ++ a ++ cs ("(state), ") ++ marmsR t

/-- Rewritten sentinel arm region. -/
def gArmEOIR : List Char :=
  cs ("Rule :: EOI (_) => rules :: EOI(state) \x7d) \x7d \x7d mod rules \x7b ")

/-- Rewritten rule functions: every construction site passes a constructed
value. -/
def fchainR : List (List Char) → List Char
  | [] => []
  | a :: t =>
    cs ("pub fn r#") ++ a ++ cs ("(state : S) -> R \x7b state.rule(Rule::r#") ++ a
      ++ cs ("(crate::r#") ++ a ++ cs (" \x7b\x7d),  f) \x7d ") ++ fchainR t

/-- Rewritten sentinel rule function region. -/
def gFnEOIR : List Char :=
  cs ("pub fn EOI(state : S) -> R \x7b state.rule(Rule::EOI(crate::EOI \x7b\x7d),  f) \x7d \x7d")

/-- The full rewritten output the hooker produces on `pestFullOut rs`. -/
def rewrittenOut (rs : List (List Char)) (interface : List Char) : List Char :=
  gAllow ++ dAttrText interface ++ gDeriveHead ++ enumVariantsTextR rs ++ gImplAll
    ++ echainR rs ++ gMatchHead ++ marmsR rs ++ gArmEOIR ++ fchainR rs ++ gFnEOIR

/-! ## Generic scanning lemmas -/

theorem scanF_nil (m : Matcher) (f : Nat) : scanF m f [] = [] := by
  cases f <;> rfl

theorem scanF_irrel (m : Matcher) (hm : Shrinks m) :
    ∀ f g s, s.length ≤ f → s.length ≤ g → scanF m f s = scanF m g s := by
  intro f
  induction f using Nat.strong_induction_on with
  | _ f ih =>
    intro g s hf hg
    cases s with
    | nil => rw [scanF_nil, scanF_nil]
    | cons c t =>
      cases f with
      | zero => simp at hf
      | succ f' =>
        cases g with
        | zero => simp at hg
        | succ g' =>
          cases h : m (c :: t) with
          | none =>
            simp only [List.length_cons] at hf hg
            simp only [scanF, h]
            rw [ih f' (Nat.lt_succ_self _) g' t (by omega) (by omega)]
          | some pr =>
            obtain ⟨r, rest⟩ := pr
            have hlt := hm _ _ _ h
            simp only [List.length_cons] at hf hg hlt
            simp only [scanF, h]
            rw [ih f' (Nat.lt_succ_self _) g' rest (by omega) (by omega)]

theorem scanM_nil (m : Matcher) : scanM m [] = [] := rfl

theorem scanM_cons_none {m : Matcher} {c s} (h : m (c :: s) = none) :
    scanM m (c :: s) = c :: scanM m s := by
  simp only [scanM, List.length_cons, scanF, h]

theorem scanM_cons_some {m : Matcher} {c s r rest} (hm : Shrinks m)
    (h : m (c :: s) = some (r, rest)) : scanM m (c :: s) = r ++ scanM m rest := by
  have hlt := hm _ _ _ h
  simp only [List.length_cons] at hlt
  simp only [scanM, List.length_cons, scanF, h]
  congr 1
  exact scanF_irrel m hm _ _ _ (by omega) le_rfl

/-- The matcher finds its token pattern somewhere in the text: it matches at
some position (suffix) of `s`.  `hasMatch m s = false` is exactly "the
pattern is absent from `s`". -/
def hasMatch (m : Matcher) : List Char → Bool
  | [] => (m []).isSome
  | c :: t => (m (c :: t)).isSome || hasMatch m t

/-- A replacement pass whose pattern is absent from the text leaves the text
unchanged. -/
theorem scanM_id_of_no_match {m : Matcher} {s : List Char}
    (h : hasMatch m s = false) : scanM m s = s := by
  induction s with
  | nil => exact scanM_nil m
  | cons c t ih =>
    have h1 : (m (c :: t)).isSome = false ∧ hasMatch m t = false := by
      simpa [hasMatch] using h
    cases hm : m (c :: t) with
    | some v => rw [hm] at h1; exact absurd h1.1 (by simp)
    | none => rw [scanM_cons_none hm, ih h1.2]

/-- Soundness of a prefix-only viability check `might` for matcher `m`:
if `might` rejects a prefix, the matcher fails there for every continuation. -/
def Sound (m : Matcher) (might : List Char → Bool) : Prop :=
  ∀ s, might s = false → ∀ B, m (s ++ B) = none

/-- No suffix of `A` can start a match, judged by the viability check alone
(so this is decidable for concrete `A`, independently of the continuation). -/
def noStarts (might : List Char → Bool) : List Char → Bool
  | [] => true
  | c :: s => !(might (c :: s)) && noStarts might s

theorem scanM_skip {m : Matcher} {might} (hs : Sound m might) :
    ∀ A, noStarts might A = true → ∀ B, scanM m (A ++ B) = A ++ scanM m B := by
  intro A
  induction A with
  | nil => simp
  | cons c t ih =>
    intro h B
    simp only [noStarts, Bool.and_eq_true, Bool.not_eq_true'] at h
    have h1 := hs (c :: t) h.1 B
    rw [List.cons_append] at h1 ⊢
    rw [scanM_cons_none h1, ih h.2 B, List.cons_append]

/-! ## Prefix-only partial evaluation of the matchers -/

/-- Result of running a matcher component on a prefix of the input alone:
it definitely fails, or it ran out of input (a continuation might still
match), or it consumed characters leaving `rest`. -/
inductive PR
  | fail
  | out
  | ok (rest : List Char)
deriving DecidableEq

/-- Sequencing of prefix-only evaluations. -/
def pThen (x : PR) (k : List Char → PR) : PR :=
  match x with
  | .fail => .fail
  | .out => .out
  | .ok r => k r

/-- Prefix-only `eatLit`. -/
def eatLitP (p s : List Char) : PR :=
  if litPre p s then .ok (s.drop p.length)
  else if litPre s p then .out else .fail

theorem eatLitP_fail {p s : List Char} (h : eatLitP p s = PR.fail) (B : List Char) :
    eatLit p (s ++ B) = none := by
  unfold eatLitP at h
  split at h
  · exact absurd h (by simp)
  · split at h
    · exact absurd h (by simp)
    · rename_i h1 h2
      unfold eatLit
      split
      · rename_i h3
        rw [litPre_iff] at h3
        rcases List.prefix_or_prefix_of_prefix h3 (List.prefix_append s B) with h4 | h4
        · exact absurd (litPre_iff.mpr h4) (by simpa using h1)
        · exact absurd (litPre_iff.mpr h4) (by simpa using h2)
      · rfl

theorem eatLitP_ok {p s r : List Char} (h : eatLitP p s = PR.ok r) (B : List Char) :
    eatLit p (s ++ B) = some (r ++ B) := by
  unfold eatLitP at h
  split at h
  · rename_i h1
    have hp := litPre_iff.mp h1
    have hlen : p.length ≤ s.length := hp.length_le
    unfold eatLit
    rw [if_pos (litPre_iff.mpr (hp.trans (List.prefix_append s B))),
      List.drop_append_of_le_length hlen]
    cases h
    rfl
  · split at h <;> exact absurd h (by simp)


/-- Prefix-only `eatWordThen`. -/
def eatWordThenP (folP : List Char → PR) (s : List Char) : PR :=
  let w := s.takeWhile wordc
  if w = [] then (if s = [] then .out else .fail)
  else if s.drop w.length = [] then .out
  else folP (s.drop w.length)

/-- Prefix-only `eatRawThen`. -/
def eatRawThenP (folP : List Char → PR) (s : List Char) : PR :=
  match s with
  | [] => .out
  | [c1] => if c1 = 'r' then .out else .fail
  | c1 :: c2 :: t => if c1 = 'r' ∧ c2 = '#' then eatWordThenP folP t else .fail

/-- Prefix-only `eatNameThen`. -/
def eatNameThenP (folP : List Char → PR) (s : List Char) : PR :=
  match eatWordThenP folP s with
  | .ok r => .ok r
  | .out => .out
  | .fail => eatRawThenP folP s

theorem takeWhile_append_of_drop_ne_nil {q : Char → Bool} {s B : List Char}
    (h : s.drop (s.takeWhile q).length ≠ []) :
    (s ++ B).takeWhile q = s.takeWhile q := by
  rw [List.takeWhile_append, if_neg]
  intro hlen
  exact h (by simp [List.drop_of_length_le, hlen.ge])

theorem drop_takeWhile_append {q : Char → Bool} {s B : List Char}
    (h : s.drop (s.takeWhile q).length ≠ []) :
    (s ++ B).drop ((s ++ B).takeWhile q).length = s.drop (s.takeWhile q).length ++ B := by
  rw [takeWhile_append_of_drop_ne_nil h,
    List.drop_append_of_le_length (List.Sublist.length_le (List.takeWhile_sublist _))]

theorem head_nonword_of_takeWhile_nil {c : Char} {t : List Char}
    (hw : (c :: t).takeWhile wordc = []) : wordc c = false := by
  by_contra hc
  simp [List.takeWhile_cons, (Bool.not_eq_false _).mp hc] at hw

theorem eatWordThenP_fail {fol : List Char → Option (List Char)} {folP : List Char → PR}
    (hfol : ∀ u, folP u = PR.fail → ∀ B, fol (u ++ B) = none)
    {s : List Char} (h : eatWordThenP folP s = PR.fail) (B : List Char) :
    eatWordThen fol (s ++ B) = none := by
  unfold eatWordThenP at h
  by_cases hw : s.takeWhile wordc = []
  · rw [hw] at h
    simp only [if_pos rfl] at h
    cases s with
    | nil => simp at h
    | cons c t =>
      have hcw := head_nonword_of_takeWhile_nil hw
      unfold eatWordThen
      rw [List.cons_append, List.takeWhile_cons_of_neg (by simp [hcw])]
      simp
  · rw [if_neg hw] at h
    by_cases hdrop : s.drop (s.takeWhile wordc).length = []
    · rw [if_pos hdrop] at h
      simp at h
    · rw [if_neg hdrop] at h
      have htw := takeWhile_append_of_drop_ne_nil (q := wordc) (B := B) hdrop
      have hdw := drop_takeWhile_append (q := wordc) (B := B) hdrop
      rw [htw] at hdw
      simp only [eatWordThen, htw, hdw, if_neg hw, hfol _ h B]
      rfl

theorem eatRawThenP_fail {fol : List Char → Option (List Char)} {folP : List Char → PR}
    (hfol : ∀ u, folP u = PR.fail → ∀ B, fol (u ++ B) = none)
    {s : List Char} (h : eatRawThenP folP s = PR.fail) (B : List Char) :
    eatRawThen fol (s ++ B) = none := by
  match s with
  | [] => simp [eatRawThenP] at h
  | [c1] =>
    simp only [eatRawThenP] at h
    split at h
    · simp at h
    · rename_i hc1
      cases B with
      | nil => rfl
      | cons b1 B' =>
        simp only [List.cons_append, List.nil_append, eatRawThen]
        rw [if_neg (by rintro ⟨h1, -⟩; exact hc1 h1)]
  | c1 :: c2 :: t =>
    simp only [eatRawThenP] at h
    split at h
    · rename_i hrh
      simp only [List.cons_append, eatRawThen, if_pos hrh]
      rw [eatWordThenP_fail hfol h B]
      rfl
    · rename_i hrh
      simp only [List.cons_append, eatRawThen]
      rw [if_neg hrh]

theorem eatNameThenP_fail {fol : List Char → Option (List Char)} {folP : List Char → PR}
    (hfol : ∀ u, folP u = PR.fail → ∀ B, fol (u ++ B) = none)
    {s : List Char} (h : eatNameThenP folP s = PR.fail) (B : List Char) :
    eatNameThen fol (s ++ B) = none := by
  unfold eatNameThenP at h
  cases hw : eatWordThenP folP s with
  | ok r => rw [hw] at h; simp at h
  | out => rw [hw] at h; simp at h
  | fail =>
    rw [hw] at h
    unfold eatNameThen
    rw [eatWordThenP_fail hfol hw B, eatRawThenP_fail hfol h B]
    rfl

/-- A `dropWhile`-then-literal step: prefix-only failure is real failure. -/
theorem dropWhileStep_fail {q : Char → Bool} {p u B : List Char}
    (h : eatLitP p (u.dropWhile q) = PR.fail) :
    eatLit p ((u ++ B).dropWhile q) = none := by
  by_cases hnil : u.dropWhile q = []
  · rw [hnil] at h
    unfold eatLitP at h
    split at h
    · simp at h
    · rw [if_pos (by simp [litPre_iff])] at h
      simp at h
  · rw [List.dropWhile_append, if_neg (by simpa using hnil)]
    exact eatLitP_fail h B

/-- A `dropWhile`-then-literal step: prefix-only success transports. -/
theorem dropWhileStep_ok {q : Char → Bool} {p u r B : List Char} (hp : p ≠ [])
    (h : eatLitP p (u.dropWhile q) = PR.ok r) :
    eatLit p ((u ++ B).dropWhile q) = some (r ++ B) := by
  by_cases hnil : u.dropWhile q = []
  · rw [hnil] at h
    unfold eatLitP at h
    split at h
    · rename_i h1
      obtain ⟨t, ht⟩ := litPre_iff.mp h1
      exact absurd (List.append_eq_nil.mp ht).1 hp
    · split at h <;> simp at h
  · rw [List.dropWhile_append, if_neg (by simpa using hnil)]
    exact eatLitP_ok h B

/-- `eatNameThenP` prefix-only failure transports, with the dropped-blanks
input shape in which it occurs in the matchers. -/
theorem dropWhileNameStep_fail {fol : List Char → Option (List Char)}
    {folP : List Char → PR} {q : Char → Bool} {u B : List Char}
    (hfol : ∀ v, folP v = PR.fail → ∀ B, fol (v ++ B) = none)
    (h : eatNameThenP folP (u.dropWhile q) = PR.fail) :
    eatNameThen fol ((u ++ B).dropWhile q) = none := by
  by_cases hnil : u.dropWhile q = []
  · rw [hnil] at h
    simp [eatNameThenP, eatWordThenP, eatRawThenP] at h
  · rw [List.dropWhile_append, if_neg (by simpa using hnil)]
    exact eatNameThenP_fail hfol h B

/-- Is a prefix-only outcome still viable (not a definite failure)? -/
def PR.viable : PR → Bool
  | .fail => false
  | _ => true

theorem PR.viable_eq_false {x : PR} (h : x.viable = false) : x = PR.fail := by
  cases x <;> simp [PR.viable] at h ⊢

theorem eatBlanksLit_fail {p u B : List Char} (h : eatLitP p (eatBlanks u) = PR.fail) :
    eatLit p (eatBlanks (u ++ B)) = none :=
  dropWhileStep_fail (q := blankc) h

theorem eatBlanksLit_ok {p u r B : List Char} (hp : p ≠ [])
    (h : eatLitP p (eatBlanks u) = PR.ok r) :
    eatLit p (eatBlanks (u ++ B)) = some (r ++ B) :=
  dropWhileStep_ok (q := blankc) hp h

theorem eatBlanksName_fail {fol : List Char → Option (List Char)}
    {folP : List Char → PR} {u B : List Char}
    (hfol : ∀ v, folP v = PR.fail → ∀ B, fol (v ++ B) = none)
    (h : eatNameThenP folP (eatBlanks u) = PR.fail) :
    eatNameThen fol (eatBlanks (u ++ B)) = none :=
  dropWhileNameStep_fail (q := blankc) hfol h

/-- Fail-transport of the comma follow. -/
theorem folComma_fail {v B : List Char} (h : eatLitP (cs (",")) v = PR.fail) :
    eatLit (cs (",")) (v ++ B) = none := eatLitP_fail h B

/-- Fail-transport of the `\s*]` follow. -/
theorem folBracket_fail {v B : List Char} (h : eatLitP (cs ("]")) (eatWs v) = PR.fail) :
    eatLit (cs ("]")) (eatWs (v ++ B)) = none :=
  dropWhileStep_fail (q := wsc) h

/-- Fail-transport of the `\s*}` follow. -/
theorem folBrace_fail {v B : List Char} (h : eatLitP (cs ("\x7d")) (eatWs v) = PR.fail) :
    eatLit (cs ("\x7d")) (eatWs (v ++ B)) = none :=
  dropWhileStep_fail (q := wsc) h

/-! ### Prefix-only versions of the seven rewrite matchers, with soundness -/

/-- Prefix-only `mArrow`. -/
def mArrowP (s : List Char) : PR := eatLitP (cs ("=>")) s

theorem sound_mArrow : Sound mArrow (fun s => (mArrowP s).viable) := by
  intro s h B
  have hf := PR.viable_eq_false h
  have h1 := eatLitP_fail hf B
  unfold mArrow litMatcher
  unfold eatLit at h1
  split at h1
  · simp at h1
  · rename_i hnp
    rw [if_neg (by rintro ⟨-, hp⟩; exact hnp hp)]

/-- Prefix-only `mQual`. -/
def mQualP (s : List Char) : PR :=
  pThen (eatLitP (cs ("Rule")) s) fun s1 =>
  pThen (eatLitP (cs ("::")) (eatBlanks s1)) fun s2 =>
  pThen (eatLitP (cs ("r")) (eatBlanks s2)) fun s3 =>
  pThen (eatLitP (cs ("#")) (eatBlanks s3)) fun s4 =>
  eatNameThenP (eatLitP (cs (","))) (eatBlanks s4)

theorem sound_mQual : Sound mQual (fun s => (mQualP s).viable) := by
  intro s h B
  have hf := PR.viable_eq_false h
  unfold mQualP at hf
  unfold mQual
  cases h1 : eatLitP (cs ("Rule")) s with
  | fail => rw [eatLitP_fail h1 B]; rfl
  | out => rw [h1] at hf; simp [pThen] at hf
  | ok s1 =>
    rw [h1] at hf
    simp only [pThen] at hf
    rw [eatLitP_ok h1 B]
    simp only [Option.some_bind]
    cases h2 : eatLitP (cs ("::")) (eatBlanks s1) with
    | fail => rw [eatBlanksLit_fail h2]; rfl
    | out => rw [h2] at hf; simp [pThen] at hf
    | ok s2 =>
      rw [h2] at hf
      simp only [pThen] at hf
      rw [eatBlanksLit_ok (by decide) h2]
      simp only [Option.some_bind]
      cases h3 : eatLitP (cs ("r")) (eatBlanks s2) with
      | fail => rw [eatBlanksLit_fail h3]; rfl
      | out => rw [h3] at hf; simp [pThen] at hf
      | ok s3 =>
        rw [h3] at hf
        simp only [pThen] at hf
        rw [eatBlanksLit_ok (by decide) h3]
        simp only [Option.some_bind]
        cases h4 : eatLitP (cs ("#")) (eatBlanks s3) with
        | fail => rw [eatBlanksLit_fail h4]; rfl
        | out => rw [h4] at hf; simp [pThen] at hf
        | ok s4 =>
          rw [h4] at hf
          simp only [pThen] at hf
          rw [eatBlanksLit_ok (by decide) h4]
          simp only [Option.some_bind]
          rw [eatBlanksName_fail (fun v hv B' => folComma_fail hv) hf]
          rfl

/-- Prefix-only `mVar`. -/
def mVarP (s : List Char) : PR :=
  pThen (eatLitP (cs ("r")) s) fun s1 =>
  pThen (eatLitP (cs ("#")) (eatBlanks s1)) fun s2 =>
  eatNameThenP (eatLitP (cs (","))) (eatBlanks s2)

theorem sound_mVar : Sound mVar (fun s => (mVarP s).viable) := by
  intro s h B
  have hf := PR.viable_eq_false h
  unfold mVarP at hf
  unfold mVar
  cases h1 : eatLitP (cs ("r")) s with
  | fail => rw [eatLitP_fail h1 B]; rfl
  | out => rw [h1] at hf; simp [pThen] at hf
  | ok s1 =>
    rw [h1] at hf
    simp only [pThen] at hf
    rw [eatLitP_ok h1 B]
    simp only [Option.some_bind]
    cases h2 : eatLitP (cs ("#")) (eatBlanks s1) with
    | fail => rw [eatBlanksLit_fail h2]; rfl
    | out => rw [h2] at hf; simp [pThen] at hf
    | ok s2 =>
      rw [h2] at hf
      simp only [pThen] at hf
      rw [eatBlanksLit_ok (by decide) h2]
      simp only [Option.some_bind]
      rw [eatBlanksName_fail (fun v hv B' => folComma_fail hv) hf]
      rfl

/-- Prefix-only `mQualEOI`. -/
def mQualEOIP (s : List Char) : PR :=
  pThen (eatLitP (cs ("Rule")) s) fun s1 =>
  pThen (eatLitP (cs ("::")) (eatBlanks s1)) fun s2 =>
  eatLitP (cs ("EOI,")) (eatBlanks s2)

theorem sound_mQualEOI : Sound mQualEOI (fun s => (mQualEOIP s).viable) := by
  intro s h B
  have hf := PR.viable_eq_false h
  unfold mQualEOIP at hf
  unfold mQualEOI
  cases h1 : eatLitP (cs ("Rule")) s with
  | fail => rw [eatLitP_fail h1 B]; rfl
  | out => rw [h1] at hf; simp [pThen] at hf
  | ok s1 =>
    rw [h1] at hf
    simp only [pThen] at hf
    rw [eatLitP_ok h1 B]
    simp only [Option.some_bind]
    cases h2 : eatLitP (cs ("::")) (eatBlanks s1) with
    | fail => rw [eatBlanksLit_fail h2]; rfl
    | out => rw [h2] at hf; simp [pThen] at hf
    | ok s2 =>
      rw [h2] at hf
      simp only [pThen] at hf
      rw [eatBlanksLit_ok (by decide) h2]
      simp only [Option.some_bind]
      rw [eatBlanksLit_fail hf]
      rfl

/-- Prefix-only `mVarEOI`. -/
def mVarEOIP (s : List Char) : PR :=
  pThen (eatLitP (cs ("EOI")) s) fun s1 =>
  eatLitP (cs (",")) (eatBlanks s1)

theorem sound_mVarEOI : Sound mVarEOI (fun s => (mVarEOIP s).viable) := by
  intro s h B
  have hf := PR.viable_eq_false h
  unfold mVarEOIP at hf
  unfold mVarEOI
  cases h1 : eatLitP (cs ("EOI")) s with
  | fail => rw [eatLitP_fail h1 B]; rfl
  | out => rw [h1] at hf; simp [pThen] at hf
  | ok s1 =>
    rw [h1] at hf
    simp only [pThen] at hf
    rw [eatLitP_ok h1 B]
    simp only [Option.some_bind]
    rw [eatBlanksLit_fail hf]
    rfl

/-- Prefix-only `mQualLast`. -/
def mQualLastP (s : List Char) : PR :=
  pThen (eatLitP (cs ("Rule")) s) fun s1 =>
  pThen (eatLitP (cs ("::")) (eatBlanks s1)) fun s2 =>
  pThen (eatLitP (cs ("r")) (eatBlanks s2)) fun s3 =>
  pThen (eatLitP (cs ("#")) (eatBlanks s3)) fun s4 =>
  eatNameThenP (fun t => eatLitP (cs ("]")) (eatWs t)) (eatBlanks s4)

theorem sound_mQualLast : Sound mQualLast (fun s => (mQualLastP s).viable) := by
  intro s h B
  have hf := PR.viable_eq_false h
  unfold mQualLastP at hf
  unfold mQualLast
  cases h1 : eatLitP (cs ("Rule")) s with
  | fail => rw [eatLitP_fail h1 B]; rfl
  | out => rw [h1] at hf; simp [pThen] at hf
  | ok s1 =>
    rw [h1] at hf
    simp only [pThen] at hf
    rw [eatLitP_ok h1 B]
    simp only [Option.some_bind]
    cases h2 : eatLitP (cs ("::")) (eatBlanks s1) with
    | fail => rw [eatBlanksLit_fail h2]; rfl
    | out => rw [h2] at hf; simp [pThen] at hf
    | ok s2 =>
      rw [h2] at hf
      simp only [pThen] at hf
      rw [eatBlanksLit_ok (by decide) h2]
      simp only [Option.some_bind]
      cases h3 : eatLitP (cs ("r")) (eatBlanks s2) with
      | fail => rw [eatBlanksLit_fail h3]; rfl
      | out => rw [h3] at hf; simp [pThen] at hf
      | ok s3 =>
        rw [h3] at hf
        simp only [pThen] at hf
        rw [eatBlanksLit_ok (by decide) h3]
        simp only [Option.some_bind]
        cases h4 : eatLitP (cs ("#")) (eatBlanks s3) with
        | fail => rw [eatBlanksLit_fail h4]; rfl
        | out => rw [h4] at hf; simp [pThen] at hf
        | ok s4 =>
          rw [h4] at hf
          simp only [pThen] at hf
          rw [eatBlanksLit_ok (by decide) h4]
          simp only [Option.some_bind]
          rw [eatBlanksName_fail (fun v hv B' => folBracket_fail hv) hf]
          rfl

/-- Prefix-only `mVarLast`. -/
def mVarLastP (s : List Char) : PR :=
  pThen (eatLitP (cs ("r")) s) fun s1 =>
  pThen (eatLitP (cs ("#")) (eatBlanks s1)) fun s2 =>
  eatNameThenP (fun t => eatLitP (cs ("\x7d")) (eatWs t)) (eatBlanks s2)

theorem sound_mVarLast : Sound mVarLast (fun s => (mVarLastP s).viable) := by
  intro s h B
  have hf := PR.viable_eq_false h
  unfold mVarLastP at hf
  unfold mVarLast
  cases h1 : eatLitP (cs ("r")) s with
  | fail => rw [eatLitP_fail h1 B]; rfl
  | out => rw [h1] at hf; simp [pThen] at hf
  | ok s1 =>
    rw [h1] at hf
    simp only [pThen] at hf
    rw [eatLitP_ok h1 B]
    simp only [Option.some_bind]
    cases h2 : eatLitP (cs ("#")) (eatBlanks s1) with
    | fail => rw [eatBlanksLit_fail h2]; rfl
    | out => rw [h2] at hf; simp [pThen] at hf
    | ok s2 =>
      rw [h2] at hf
      simp only [pThen] at hf
      rw [eatBlanksLit_ok (by decide) h2]
      simp only [Option.some_bind]
      rw [eatBlanksName_fail (fun v hv B' => folBrace_fail hv) hf]
      rfl

/-! ### All seven matchers consume at least one character -/

theorem eatLit_length_le {p s t : List Char} (h : eatLit p s = some t) :
    t.length ≤ s.length := by
  unfold eatLit at h
  split at h
  · cases h; simp
  · simp at h

theorem eatLit_length_lt {p s t : List Char} (hp : p ≠ []) (h : eatLit p s = some t) :
    t.length < s.length := by
  unfold eatLit at h
  split at h
  · rename_i hpre
    have hle := (litPre_iff.mp hpre).length_le
    have hp1 : 1 ≤ p.length := by
      cases p with
      | nil => exact absurd rfl hp
      | cons a b => simp
    cases h
    simp only [List.length_drop]
    omega
  · simp at h

theorem eatBlanks_length_le (u : List Char) : (eatBlanks u).length ≤ u.length :=
  (List.dropWhile_sublist _).length_le

theorem eatWs_length_le (u : List Char) : (eatWs u).length ≤ u.length :=
  (List.dropWhile_sublist _).length_le

theorem eatWordThen_shrink {fol : List Char → Option (List Char)} {s : List Char}
    {x : List Char × List Char}
    (hfl : ∀ u v, fol u = some v → v.length ≤ u.length)
    (h : eatWordThen fol s = some x) : x.2.length < s.length := by
  simp only [eatWordThen] at h
  split at h
  · simp at h
  · rename_i hw
    rw [Option.map_eq_some'] at h
    obtain ⟨rest, hrest, hx⟩ := h
    have h1 := hfl _ _ hrest
    have h2 : 1 ≤ (s.takeWhile wordc).length := by
      cases hcw : s.takeWhile wordc with
      | nil => exact absurd hcw hw
      | cons a b => simp
    have h3 := (List.takeWhile_sublist (l := s) wordc).length_le
    subst hx
    simp only [List.length_drop] at h1
    simp only []
    omega

theorem eatNameThen_shrink {fol : List Char → Option (List Char)} {s : List Char}
    {x : List Char × List Char}
    (hfl : ∀ u v, fol u = some v → v.length ≤ u.length)
    (h : eatNameThen fol s = some x) : x.2.length < s.length := by
  unfold eatNameThen at h
  cases hw : eatWordThen fol s with
  | some y =>
    rw [hw] at h
    simp only [Option.or_some] at h
    cases h
    exact eatWordThen_shrink hfl hw
  | none =>
    rw [hw] at h
    simp only [Option.none_or] at h
    cases s with
    | nil => simp [eatRawThen] at h
    | cons c1 s' =>
      cases s' with
      | nil => simp [eatRawThen] at h
      | cons c2 t =>
        simp only [eatRawThen] at h
        split at h
        · rw [Option.map_eq_some'] at h
          obtain ⟨y, hy, hx⟩ := h
          have := eatWordThen_shrink hfl hy
          subst hx
          simp only [List.length_cons]
          omega
        · simp at h

theorem folComma_length : ∀ u v, eatLit (cs (",")) u = some v → v.length ≤ u.length :=
  fun _ _ h => eatLit_length_le h

theorem folBracket_length : ∀ u v, eatLit (cs ("]")) (eatWs u) = some v → v.length ≤ u.length :=
  fun u _ h => (eatLit_length_le h).trans (eatWs_length_le u)

theorem folBrace_length : ∀ u v, eatLit (cs ("\x7d")) (eatWs u) = some v → v.length ≤ u.length :=
  fun u _ h => (eatLit_length_le h).trans (eatWs_length_le u)

theorem shrinks_mArrow : Shrinks mArrow := by
  intro s r rest h
  unfold mArrow litMatcher at h
  split at h
  · rename_i hc
    cases h
    have := (litPre_iff.mp hc.2).length_le
    simp only [List.length_drop]
    have : 1 ≤ (cs ("=>")).length := by decide
    omega
  · simp at h

theorem shrinks_mQual : Shrinks mQual := by
  intro s r rest h
  simp only [mQual, Option.bind_eq_some, Option.map_eq_some'] at h
  obtain ⟨s1, h1, s2, h2, s3, h3, s4, h4, x, hx, hx2⟩ := h
  obtain ⟨-, rfl⟩ := Prod.mk.injEq .. ▸ hx2
  have e1 := eatLit_length_lt (by decide) h1
  have e2 := eatLit_length_le h2
  have e3 := eatLit_length_le h3
  have e4 := eatLit_length_le h4
  have e5 := eatNameThen_shrink folComma_length hx
  have b1 := eatBlanks_length_le s1
  have b2 := eatBlanks_length_le s2
  have b3 := eatBlanks_length_le s3
  have b4 := eatBlanks_length_le s4
  omega

theorem shrinks_mVar : Shrinks mVar := by
  intro s r rest h
  simp only [mVar, Option.bind_eq_some, Option.map_eq_some'] at h
  obtain ⟨s1, h1, s2, h2, x, hx, hx2⟩ := h
  obtain ⟨-, rfl⟩ := Prod.mk.injEq .. ▸ hx2
  have e1 := eatLit_length_lt (by decide) h1
  have e2 := eatLit_length_le h2
  have e5 := eatNameThen_shrink folComma_length hx
  have b1 := eatBlanks_length_le s1
  have b2 := eatBlanks_length_le s2
  omega

theorem shrinks_mQualEOI : Shrinks mQualEOI := by
  intro s r rest h
  simp only [mQualEOI, Option.bind_eq_some, Option.map_eq_some'] at h
  obtain ⟨s1, h1, s2, h2, s3, h3, hx2⟩ := h
  obtain ⟨-, rfl⟩ := Prod.mk.injEq .. ▸ hx2
  have e1 := eatLit_length_lt (by decide) h1
  have e2 := eatLit_length_le h2
  have e3 := eatLit_length_le h3
  have b1 := eatBlanks_length_le s1
  have b2 := eatBlanks_length_le s2
  omega

theorem shrinks_mVarEOI : Shrinks mVarEOI := by
  intro s r rest h
  simp only [mVarEOI, Option.bind_eq_some, Option.map_eq_some'] at h
  obtain ⟨s1, h1, s2, h2, hx2⟩ := h
  obtain ⟨-, rfl⟩ := Prod.mk.injEq .. ▸ hx2
  have e1 := eatLit_length_lt (by decide) h1
  have e2 := eatLit_length_le h2
  have b1 := eatBlanks_length_le s1
  omega

theorem shrinks_mQualLast : Shrinks mQualLast := by
  intro s r rest h
  simp only [mQualLast, Option.bind_eq_some, Option.map_eq_some'] at h
  obtain ⟨s1, h1, s2, h2, s3, h3, s4, h4, x, hx, hx2⟩ := h
  obtain ⟨-, rfl⟩ := Prod.mk.injEq .. ▸ hx2
  have e1 := eatLit_length_lt (by decide) h1
  have e2 := eatLit_length_le h2
  have e3 := eatLit_length_le h3
  have e4 := eatLit_length_le h4
  have e5 := eatNameThen_shrink folBracket_length hx
  have b1 := eatBlanks_length_le s1
  have b2 := eatBlanks_length_le s2
  have b3 := eatBlanks_length_le s3
  have b4 := eatBlanks_length_le s4
  omega

theorem shrinks_mVarLast : Shrinks mVarLast := by
  intro s r rest h
  simp only [mVarLast, Option.bind_eq_some, Option.map_eq_some'] at h
  obtain ⟨s1, h1, s2, h2, x, hx, hx2⟩ := h
  obtain ⟨-, rfl⟩ := Prod.mk.injEq .. ▸ hx2
  have e1 := eatLit_length_lt (by decide) h1
  have e2 := eatLit_length_le h2
  have e5 := eatNameThen_shrink folBrace_length hx
  have b1 := eatBlanks_length_le s1
  have b2 := eatBlanks_length_le s2
  omega

/-! ### Skipping over rule-name (word-character) regions -/

/-- All characters are regex word characters. -/
def allWordB (a : List Char) : Bool := a.all wordc

/-- The continuation starts with a non-word character (or is empty). -/
def headNonWordB : List Char → Bool
  | [] => true
  | c :: _ => !(wordc c)

/-- Context in which a pattern whose next mandatory character is `bad` cannot
resume after a word run: non-word head, and no `bad` after the blanks. -/
def ctxB (bad : Char) (Y : List Char) : Bool :=
  headNonWordB Y &&
    (match Y.dropWhile blankc with
     | [] => true
     | c :: _ => !(c == bad))

theorem word_not_blank {c : Char} (h : wordc c = true) : blankc c = false := by
  by_contra hb
  have hb' := (Bool.not_eq_false _).mp hb
  simp only [blankc, Bool.or_eq_true, decide_eq_true_eq] at hb'
  rcases hb' with rfl | rfl <;> simp [wordc] at h

theorem allword_litPre {L w Y : List Char} (hL : allWordB L = true)
    (hY : headNonWordB Y = true) (h : litPre L (w ++ Y) = true) :
    litPre L w = true := by
  induction L generalizing w with
  | nil => simp [litPre]
  | cons d L' ihL =>
    simp only [allWordB, List.all_cons, Bool.and_eq_true] at hL
    cases w with
    | nil =>
      exfalso
      cases Y with
      | nil => simp [litPre] at h
      | cons e Y' =>
        simp only [List.nil_append, litPre, Bool.and_eq_true, beq_iff_eq] at h
        obtain ⟨rfl, -⟩ := h
        simp [headNonWordB, hL.1] at hY
    | cons e w' =>
      simp only [List.cons_append, litPre, Bool.and_eq_true] at h ⊢
      exact ⟨h.1, ihL hL.2 h.2⟩

theorem allWordB_drop {w : List Char} (hw : allWordB w = true) (n : Nat) :
    allWordB (w.drop n) = true := by
  simp only [allWordB, List.all_eq_true] at hw ⊢
  intro c hc
  exact hw c ((List.drop_subset n w) hc)

theorem eatLit_word_split {L w Y t : List Char} (hL : allWordB L = true)
    (hw : allWordB w = true) (hY : headNonWordB Y = true)
    (h : eatLit L (w ++ Y) = some t) :
    t = w.drop L.length ++ Y ∧ allWordB (w.drop L.length) = true := by
  unfold eatLit at h
  split at h
  · rename_i hpre
    have hpw := allword_litPre hL hY hpre
    have hlen := (litPre_iff.mp hpw).length_le
    cases h
    exact ⟨List.drop_append_of_le_length hlen, allWordB_drop hw _⟩
  · simp at h

/-- After a word run inside a name, a blanks-then-literal step whose literal
begins with the non-word character `bad` fails in a `bad`-free context. -/
theorem blanksBad_none {bad : Char} (hbw : wordc bad = false) {w1 Y : List Char}
    (hw1 : allWordB w1 = true)
    (hY : ctxB bad Y = true) {p : List Char} (hp : p ≠ []) (hph : p.head? = some bad) :
    eatLit p (eatBlanks (w1 ++ Y)) = none := by
  simp only [ctxB, Bool.and_eq_true] at hY
  cases w1 with
  | nil =>
    simp only [List.nil_append]
    cases p with
    | nil => exact absurd rfl hp
    | cons q p' =>
      simp only [List.head?] at hph
      cases hph
      unfold eatLit
      rw [if_neg]
      intro hpre
      cases hd : (Y.dropWhile blankc) with
      | nil => rw [show eatBlanks Y = Y.dropWhile blankc from rfl, hd] at hpre; simp [litPre] at hpre
      | cons e Y' =>
        rw [show eatBlanks Y = Y.dropWhile blankc from rfl, hd] at hpre
        simp only [litPre, Bool.and_eq_true, beq_iff_eq] at hpre
        rw [hd] at hY
        have h2 := hY.2
        simp only [Bool.not_eq_true', beq_eq_false_iff_ne, ne_eq] at h2
        exact h2 hpre.1.symm
  | cons e w1' =>
    have he : wordc e = true := by
      simp only [allWordB, List.all_cons, Bool.and_eq_true] at hw1
      exact hw1.1
    have hnb : blankc e = false := word_not_blank he
    simp only [List.cons_append]
    rw [show eatBlanks (e :: (w1' ++ Y)) = e :: (w1' ++ Y) by
      simp [eatBlanks, List.dropWhile_cons, hnb]]
    cases p with
    | nil => exact absurd rfl hp
    | cons q p' =>
      simp only [List.head?] at hph
      cases hph
      unfold eatLit
      rw [if_neg]
      intro hpre
      simp only [litPre, Bool.and_eq_true, beq_iff_eq] at hpre
      rw [← hpre.1, hbw] at he
      exact absurd he (by simp)

/-- The shared `Rule`+blanks+`::` head of the three qualified patterns fails
at every position inside a rule name. -/
theorem ruleColon_none_word {k : List Char → Option (List Char × List Char)}
    {c : Char} {v Y : List Char} (hc : wordc c = true) (hv : allWordB v = true)
    (hY : ctxB ':' Y = true) :
    ((eatLit (cs ("Rule")) ((c :: v) ++ Y)).bind fun s1 =>
      (eatLit (cs ("::")) (eatBlanks s1)).bind k) = none := by
  have hw : allWordB (c :: v) = true := by
    simp only [allWordB, List.all_cons, Bool.and_eq_true]
    exact ⟨hc, by simpa [allWordB] using hv⟩
  have hYh : headNonWordB Y = true := by
    simp only [ctxB, Bool.and_eq_true] at hY
    exact hY.1
  cases h1 : eatLit (cs ("Rule")) ((c :: v) ++ Y) with
  | none => rfl
  | some s1 =>
    obtain ⟨ht, hword⟩ := eatLit_word_split (by decide) hw hYh h1
    subst ht
    simp only [Option.some_bind]
    rw [blanksBad_none (by decide) hword hY (by decide) (by decide)]
    rfl

/-- The shared `r`+blanks+`#` head of the two variant patterns fails at every
position inside a rule name. -/
theorem rHash_none_word {k : List Char → Option (List Char × List Char)}
    {c : Char} {v Y : List Char} (hc : wordc c = true) (hv : allWordB v = true)
    (hY : ctxB '#' Y = true) :
    ((eatLit (cs ("r")) ((c :: v) ++ Y)).bind fun s1 =>
      (eatLit (cs ("#")) (eatBlanks s1)).bind k) = none := by
  have hw : allWordB (c :: v) = true := by
    simp only [allWordB, List.all_cons, Bool.and_eq_true]
    exact ⟨hc, by simpa [allWordB] using hv⟩
  have hYh : headNonWordB Y = true := by
    simp only [ctxB, Bool.and_eq_true] at hY
    exact hY.1
  cases h1 : eatLit (cs ("r")) ((c :: v) ++ Y) with
  | none => rfl
  | some s1 =>
    obtain ⟨ht, hword⟩ := eatLit_word_split (by decide) hw hYh h1
    subst ht
    simp only [Option.some_bind]
    rw [blanksBad_none (by decide) hword hY (by decide) (by decide)]
    rfl

theorem mQual_none_word {c : Char} {v Y : List Char} (hc : wordc c = true)
    (hv : allWordB v = true) (hY : ctxB ':' Y = true) :
    mQual ((c :: v) ++ Y) = none :=
  ruleColon_none_word hc hv hY

theorem mQualEOI_none_word {c : Char} {v Y : List Char} (hc : wordc c = true)
    (hv : allWordB v = true) (hY : ctxB ':' Y = true) :
    mQualEOI ((c :: v) ++ Y) = none :=
  ruleColon_none_word hc hv hY

theorem mQualLast_none_word {c : Char} {v Y : List Char} (hc : wordc c = true)
    (hv : allWordB v = true) (hY : ctxB ':' Y = true) :
    mQualLast ((c :: v) ++ Y) = none :=
  ruleColon_none_word hc hv hY

theorem mVar_none_word {c : Char} {v Y : List Char} (hc : wordc c = true)
    (hv : allWordB v = true) (hY : ctxB '#' Y = true) :
    mVar ((c :: v) ++ Y) = none :=
  rHash_none_word hc hv hY

theorem mVarLast_none_word {c : Char} {v Y : List Char} (hc : wordc c = true)
    (hv : allWordB v = true) (hY : ctxB '#' Y = true) :
    mVarLast ((c :: v) ++ Y) = none :=
  rHash_none_word hc hv hY

theorem mVarEOI_none_word {c : Char} {v Y : List Char} (hc : wordc c = true)
    (hv : allWordB v = true) (hY : ctxB ',' Y = true) :
    mVarEOI ((c :: v) ++ Y) = none := by
  have hw : allWordB (c :: v) = true := by
    simp only [allWordB, List.all_cons, Bool.and_eq_true]
    exact ⟨hc, by simpa [allWordB] using hv⟩
  have hYh : headNonWordB Y = true := by
    simp only [ctxB, Bool.and_eq_true] at hY
    exact hY.1
  unfold mVarEOI
  cases h1 : eatLit (cs ("EOI")) ((c :: v) ++ Y) with
  | none => rfl
  | some s1 =>
    obtain ⟨ht, hword⟩ := eatLit_word_split (by decide) hw hYh h1
    subst ht
    simp only [Option.some_bind]
    rw [blanksBad_none (by decide) hword hY (by decide) (by decide)]
    rfl

theorem mArrow_none_word {c : Char} {s : List Char} (hc : wordc c = true) :
    mArrow (c :: s) = none := by
  unfold mArrow litMatcher
  rw [if_neg]
  rintro ⟨-, hpre⟩
  have hexp : cs ("=>") = '=' :: ['>'] := rfl
  rw [hexp] at hpre
  simp only [litPre, Bool.and_eq_true, beq_iff_eq] at hpre
  rw [← hpre.1] at hc
  exact absurd hc (by decide)

/-- If the matcher fails at every position inside a word run followed by a
`P`-safe continuation, scanning walks straight through the run. -/
theorem scanM_skip_word {m : Matcher} {P : List Char → Bool}
    (hnone : ∀ c v Y, wordc c = true → allWordB v = true → P Y = true →
      m ((c :: v) ++ Y) = none) :
    ∀ a Y, allWordB a = true → P Y = true → scanM m (a ++ Y) = a ++ scanM m Y := by
  intro a
  induction a with
  | nil => simp
  | cons c v ih =>
    intro Y ha hP
    simp only [allWordB, List.all_cons, Bool.and_eq_true] at ha
    have h1 := hnone c v Y ha.1 (by simp [allWordB, ha.2]) hP
    rw [List.cons_append, scanM_cons_none (by simpa using h1),
      ih Y (by simp [allWordB, ha.2]) hP, List.cons_append]

/-! ### The intended match steps -/

theorem takeWhile_word_append {a : List Char} {b : Char} {Y : List Char}
    (ha : allWordB a = true) (hb : wordc b = false) :
    (a ++ b :: Y).takeWhile wordc = a := by
  induction a with
  | nil => simp [List.takeWhile_cons, hb]
  | cons c v ih =>
    simp only [allWordB, List.all_cons, Bool.and_eq_true] at ha
    simp [List.takeWhile_cons, ha.1, ih (by simp [allWordB, ha.2])]

theorem eatBlanks_word_head {a Y : List Char} (ha : allWordB a = true) (hne : a ≠ []) :
    eatBlanks (a ++ Y) = a ++ Y := by
  cases a with
  | nil => exact absurd rfl hne
  | cons c v =>
    simp only [allWordB, List.all_cons, Bool.and_eq_true] at ha
    simp [eatBlanks, List.dropWhile_cons, word_not_blank ha.1]

theorem eatNameThen_comma {a Y : List Char} (ha : allWordB a = true) (hne : a ≠ []) :
    eatNameThen (eatLit (cs (","))) (a ++ ',' :: Y) = some (a, Y) := by
  have htw : (a ++ ',' :: Y).takeWhile wordc = a := takeWhile_word_append ha (by decide)
  have hdr : (a ++ ',' :: Y).drop a.length = ',' :: Y := List.drop_left a (',' :: Y)
  have hfol : eatLit (cs (",")) (',' :: Y) = some Y := rfl
  simp [eatNameThen, eatWordThen, htw, hdr, if_neg hne, hfol]

theorem eatNameThen_bracket {a Y : List Char} (ha : allWordB a = true) (hne : a ≠ []) :
    eatNameThen (fun t => eatLit (cs ("]")) (eatWs t)) (a ++ ']' :: Y) = some (a, Y) := by
  have htw : (a ++ ']' :: Y).takeWhile wordc = a := takeWhile_word_append ha (by decide)
  have hdr : (a ++ ']' :: Y).drop a.length = ']' :: Y := List.drop_left a (']' :: Y)
  have hfol : eatLit (cs ("]")) (eatWs (']' :: Y)) = some Y := rfl
  simp [eatNameThen, eatWordThen, htw, hdr, if_neg hne, hfol]

theorem eatNameThen_spaceBrace {a Y : List Char} (ha : allWordB a = true) (hne : a ≠ []) :
    eatNameThen (fun t => eatLit (cs ("\x7d")) (eatWs t)) (a ++ ' ' :: rbrace :: Y) =
      some (a, Y) := by
  have htw : (a ++ ' ' :: rbrace :: Y).takeWhile wordc = a :=
    takeWhile_word_append ha (by decide)
  have hdr : (a ++ ' ' :: rbrace :: Y).drop a.length = ' ' :: rbrace :: Y :=
    List.drop_left a (' ' :: rbrace :: Y)
  have hfol : eatLit (cs ("\x7d")) (eatWs (' ' :: rbrace :: Y)) = some Y := rfl
  simp [eatNameThen, eatWordThen, htw, hdr, if_neg hne, hfol]

theorem mQual_match {a Y : List Char} (ha : allWordB a = true) (hne : a ≠ []) :
    mQual (cs ("Rule :: r#") ++ (a ++ ',' :: Y)) =
      some (cs ("Rule::r#") ++ a ++ cs ("(crate::r#") ++ a ++ cs (" \x7b\x7d), "), Y) := by
  have h0 : mQual (cs ("Rule :: r#") ++ (a ++ ',' :: Y)) =
      (eatNameThen (eatLit (cs (","))) (eatBlanks (a ++ ',' :: Y))).map
        (fun x => (cs ("Rule::r#") ++ x.1 ++ cs ("(crate::r#") ++ x.1
          ++ cs (" \x7b\x7d), "), x.2)) := rfl
  rw [h0, eatBlanks_word_head ha hne, eatNameThen_comma ha hne]
  rfl

theorem mVar_match {a Y : List Char} (ha : allWordB a = true) (hne : a ≠ []) :
    mVar (cs ("r#") ++ (a ++ ',' :: Y)) =
      some (cs ("r#") ++ a ++ cs ("(crate::r#") ++ a ++ cs ("), "), Y) := by
  have h0 : mVar (cs ("r#") ++ (a ++ ',' :: Y)) =
      (eatNameThen (eatLit (cs (","))) (eatBlanks (a ++ ',' :: Y))).map
        (fun x => (cs ("r#") ++ x.1 ++ cs ("(crate::r#") ++ x.1 ++ cs ("), "), x.2)) := rfl
  rw [h0, eatBlanks_word_head ha hne, eatNameThen_comma ha hne]
  rfl

theorem mQualLast_match {a Y : List Char} (ha : allWordB a = true) (hne : a ≠ []) :
    mQualLast (cs ("Rule :: r#") ++ (a ++ ']' :: Y)) =
      some (cs ("Rule::r#") ++ a ++ cs ("(crate::r#") ++ a ++ cs (" \x7b\x7d)]"), Y) := by
  have h0 : mQualLast (cs ("Rule :: r#") ++ (a ++ ']' :: Y)) =
      (eatNameThen (fun t => eatLit (cs ("]")) (eatWs t)) (eatBlanks (a ++ ']' :: Y))).map
        (fun x => (cs ("Rule::r#") ++ x.1 ++ cs ("(crate::r#") ++ x.1
          ++ cs (" \x7b\x7d)]"), x.2)) := rfl
  rw [h0, eatBlanks_word_head ha hne, eatNameThen_bracket ha hne]
  rfl

theorem mVarLast_match {a Y : List Char} (ha : allWordB a = true) (hne : a ≠ []) :
    mVarLast (cs ("r#") ++ (a ++ ' ' :: rbrace :: Y)) =
      some (cs ("r#") ++ a ++ cs ("(crate::r#") ++ a ++ cs (")\x7d"), Y) := by
  have h0 : mVarLast (cs ("r#") ++ (a ++ ' ' :: rbrace :: Y)) =
      (eatNameThen (fun t => eatLit (cs ("\x7d")) (eatWs t))
        (eatBlanks (a ++ ' ' :: rbrace :: Y))).map
        (fun x => (cs ("r#") ++ x.1 ++ cs ("(crate::r#") ++ x.1 ++ cs (")\x7d"), x.2)) := rfl
  rw [h0, eatBlanks_word_head ha hne, eatNameThen_spaceBrace ha hne]
  rfl

/-- A name followed by a character that cannot continue any branch of the
capture group: no match. -/
theorem eatNameThen_none_of_fol_none {fol : List Char → Option (List Char)} {a : List Char}
    {b : Char} {Y : List Char} (ha : allWordB a = true) (hne : a ≠ [])
    (hb : wordc b = false) (hbh : b ≠ '#') (hfol : fol (b :: Y) = none) :
    eatNameThen fol (a ++ b :: Y) = none := by
  have htw : (a ++ b :: Y).takeWhile wordc = a := takeWhile_word_append ha hb
  have hdr : (a ++ b :: Y).drop a.length = b :: Y := List.drop_left a (b :: Y)
  have h1 : eatWordThen fol (a ++ b :: Y) = none := by
    simp [eatWordThen, htw, hdr, if_neg hne, hfol]
  have h2 : eatRawThen fol (a ++ b :: Y) = none := by
    cases a with
    | nil => exact absurd rfl hne
    | cons c1 a' =>
      cases a' with
      | nil =>
        simp only [List.cons_append, List.nil_append, eatRawThen]
        rw [if_neg]
        rintro ⟨-, h2⟩
        exact hbh h2
      | cons c2 a'' =>
        simp only [List.cons_append, eatRawThen]
        rw [if_neg]
        rintro ⟨-, h2⟩
        simp only [allWordB, List.all_cons, Bool.and_eq_true] at ha
        rw [h2] at ha
        exact absurd ha.2.1 (by decide)
  rw [eatNameThen, h1, h2]
  rfl

theorem mQual_noMatch {a : List Char} {b : Char} {Y : List Char}
    (ha : allWordB a = true) (hne : a ≠ []) (hb : wordc b = false) (hbh : b ≠ '#')
    (hfol : eatLit (cs (",")) (b :: Y) = none) :
    mQual (cs ("Rule :: r#") ++ (a ++ b :: Y)) = none := by
  have h0 : mQual (cs ("Rule :: r#") ++ (a ++ b :: Y)) =
      (eatNameThen (eatLit (cs (","))) (eatBlanks (a ++ b :: Y))).map
        (fun x => (cs ("Rule::r#") ++ x.1 ++ cs ("(crate::r#") ++ x.1
          ++ cs (" \x7b\x7d), "), x.2)) := rfl
  rw [h0, eatBlanks_word_head ha hne, eatNameThen_none_of_fol_none ha hne hb hbh hfol]
  rfl

theorem mVar_noMatch {a : List Char} {b : Char} {Y : List Char}
    (ha : allWordB a = true) (hne : a ≠ []) (hb : wordc b = false) (hbh : b ≠ '#')
    (hfol : eatLit (cs (",")) (b :: Y) = none) :
    mVar (cs ("r#") ++ (a ++ b :: Y)) = none := by
  have h0 : mVar (cs ("r#") ++ (a ++ b :: Y)) =
      (eatNameThen (eatLit (cs (","))) (eatBlanks (a ++ b :: Y))).map
        (fun x => (cs ("r#") ++ x.1 ++ cs ("(crate::r#") ++ x.1 ++ cs ("), "), x.2)) := rfl
  rw [h0, eatBlanks_word_head ha hne, eatNameThen_none_of_fol_none ha hne hb hbh hfol]
  rfl

theorem mQualLast_noMatch {a : List Char} {b : Char} {Y : List Char}
    (ha : allWordB a = true) (hne : a ≠ []) (hb : wordc b = false) (hbh : b ≠ '#')
    (hfol : eatLit (cs ("]")) (eatWs (b :: Y)) = none) :
    mQualLast (cs ("Rule :: r#") ++ (a ++ b :: Y)) = none := by
  have h0 : mQualLast (cs ("Rule :: r#") ++ (a ++ b :: Y)) =
      (eatNameThen (fun t => eatLit (cs ("]")) (eatWs t)) (eatBlanks (a ++ b :: Y))).map
        (fun x => (cs ("Rule::r#") ++ x.1 ++ cs ("(crate::r#") ++ x.1
          ++ cs (" \x7b\x7d)]"), x.2)) := rfl
  rw [h0, eatBlanks_word_head ha hne, eatNameThen_none_of_fol_none ha hne hb hbh hfol]
  rfl

theorem mVarLast_noMatch {a : List Char} {b : Char} {Y : List Char}
    (ha : allWordB a = true) (hne : a ≠ []) (hb : wordc b = false) (hbh : b ≠ '#')
    (hfol : eatLit (cs ("\x7d")) (eatWs (b :: Y)) = none) :
    mVarLast (cs ("r#") ++ (a ++ b :: Y)) = none := by
  have h0 : mVarLast (cs ("r#") ++ (a ++ b :: Y)) =
      (eatNameThen (fun t => eatLit (cs ("\x7d")) (eatWs t)) (eatBlanks (a ++ b :: Y))).map
        (fun x => (cs ("r#") ++ x.1 ++ cs ("(crate::r#") ++ x.1 ++ cs (")\x7d"), x.2)) := rfl
  rw [h0, eatBlanks_word_head ha hne, eatNameThen_none_of_fol_none ha hne hb hbh hfol]
  rfl

/-! ### Names are well formed -/

/-- Well-formed rule names: nonempty words. -/
def wfNames (rs : List (List Char)) : Prop := ∀ a ∈ rs, allWordB a = true ∧ a ≠ []

theorem wfNames_tail {a : List Char} {t : List (List Char)} (h : wfNames (a :: t)) :
    wfNames t := fun x hx => h x (by simp [hx])

theorem wfNames_head {a : List Char} {t : List (List Char)} (h : wfNames (a :: t)) :
    allWordB a = true ∧ a ≠ [] := h a (by simp)

/-! ### The arrow pass -/

/-- `=`-free text, through which the arrow replacement scans without effect. -/
def noEqB (A : List Char) : Bool := A.all fun c => !(c == '=')

theorem mArrow_none_of_ne {c : Char} {s : List Char} (hc : c ≠ '=') :
    mArrow (c :: s) = none := by
  unfold mArrow litMatcher
  rw [if_neg]
  rintro ⟨-, hpre⟩
  have hexp : cs ("=>") = '=' :: ['>'] := rfl
  rw [hexp] at hpre
  simp only [litPre, Bool.and_eq_true, beq_iff_eq] at hpre
  exact hc hpre.1.symm

theorem mArrow_match (Z : List Char) : mArrow ('=' :: '>' :: Z) = some (cs ("(_) =>"), Z) :=
  rfl

theorem scanArrow_skip :
    ∀ A, noEqB A = true → ∀ B, scanM mArrow (A ++ B) = A ++ scanM mArrow B := by
  intro A
  induction A with
  | nil => simp
  | cons c t ih =>
    intro h B
    simp only [noEqB, List.all_cons, Bool.and_eq_true, Bool.not_eq_true',
      beq_eq_false_iff_ne, ne_eq] at h
    rw [List.cons_append, scanM_cons_none (mArrow_none_of_ne h.1),
      ih (by simp [noEqB, h.2]) B, List.cons_append]

theorem noEqB_append {A B : List Char} (hA : noEqB A = true) (hB : noEqB B = true) :
    noEqB (A ++ B) = true := by
  simp only [noEqB, List.all_append, Bool.and_eq_true]
  exact ⟨hA, hB⟩

theorem noEqB_of_allWord {a : List Char} (ha : allWordB a = true) : noEqB a = true := by
  simp only [noEqB, allWordB, List.all_eq_true] at *
  intro c hc
  have hw := ha c hc
  simp only [Bool.not_eq_true', beq_eq_false_iff_ne, ne_eq]
  rintro rfl
  exact absurd hw (by decide)

theorem vchain_noEq {rs : List (List Char)} (h : wfNames rs) : noEqB (vchain rs) = true := by
  induction rs with
  | nil => decide
  | cons a t ih =>
    cases t with
    | nil =>
      exact noEqB_append (noEqB_append (by decide) (noEqB_of_allWord (wfNames_head h).1))
        (by decide)
    | cons b t' =>
      exact noEqB_append
        (noEqB_append (noEqB_append (by decide) (noEqB_of_allWord (wfNames_head h).1))
          (by decide)) (ih (wfNames_tail h))

theorem echain_noEq {rs : List (List Char)} (h : wfNames rs) : noEqB (echain rs) = true := by
  induction rs with
  | nil => decide
  | cons a t ih =>
    cases t with
    | nil =>
      exact noEqB_append (noEqB_append (by decide) (noEqB_of_allWord (wfNames_head h).1))
        (by decide)
    | cons b t' =>
      exact noEqB_append
        (noEqB_append (noEqB_append (by decide) (noEqB_of_allWord (wfNames_head h).1))
          (by decide)) (ih (wfNames_tail h))

theorem fchain_noEq {rs : List (List Char)} (h : wfNames rs) : noEqB (fchain rs) = true := by
  induction rs with
  | nil => decide
  | cons a t ih =>
    exact noEqB_append
      (noEqB_append
        (noEqB_append
          (noEqB_append (noEqB_append (by decide) (noEqB_of_allWord (wfNames_head h).1))
            (by decide))
          (noEqB_of_allWord (wfNames_head h).1))
        (by decide))
      (ih (wfNames_tail h))

theorem scanArrow_marms {rs : List (List Char)} (h : wfNames rs) :
    ∀ Y, scanM mArrow (marms rs ++ Y) = marmsR rs ++ scanM mArrow Y := by
  induction rs with
  | nil => simp [marms, marmsR]
  | cons a t ih =>
    intro Y
    obtain ⟨ha, hne⟩ := wfNames_head h
    simp only [marms, marmsR, List.append_assoc]
    rw [scanArrow_skip (cs ("Rule :: r#")) (by decide)]
    rw [scanArrow_skip a (noEqB_of_allWord ha)]
    have e1 : cs (" => rules :: r#") ++ (a ++ (cs ("(state), ") ++ (marms t ++ Y)))
        = ' ' :: '=' :: '>' :: (cs (" rules :: r#")
            ++ (a ++ (cs ("(state), ") ++ (marms t ++ Y)))) := rfl
    rw [e1]
    rw [scanM_cons_none (mArrow_none_of_ne (by decide))]
    rw [scanM_cons_some shrinks_mArrow (mArrow_match _)]
    rw [scanArrow_skip (cs (" rules :: r#")) (by decide)]
    rw [scanArrow_skip a (noEqB_of_allWord ha)]
    rw [scanArrow_skip (cs ("(state), ")) (by decide)]
    rw [ih (wfNames_tail h) Y]
    have e2 : cs (" (_) => rules :: r#") = ' ' :: (cs ("(_) =>") ++ cs (" rules :: r#")) := rfl
    rw [e2]
    simp only [List.append_assoc, List.cons_append]

theorem scanArrow_gArmEOI (Y : List Char) :
    scanM mArrow (gArmEOI ++ Y) = gArmEOIR ++ scanM mArrow Y := by
  have e1 : gArmEOI ++ Y
      = cs ("Rule :: EOI ") ++ ('=' :: '>'
          :: (cs (" rules :: EOI(state) \x7d) \x7d \x7d mod rules \x7b ") ++ Y)) := by
    simp [gArmEOI, List.append_assoc]
    rfl
  rw [e1]
  rw [scanArrow_skip (cs ("Rule :: EOI ")) (by decide)]
  rw [scanM_cons_some shrinks_mArrow (mArrow_match _)]
  rw [scanArrow_skip (cs (" rules :: EOI(state) \x7d) \x7d \x7d mod rules \x7b ")) (by decide)]
  have e2 : gArmEOIR = cs ("Rule :: EOI ") ++ (cs ("(_) =>")
      ++ cs (" rules :: EOI(state) \x7d) \x7d \x7d mod rules \x7b ")) := rfl
  rw [e2]
  simp only [List.append_assoc]

theorem scanArrow_skip_end {A : List Char} (h : noEqB A = true) : scanM mArrow A = A := by
  have h1 := scanArrow_skip A h []
  rw [List.append_nil] at h1
  rw [h1, scanM_nil, List.append_nil]

/-! ### Intermediate chain shapes -/

/-- `all_rules` entries after the qualified-comma pass (last entry pending). -/
def echainQ : List (List Char) → List Char
  | [] => cs ("]")
  | [a] => cs ("Rule :: r#") ++ a ++ cs ("]")
  | a :: b :: t => cs ("Rule::r#") ++ a ++ cs ("(crate::r#") ++ a ++ cs (" \x7b\x7d),  ")
      ++ echainQ (b :: t)

/-- Enumeration variants after the variant-comma pass (last variant pending). -/
def vchainV : List (List Char) → List Char
  | [] => cs (" \x7d")
  | [a] => cs ("r#") ++ a ++ cs (" \x7d")
  | a :: b :: t => cs ("r#") ++ a ++ cs ("(crate::r#") ++ a ++ cs ("),  ") ++ vchainV (b :: t)

/-! ### The pipeline stages on the schematic shape (nonempty rule list) -/

def stage1 (rs : List (List Char)) (interface : List Char) : List Char :=
  gAllow ++ (dAttrText interface ++ (gDeriveHead ++ (cs ("EOI, ")
    ++ (vchain rs ++ (gImplAll ++ (echain rs ++ (gMatchHead ++ (marms rs
    ++ (gArmEOI ++ (fchain rs ++ gFnEOI))))))))))

def stage2 (rs : List (List Char)) (interface : List Char) : List Char :=
  gAllow ++ (dAttrText interface ++ (gDeriveHead ++ (cs ("EOI, ")
    ++ (vchain rs ++ (gImplAll ++ (echain rs ++ (gMatchHead ++ (marmsR rs
    ++ (gArmEOIR ++ (fchain rs ++ gFnEOI))))))))))

def stage3 (rs : List (List Char)) (interface : List Char) : List Char :=
  gAllow ++ (dAttrText interface ++ (gDeriveHead ++ (cs ("EOI, ")
    ++ (vchain rs ++ (gImplAll ++ (echainQ rs ++ (gMatchHead ++ (marmsR rs
    ++ (gArmEOIR ++ (fchainR rs ++ gFnEOI))))))))))

def stage4 (rs : List (List Char)) (interface : List Char) : List Char :=
  gAllow ++ (dAttrText interface ++ (gDeriveHead ++ (cs ("EOI, ")
    ++ (vchainV rs ++ (gImplAll ++ (echainQ rs ++ (gMatchHead ++ (marmsR rs
    ++ (gArmEOIR ++ (fchainR rs ++ gFnEOI))))))))))

def stage5 (rs : List (List Char)) (interface : List Char) : List Char :=
  gAllow ++ (dAttrText interface ++ (gDeriveHead ++ (cs ("EOI, ")
    ++ (vchainV rs ++ (gImplAll ++ (echainQ rs ++ (gMatchHead ++ (marmsR rs
    ++ (gArmEOIR ++ (fchainR rs ++ gFnEOIR))))))))))

def stage6 (rs : List (List Char)) (interface : List Char) : List Char :=
  gAllow ++ (dAttrText interface ++ (gDeriveHead ++ (cs ("EOI(crate::EOI),  ")
    ++ (vchainV rs ++ (gImplAll ++ (echainQ rs ++ (gMatchHead ++ (marmsR rs
    ++ (gArmEOIR ++ (fchainR rs ++ gFnEOIR))))))))))

def stage7 (rs : List (List Char)) (interface : List Char) : List Char :=
  gAllow ++ (dAttrText interface ++ (gDeriveHead ++ (cs ("EOI(crate::EOI),  ")
    ++ (vchainV rs ++ (gImplAll ++ (echainR rs ++ (gMatchHead ++ (marmsR rs
    ++ (gArmEOIR ++ (fchainR rs ++ gFnEOIR))))))))))

def stage8 (rs : List (List Char)) (interface : List Char) : List Char :=
  gAllow ++ (dAttrText interface ++ (gDeriveHead ++ (cs ("EOI(crate::EOI),  ")
    ++ (vchainR rs ++ (gImplAll ++ (echainR rs ++ (gMatchHead ++ (marmsR rs
    ++ (gArmEOIR ++ (fchainR rs ++ gFnEOIR))))))))))

theorem passArrow {rs : List (List Char)} (h : wfNames rs) {I : List Char}
    (hI : allWordB I = true) :
    scanM mArrow (stage1 rs I) = stage2 rs I := by
  unfold stage1 stage2 dAttrText
  simp only [List.append_assoc]
  rw [scanArrow_skip gAllow (by decide)]
  rw [scanArrow_skip (cs ("#[enum_dispatch(")) (by decide)]
  rw [scanArrow_skip I (noEqB_of_allWord hI)]
  rw [scanArrow_skip (cs (")]\r\n")) (by decide)]
  rw [scanM_skip sound_mArrow gDeriveHead (by decide)]
  rw [scanArrow_skip (cs ("EOI, ")) (by decide)]
  rw [scanArrow_skip (vchain rs) (vchain_noEq h)]
  rw [scanArrow_skip gImplAll (by decide)]
  rw [scanArrow_skip (echain rs) (echain_noEq h)]
  rw [scanArrow_skip gMatchHead (by decide)]
  rw [scanArrow_marms h]
  rw [scanArrow_gArmEOI]
  rw [scanArrow_skip (fchain rs) (fchain_noEq h)]
  rw [scanArrow_skip_end (by decide)]

/-! ### Shared walking helpers for the regex passes -/

theorem scanM_head_match {m : Matcher} (hm : Shrinks m) {A B r rest : List Char}
    (hA : A ≠ []) (h : m (A ++ B) = some (r, rest)) :
    scanM m (A ++ B) = r ++ scanM m rest := by
  cases A with
  | nil => exact absurd rfl hA
  | cons c A' =>
    rw [List.cons_append] at h ⊢
    exact scanM_cons_some hm h

theorem eatLit_none_head {L : List Char} {c : Char} {s : List Char} {d : Char} {L' : List Char}
    (hL : L = d :: L') (hc : c ≠ d) : eatLit L (c :: s) = none := by
  subst hL
  unfold eatLit
  rw [if_neg]
  intro hpre
  simp only [litPre, Bool.and_eq_true, beq_iff_eq] at hpre
  exact hc hpre.1.symm

theorem mQual_none_head {c : Char} {s : List Char} (hc : c ≠ 'R') : mQual (c :: s) = none := by
  unfold mQual
  rw [eatLit_none_head (show cs ("Rule") = 'R' :: cs ("ule") from rfl) hc]
  rfl

theorem mVar_none_head {c : Char} {s : List Char} (hc : c ≠ 'r') : mVar (c :: s) = none := by
  unfold mVar
  rw [eatLit_none_head (show cs ("r") = 'r' :: cs ("") from rfl) hc]
  rfl

theorem mQualEOI_none_head {c : Char} {s : List Char} (hc : c ≠ 'R') :
    mQualEOI (c :: s) = none := by
  unfold mQualEOI
  rw [eatLit_none_head (show cs ("Rule") = 'R' :: cs ("ule") from rfl) hc]
  rfl

theorem mVarEOI_none_head {c : Char} {s : List Char} (hc : c ≠ 'E') :
    mVarEOI (c :: s) = none := by
  unfold mVarEOI
  rw [eatLit_none_head (show cs ("EOI") = 'E' :: cs ("OI") from rfl) hc]
  rfl

theorem mQualLast_none_head {c : Char} {s : List Char} (hc : c ≠ 'R') :
    mQualLast (c :: s) = none := by
  unfold mQualLast
  rw [eatLit_none_head (show cs ("Rule") = 'R' :: cs ("ule") from rfl) hc]
  rfl

theorem mVarLast_none_head {c : Char} {s : List Char} (hc : c ≠ 'r') :
    mVarLast (c :: s) = none := by
  unfold mVarLast
  rw [eatLit_none_head (show cs ("r") = 'r' :: cs ("") from rfl) hc]
  rfl

/-! ### Name-region skips per matcher -/

theorem scanQual_name {a Y : List Char} (ha : allWordB a = true) (hY : ctxB ':' Y = true) :
    scanM mQual (a ++ Y) = a ++ scanM mQual Y :=
  scanM_skip_word (fun _ _ _ hc hv hY => mQual_none_word hc hv hY) a Y ha hY

theorem scanVar_name {a Y : List Char} (ha : allWordB a = true) (hY : ctxB '#' Y = true) :
    scanM mVar (a ++ Y) = a ++ scanM mVar Y :=
  scanM_skip_word (fun _ _ _ hc hv hY => mVar_none_word hc hv hY) a Y ha hY

theorem scanQualEOI_name {a Y : List Char} (ha : allWordB a = true)
    (hY : ctxB ':' Y = true) : scanM mQualEOI (a ++ Y) = a ++ scanM mQualEOI Y :=
  scanM_skip_word (fun _ _ _ hc hv hY => mQualEOI_none_word hc hv hY) a Y ha hY

theorem scanVarEOI_name {a Y : List Char} (ha : allWordB a = true)
    (hY : ctxB ',' Y = true) : scanM mVarEOI (a ++ Y) = a ++ scanM mVarEOI Y :=
  scanM_skip_word (fun _ _ _ hc hv hY => mVarEOI_none_word hc hv hY) a Y ha hY

theorem scanQualLast_name {a Y : List Char} (ha : allWordB a = true)
    (hY : ctxB ':' Y = true) : scanM mQualLast (a ++ Y) = a ++ scanM mQualLast Y :=
  scanM_skip_word (fun _ _ _ hc hv hY => mQualLast_none_word hc hv hY) a Y ha hY

theorem scanVarLast_name {a Y : List Char} (ha : allWordB a = true)
    (hY : ctxB '#' Y = true) : scanM mVarLast (a ++ Y) = a ++ scanM mVarLast Y :=
  scanM_skip_word (fun _ _ _ hc hv hY => mVarLast_none_word hc hv hY) a Y ha hY

/-! ### Site skips: a qualified or variant name occurrence whose follow
character does not complete the pattern -/

theorem scanQual_nameSite {a : List Char} {b : Char} {Y : List Char}
    (ha : allWordB a = true) (hne : a ≠ []) (hb : wordc b = false) (hbh : b ≠ '#')
    (hfol : eatLit (cs (",")) (b :: Y) = none) (hctx : ctxB ':' (b :: Y) = true) :
    scanM mQual (cs ("Rule :: r#") ++ (a ++ b :: Y)) =
      cs ("Rule :: r#") ++ (a ++ scanM mQual (b :: Y)) := by
  have e0 : ∀ Z : List Char, cs ("Rule :: r#") ++ Z = 'R' :: (cs ("ule :: r#") ++ Z) :=
    fun Z => rfl
  have h0 : mQual ('R' :: (cs ("ule :: r#") ++ (a ++ b :: Y))) = none :=
    mQual_noMatch ha hne hb hbh hfol
  simp only [e0]
  rw [scanM_cons_none h0]
  rw [scanM_skip sound_mQual (cs ("ule :: r#")) (by decide)]
  rw [scanQual_name ha hctx]

theorem scanVar_nameSite {a : List Char} {b : Char} {Y : List Char}
    (ha : allWordB a = true) (hne : a ≠ []) (hb : wordc b = false) (hbh : b ≠ '#')
    (hfol : eatLit (cs (",")) (b :: Y) = none) (hctx : ctxB '#' (b :: Y) = true) :
    scanM mVar (cs ("r#") ++ (a ++ b :: Y)) =
      cs ("r#") ++ (a ++ scanM mVar (b :: Y)) := by
  have e0 : ∀ Z : List Char, cs ("r#") ++ Z = 'r' :: (cs ("#") ++ Z) := fun Z => rfl
  have h0 : mVar ('r' :: (cs ("#") ++ (a ++ b :: Y))) = none :=
    mVar_noMatch ha hne hb hbh hfol
  simp only [e0]
  rw [scanM_cons_none h0]
  rw [scanM_skip sound_mVar (cs ("#")) (by decide)]
  rw [scanVar_name ha hctx]

theorem scanQualLast_nameSite {a : List Char} {b : Char} {Y : List Char}
    (ha : allWordB a = true) (hne : a ≠ []) (hb : wordc b = false) (hbh : b ≠ '#')
    (hfol : eatLit (cs ("]")) (eatWs (b :: Y)) = none) (hctx : ctxB ':' (b :: Y) = true) :
    scanM mQualLast (cs ("Rule :: r#") ++ (a ++ b :: Y)) =
      cs ("Rule :: r#") ++ (a ++ scanM mQualLast (b :: Y)) := by
  have e0 : ∀ Z : List Char, cs ("Rule :: r#") ++ Z = 'R' :: (cs ("ule :: r#") ++ Z) :=
    fun Z => rfl
  have h0 : mQualLast ('R' :: (cs ("ule :: r#") ++ (a ++ b :: Y))) = none :=
    mQualLast_noMatch ha hne hb hbh hfol
  simp only [e0]
  rw [scanM_cons_none h0]
  rw [scanM_skip sound_mQualLast (cs ("ule :: r#")) (by decide)]
  rw [scanQualLast_name ha hctx]

theorem scanVarLast_nameSite {a : List Char} {b : Char} {Y : List Char}
    (ha : allWordB a = true) (hne : a ≠ []) (hb : wordc b = false) (hbh : b ≠ '#')
    (hfol : eatLit (cs ("\x7d")) (eatWs (b :: Y)) = none) (hctx : ctxB '#' (b :: Y) = true) :
    scanM mVarLast (cs ("r#") ++ (a ++ b :: Y)) =
      cs ("r#") ++ (a ++ scanM mVarLast (b :: Y)) := by
  have e0 : ∀ Z : List Char, cs ("r#") ++ Z = 'r' :: (cs ("#") ++ Z) := fun Z => rfl
  have h0 : mVarLast ('r' :: (cs ("#") ++ (a ++ b :: Y))) = none :=
    mVarLast_noMatch ha hne hb hbh hfol
  simp only [e0]
  rw [scanM_cons_none h0]
  rw [scanM_skip sound_mVarLast (cs ("#")) (by decide)]
  rw [scanVarLast_name ha hctx]

theorem scanM_skip_end {m : Matcher} {might} (hs : Sound m might) {A : List Char}
    (h : noStarts might A = true) : scanM m A = A := by
  have h1 := scanM_skip hs A h []
  rw [List.append_nil] at h1
  rw [h1, scanM_nil, List.append_nil]

/-! ### The qualified-comma pass -/

theorem scanQual_vchain {rs : List (List Char)} (h : wfNames rs) :
    ∀ Y, scanM mQual (vchain rs ++ Y) = vchain rs ++ scanM mQual Y := by
  induction rs with
  | nil =>
    intro Y
    simp only [vchain]
    rw [scanM_skip sound_mQual (cs (" \x7d")) (by decide)]
  | cons a t ih =>
    obtain ⟨ha, hne⟩ := wfNames_head h
    cases t with
    | nil =>
      intro Y
      simp only [vchain, List.append_assoc]
      rw [scanM_skip sound_mQual (cs ("r#")) (by decide)]
      rw [scanQual_name ha (by rfl)]
      rw [scanM_skip sound_mQual (cs (" \x7d")) (by decide)]
    | cons b t' =>
      intro Y
      simp only [vchain, List.append_assoc]
      rw [scanM_skip sound_mQual (cs ("r#")) (by decide)]
      rw [scanQual_name ha (by rfl)]
      rw [scanM_skip sound_mQual (cs (", ")) (by decide)]
      rw [ih (wfNames_tail h) Y]

theorem scanQual_echain {rs : List (List Char)} (h : wfNames rs) :
    ∀ Y, scanM mQual (echain rs ++ Y) = echainQ rs ++ scanM mQual Y := by
  induction rs with
  | nil =>
    intro Y
    simp only [echain, echainQ]
    rw [scanM_skip sound_mQual (cs ("]")) (by decide)]
  | cons a t ih =>
    obtain ⟨ha, hne⟩ := wfNames_head h
    cases t with
    | nil =>
      intro Y
      simp only [echain, echainQ, List.append_assoc]
      have e1 : ∀ Z : List Char, cs ("]") ++ Z = ']' :: Z := fun Z => rfl
      simp only [e1]
      rw [scanQual_nameSite ha hne (by decide) (by decide) (by rfl) (by rfl)]
      rw [scanM_cons_none (mQual_none_head (by decide))]
    | cons b t' =>
      intro Y
      simp only [echain, echainQ, List.append_assoc]
      have e1 : ∀ Z : List Char, cs (", ") ++ Z = ',' :: (' ' :: Z) := fun Z => rfl
      simp only [e1]
      rw [scanM_head_match shrinks_mQual (by decide) (mQual_match ha hne)]
      have e2 : ∀ Z : List Char, (' ' : Char) :: Z = cs (" ") ++ Z := fun Z => rfl
      rw [e2]
      rw [scanM_skip sound_mQual (cs (" ")) (by decide)]
      rw [ih (wfNames_tail h) Y]
      have e3 : ∀ Z : List Char, cs (" \x7b\x7d), ") ++ (cs (" ") ++ Z)
          = cs (" \x7b\x7d),  ") ++ Z := fun Z => rfl
      simp only [List.append_assoc, e3]

theorem scanQual_marmsR {rs : List (List Char)} (h : wfNames rs) :
    ∀ Y, scanM mQual (marmsR rs ++ Y) = marmsR rs ++ scanM mQual Y := by
  induction rs with
  | nil => simp [marmsR]
  | cons a t ih =>
    obtain ⟨ha, hne⟩ := wfNames_head h
    intro Y
    simp only [marmsR, List.append_assoc]
    have e1 : ∀ Z : List Char, cs (" (_) => rules :: r#") ++ Z
        = ' ' :: (cs ("(_) => rules :: r#") ++ Z) := fun Z => rfl
    simp only [e1]
    rw [scanQual_nameSite ha hne (by decide) (by decide) (by rfl) (by rfl)]
    have e2 : ∀ Z : List Char, (' ' : Char) :: (cs ("(_) => rules :: r#") ++ Z)
        = cs (" (_) => rules :: r#") ++ Z := fun Z => rfl
    simp only [e2]
    rw [scanM_skip sound_mQual (cs (" (_) => rules :: r#")) (by decide)]
    rw [scanQual_name ha (by rfl)]
    rw [scanM_skip sound_mQual (cs ("(state), ")) (by decide)]
    rw [ih (wfNames_tail h) Y]

theorem scanQual_fchain {rs : List (List Char)} (h : wfNames rs) :
    ∀ Y, scanM mQual (fchain rs ++ Y) = fchainR rs ++ scanM mQual Y := by
  induction rs with
  | nil => simp [fchain, fchainR]
  | cons a t ih =>
    obtain ⟨ha, hne⟩ := wfNames_head h
    intro Y
    simp only [fchain, fchainR, List.append_assoc]
    rw [scanM_skip sound_mQual (cs ("pub fn r#")) (by decide)]
    rw [scanQual_name ha (by rfl)]
    have e1 : ∀ Z : List Char, cs ("(state : S) -> R \x7b state.rule(Rule :: r#") ++ Z
        = cs ("(state : S) -> R \x7b state.rule(") ++ (cs ("Rule :: r#") ++ Z) :=
      fun Z => rfl
    simp only [e1]
    rw [scanM_skip sound_mQual (cs ("(state : S) -> R \x7b state.rule(")) (by decide)]
    have e2 : ∀ Z : List Char, cs (", f) \x7d ") ++ Z = ',' :: (cs (" f) \x7d ") ++ Z) :=
      fun Z => rfl
    simp only [e2]
    rw [scanM_head_match shrinks_mQual (by decide) (mQual_match ha hne)]
    rw [scanM_skip sound_mQual (cs (" f) \x7d ")) (by decide)]
    rw [ih (wfNames_tail h) Y]
    have e3 : ∀ Z : List Char, cs ("(state : S) -> R \x7b state.rule(")
        ++ (cs ("Rule::r#") ++ Z)
        = cs ("(state : S) -> R \x7b state.rule(Rule::r#") ++ Z := fun Z => rfl
    have e4 : ∀ Z : List Char, cs (" \x7b\x7d), ") ++ (cs (" f) \x7d ") ++ Z)
        = cs (" \x7b\x7d),  f) \x7d ") ++ Z := fun Z => rfl
    simp only [List.append_assoc, e3, e4]

theorem scanVar_vchain {rs : List (List Char)} (h : wfNames rs) :
    ∀ Y, scanM mVar (vchain rs ++ Y) = vchainV rs ++ scanM mVar Y := by
  induction rs with
  | nil =>
    intro Y
    simp only [vchain, vchainV]
    rw [scanM_skip sound_mVar (cs (" \x7d")) (by decide)]
  | cons a t ih =>
    obtain ⟨ha, hne⟩ := wfNames_head h
    cases t with
    | nil =>
      intro Y
      simp only [vchain, vchainV, List.append_assoc]
      have e1 : ∀ Z : List Char, cs (" \x7d") ++ Z = ' ' :: ('\x7d' :: Z) := fun Z => rfl
      simp only [e1]
      rw [scanVar_nameSite ha hne (by decide) (by decide) (by rfl) (by rfl)]
      rw [scanM_cons_none (mVar_none_head (by decide))]
      rw [scanM_cons_none (mVar_none_head (by decide))]
    | cons b t' =>
      intro Y
      simp only [vchain, vchainV, List.append_assoc]
      have e1 : ∀ Z : List Char, cs (", ") ++ Z = ',' :: (' ' :: Z) := fun Z => rfl
      simp only [e1]
      rw [scanM_head_match shrinks_mVar (by decide) (mVar_match ha hne)]
      have e2 : ∀ Z : List Char, (' ' : Char) :: Z = cs (" ") ++ Z := fun Z => rfl
      rw [e2]
      rw [scanM_skip sound_mVar (cs (" ")) (by decide)]
      rw [ih (wfNames_tail h) Y]
      have e3 : ∀ Z : List Char, cs ("), ") ++ (cs (" ") ++ Z) = cs ("),  ") ++ Z :=
        fun Z => rfl
      simp only [List.append_assoc, e3]

theorem scanVar_echainQ {rs : List (List Char)} (h : wfNames rs) :
    ∀ Y, scanM mVar (echainQ rs ++ Y) = echainQ rs ++ scanM mVar Y := by
  induction rs with
  | nil =>
    intro Y
    simp only [echainQ]
    rw [scanM_skip sound_mVar (cs ("]")) (by decide)]
  | cons a t ih =>
    obtain ⟨ha, hne⟩ := wfNames_head h
    cases t with
    | nil =>
      intro Y
      simp only [echainQ, List.append_assoc]
      have e0 : ∀ Z : List Char, cs ("Rule :: r#") ++ Z
          = cs ("Rule :: ") ++ (cs ("r#") ++ Z) := fun Z => rfl
      have e1 : ∀ Z : List Char, cs ("]") ++ Z = ']' :: Z := fun Z => rfl
      simp only [e0, e1]
      rw [scanM_skip sound_mVar (cs ("Rule :: ")) (by decide)]
      rw [scanVar_nameSite ha hne (by decide) (by decide) (by rfl) (by rfl)]
      rw [scanM_cons_none (mVar_none_head (by decide))]
    | cons b t' =>
      intro Y
      simp only [echainQ, List.append_assoc]
      have e0 : ∀ Z : List Char, cs ("Rule::r#") ++ Z
          = cs ("Rule::") ++ (cs ("r#") ++ Z) := fun Z => rfl
      have e1 : ∀ Z : List Char, cs ("(crate::r#") ++ Z
          = '(' :: (cs ("crate::r#") ++ Z) := fun Z => rfl
      simp only [e0, e1]
      rw [scanM_skip sound_mVar (cs ("Rule::")) (by decide)]
      rw [scanVar_nameSite ha hne (by decide) (by decide) (by rfl) (by rfl)]
      have e2 : ∀ Z : List Char, ('(' : Char) :: (cs ("crate::r#") ++ Z)
          = cs ("(crate::") ++ (cs ("r#") ++ Z) := fun Z => rfl
      simp only [e2]
      rw [scanM_skip sound_mVar (cs ("(crate::")) (by decide)]
      have e3 : ∀ Z : List Char, cs (" \x7b\x7d),  ") ++ Z
          = ' ' :: (cs ("\x7b\x7d),  ") ++ Z) := fun Z => rfl
      simp only [e3]
      rw [scanVar_nameSite ha hne (by decide) (by decide) (by rfl) (by rfl)]
      have e4 : ∀ Z : List Char, (' ' : Char) :: (cs ("\x7b\x7d),  ") ++ Z)
          = cs (" \x7b\x7d),  ") ++ Z := fun Z => rfl
      simp only [e4]
      rw [scanM_skip sound_mVar (cs (" \x7b\x7d),  ")) (by decide)]
      rw [ih (wfNames_tail h) Y]

theorem scanVar_marmsR {rs : List (List Char)} (h : wfNames rs) :
    ∀ Y, scanM mVar (marmsR rs ++ Y) = marmsR rs ++ scanM mVar Y := by
  induction rs with
  | nil => simp [marmsR]
  | cons a t ih =>
    obtain ⟨ha, hne⟩ := wfNames_head h
    intro Y
    simp only [marmsR, List.append_assoc]
    have e0 : ∀ Z : List Char, cs ("Rule :: r#") ++ Z
        = cs ("Rule :: ") ++ (cs ("r#") ++ Z) := fun Z => rfl
    have e1 : ∀ Z : List Char, cs (" (_) => rules :: r#") ++ Z
        = ' ' :: (cs ("(_) => rules :: r#") ++ Z) := fun Z => rfl
    simp only [e0, e1]
    rw [scanM_skip sound_mVar (cs ("Rule :: ")) (by decide)]
    rw [scanVar_nameSite ha hne (by decide) (by decide) (by rfl) (by rfl)]
    have e2 : ∀ Z : List Char, (' ' : Char) :: (cs ("(_) => rules :: r#") ++ Z)
        = cs (" (_) => rules :: ") ++ (cs ("r#") ++ Z) := fun Z => rfl
    simp only [e2]
    rw [scanM_skip sound_mVar (cs (" (_) => rules :: ")) (by decide)]
    have e3 : ∀ Z : List Char, cs ("(state), ") ++ Z
        = '(' :: (cs ("state), ") ++ Z) := fun Z => rfl
    simp only [e3]
    rw [scanVar_nameSite ha hne (by decide) (by decide) (by rfl) (by rfl)]
    have e4 : ∀ Z : List Char, ('(' : Char) :: (cs ("state), ") ++ Z)
        = cs ("(state), ") ++ Z := fun Z => rfl
    simp only [e4]
    rw [scanM_skip sound_mVar (cs ("(state), ")) (by decide)]
    rw [ih (wfNames_tail h) Y]

theorem scanVar_fchainR {rs : List (List Char)} (h : wfNames rs) :
    ∀ Y, scanM mVar (fchainR rs ++ Y) = fchainR rs ++ scanM mVar Y := by
  induction rs with
  | nil => simp [fchainR]
  | cons a t ih =>
    obtain ⟨ha, hne⟩ := wfNames_head h
    intro Y
    simp only [fchainR, List.append_assoc]
    have e0 : ∀ Z : List Char, cs ("pub fn r#") ++ Z
        = cs ("pub fn ") ++ (cs ("r#") ++ Z) := fun Z => rfl
    have e1 : ∀ Z : List Char, cs ("(state : S) -> R \x7b state.rule(Rule::r#") ++ Z
        = '(' :: (cs ("state : S) -> R \x7b state.rule(Rule::") ++ (cs ("r#") ++ Z)) :=
      fun Z => rfl
    simp only [e0, e1]
    rw [scanM_skip sound_mVar (cs ("pub fn ")) (by decide)]
    rw [scanVar_nameSite ha hne (by decide) (by decide) (by rfl) (by rfl)]
    have e2 : ∀ Z : List Char,
        ('(' : Char) :: (cs ("state : S) -> R \x7b state.rule(Rule::") ++ Z)
        = cs ("(state : S) -> R \x7b state.rule(Rule::") ++ Z := fun Z => rfl
    simp only [e2]
    rw [scanM_skip sound_mVar (cs ("(state : S) -> R \x7b state.rule(Rule::")) (by decide)]
    have e3 : ∀ Z : List Char, cs ("(crate::r#") ++ Z
        = '(' :: (cs ("crate::") ++ (cs ("r#") ++ Z)) := fun Z => rfl
    simp only [e3]
    rw [scanVar_nameSite ha hne (by decide) (by decide) (by rfl) (by rfl)]
    have e4 : ∀ Z : List Char, ('(' : Char) :: (cs ("crate::") ++ Z)
        = cs ("(crate::") ++ Z := fun Z => rfl
    simp only [e4]
    rw [scanM_skip sound_mVar (cs ("(crate::")) (by decide)]
    have e5 : ∀ Z : List Char, cs (" \x7b\x7d),  f) \x7d ") ++ Z
        = ' ' :: (cs ("\x7b\x7d),  f) \x7d ") ++ Z) := fun Z => rfl
    simp only [e5]
    rw [scanVar_nameSite ha hne (by decide) (by decide) (by rfl) (by rfl)]
    have e6 : ∀ Z : List Char, (' ' : Char) :: (cs ("\x7b\x7d),  f) \x7d ") ++ Z)
        = cs (" \x7b\x7d),  f) \x7d ") ++ Z := fun Z => rfl
    simp only [e6]
    rw [scanM_skip sound_mVar (cs (" \x7b\x7d),  f) \x7d ")) (by decide)]
    rw [ih (wfNames_tail h) Y]

theorem passVar {rs : List (List Char)} (h : wfNames rs) {I : List Char}
    (hI : allWordB I = true) :
    scanM mVar (stage3 rs I) = stage4 rs I := by
  unfold stage3 stage4 dAttrText
  simp only [List.append_assoc]
  rw [scanM_skip sound_mVar gAllow (by decide)]
  rw [scanM_skip sound_mVar (cs ("#[enum_dispatch(")) (by decide)]
  rw [scanVar_name hI (by rfl)]
  rw [scanM_skip sound_mVar (cs (")]\r\n")) (by decide)]
  rw [scanM_skip sound_mVar gDeriveHead (by decide)]
  rw [scanM_skip sound_mVar (cs ("EOI, ")) (by decide)]
  rw [scanVar_vchain h]
  rw [scanM_skip sound_mVar gImplAll (by decide)]
  rw [scanVar_echainQ h]
  rw [scanM_skip sound_mVar gMatchHead (by decide)]
  rw [scanVar_marmsR h]
  rw [scanM_skip sound_mVar gArmEOIR (by decide)]
  rw [scanVar_fchainR h]
  rw [scanM_skip_end sound_mVar (by decide)]

theorem scanQualEOI_vchainV {rs : List (List Char)} (h : wfNames rs) :
    ∀ Y, scanM mQualEOI (vchainV rs ++ Y) = vchainV rs ++ scanM mQualEOI Y := by
  induction rs with
  | nil =>
    intro Y
    simp only [vchainV]
    rw [scanM_skip sound_mQualEOI (cs (" \x7d")) (by decide)]
  | cons a t ih =>
    obtain ⟨ha, hne⟩ := wfNames_head h
    cases t with
    | nil =>
      intro Y
      simp only [vchainV, List.append_assoc]
      rw [scanM_skip sound_mQualEOI (cs ("r#")) (by decide)]
      rw [scanQualEOI_name ha (by rfl)]
      rw [scanM_skip sound_mQualEOI (cs (" \x7d")) (by decide)]
    | cons b t' =>
      intro Y
      simp only [vchainV, List.append_assoc]
      rw [scanM_skip sound_mQualEOI (cs ("r#")) (by decide)]
      rw [scanQualEOI_name ha (by rfl)]
      rw [scanM_skip sound_mQualEOI (cs ("(crate::r#")) (by decide)]
      rw [scanQualEOI_name ha (by rfl)]
      rw [scanM_skip sound_mQualEOI (cs ("),  ")) (by decide)]
      rw [ih (wfNames_tail h) Y]

theorem scanQualEOI_echainQ {rs : List (List Char)} (h : wfNames rs) :
    ∀ Y, scanM mQualEOI (echainQ rs ++ Y) = echainQ rs ++ scanM mQualEOI Y := by
  induction rs with
  | nil =>
    intro Y
    simp only [echainQ]
    rw [scanM_skip sound_mQualEOI (cs ("]")) (by decide)]
  | cons a t ih =>
    obtain ⟨ha, hne⟩ := wfNames_head h
    cases t with
    | nil =>
      intro Y
      simp only [echainQ, List.append_assoc]
      rw [scanM_skip sound_mQualEOI (cs ("Rule :: r#")) (by decide)]
      rw [scanQualEOI_name ha (by rfl)]
      rw [scanM_skip sound_mQualEOI (cs ("]")) (by decide)]
    | cons b t' =>
      intro Y
      simp only [echainQ, List.append_assoc]
      rw [scanM_skip sound_mQualEOI (cs ("Rule::r#")) (by decide)]
      rw [scanQualEOI_name ha (by rfl)]
      rw [scanM_skip sound_mQualEOI (cs ("(crate::r#")) (by decide)]
      rw [scanQualEOI_name ha (by rfl)]
      rw [scanM_skip sound_mQualEOI (cs (" \x7b\x7d),  ")) (by decide)]
      rw [ih (wfNames_tail h) Y]

theorem scanQualEOI_marmsR {rs : List (List Char)} (h : wfNames rs) :
    ∀ Y, scanM mQualEOI (marmsR rs ++ Y) = marmsR rs ++ scanM mQualEOI Y := by
  induction rs with
  | nil => simp [marmsR]
  | cons a t ih =>
    obtain ⟨ha, hne⟩ := wfNames_head h
    intro Y
    simp only [marmsR, List.append_assoc]
    rw [scanM_skip sound_mQualEOI (cs ("Rule :: r#")) (by decide)]
    rw [scanQualEOI_name ha (by rfl)]
    rw [scanM_skip sound_mQualEOI (cs (" (_) => rules :: r#")) (by decide)]
    rw [scanQualEOI_name ha (by rfl)]
    rw [scanM_skip sound_mQualEOI (cs ("(state), ")) (by decide)]
    rw [ih (wfNames_tail h) Y]

theorem scanQualEOI_fchainR {rs : List (List Char)} (h : wfNames rs) :
    ∀ Y, scanM mQualEOI (fchainR rs ++ Y) = fchainR rs ++ scanM mQualEOI Y := by
  induction rs with
  | nil => simp [fchainR]
  | cons a t ih =>
    obtain ⟨ha, hne⟩ := wfNames_head h
    intro Y
    simp only [fchainR, List.append_assoc]
    rw [scanM_skip sound_mQualEOI (cs ("pub fn r#")) (by decide)]
    rw [scanQualEOI_name ha (by rfl)]
    rw [scanM_skip sound_mQualEOI
      (cs ("(state : S) -> R \x7b state.rule(Rule::r#")) (by decide)]
    rw [scanQualEOI_name ha (by rfl)]
    rw [scanM_skip sound_mQualEOI (cs ("(crate::r#")) (by decide)]
    rw [scanQualEOI_name ha (by rfl)]
    rw [scanM_skip sound_mQualEOI (cs (" \x7b\x7d),  f) \x7d ")) (by decide)]
    rw [ih (wfNames_tail h) Y]

theorem passQualEOI {rs : List (List Char)} (h : wfNames rs) {I : List Char}
    (hI : allWordB I = true) :
    scanM mQualEOI (stage4 rs I) = stage5 rs I := by
  unfold stage4 stage5 dAttrText
  simp only [List.append_assoc]
  rw [scanM_skip sound_mQualEOI gAllow (by decide)]
  rw [scanM_skip sound_mQualEOI (cs ("#[enum_dispatch(")) (by decide)]
  rw [scanQualEOI_name hI (by rfl)]
  rw [scanM_skip sound_mQualEOI (cs (")]\r\n")) (by decide)]
  rw [scanM_skip sound_mQualEOI gDeriveHead (by decide)]
  rw [scanM_skip sound_mQualEOI (cs ("EOI, ")) (by decide)]
  rw [scanQualEOI_vchainV h]
  rw [scanM_skip sound_mQualEOI gImplAll (by decide)]
  rw [scanQualEOI_echainQ h]
  rw [scanM_skip sound_mQualEOI gMatchHead (by decide)]
  rw [scanQualEOI_marmsR h]
  rw [scanM_skip sound_mQualEOI gArmEOIR (by decide)]
  rw [scanQualEOI_fchainR h]
  rw [(by decide : scanM mQualEOI gFnEOI = gFnEOIR)]

theorem mVarEOI_match (Y : List Char) :
    mVarEOI (cs ("EOI") ++ ',' :: Y) = some (cs ("EOI(crate::EOI), "), Y) := rfl

theorem scanVarEOI_vchainV {rs : List (List Char)} (h : wfNames rs) :
    ∀ Y, scanM mVarEOI (vchainV rs ++ Y) = vchainV rs ++ scanM mVarEOI Y := by
  induction rs with
  | nil =>
    intro Y
    simp only [vchainV]
    rw [scanM_skip sound_mVarEOI (cs (" \x7d")) (by decide)]
  | cons a t ih =>
    obtain ⟨ha, hne⟩ := wfNames_head h
    cases t with
    | nil =>
      intro Y
      simp only [vchainV, List.append_assoc]
      rw [scanM_skip sound_mVarEOI (cs ("r#")) (by decide)]
      rw [scanVarEOI_name ha (by rfl)]
      rw [scanM_skip sound_mVarEOI (cs (" \x7d")) (by decide)]
    | cons b t' =>
      intro Y
      simp only [vchainV, List.append_assoc]
      rw [scanM_skip sound_mVarEOI (cs ("r#")) (by decide)]
      rw [scanVarEOI_name ha (by rfl)]
      rw [scanM_skip sound_mVarEOI (cs ("(crate::r#")) (by decide)]
      rw [scanVarEOI_name ha (by rfl)]
      rw [scanM_skip sound_mVarEOI (cs ("),  ")) (by decide)]
      rw [ih (wfNames_tail h) Y]

theorem scanVarEOI_echainQ {rs : List (List Char)} (h : wfNames rs) :
    ∀ Y, scanM mVarEOI (echainQ rs ++ Y) = echainQ rs ++ scanM mVarEOI Y := by
  induction rs with
  | nil =>
    intro Y
    simp only [echainQ]
    rw [scanM_skip sound_mVarEOI (cs ("]")) (by decide)]
  | cons a t ih =>
    obtain ⟨ha, hne⟩ := wfNames_head h
    cases t with
    | nil =>
      intro Y
      simp only [echainQ, List.append_assoc]
      rw [scanM_skip sound_mVarEOI (cs ("Rule :: r#")) (by decide)]
      rw [scanVarEOI_name ha (by rfl)]
      rw [scanM_skip sound_mVarEOI (cs ("]")) (by decide)]
    | cons b t' =>
      intro Y
      simp only [echainQ, List.append_assoc]
      rw [scanM_skip sound_mVarEOI (cs ("Rule::r#")) (by decide)]
      rw [scanVarEOI_name ha (by rfl)]
      rw [scanM_skip sound_mVarEOI (cs ("(crate::r#")) (by decide)]
      rw [scanVarEOI_name ha (by rfl)]
      rw [scanM_skip sound_mVarEOI (cs (" \x7b\x7d),  ")) (by decide)]
      rw [ih (wfNames_tail h) Y]

theorem scanVarEOI_marmsR {rs : List (List Char)} (h : wfNames rs) :
    ∀ Y, scanM mVarEOI (marmsR rs ++ Y) = marmsR rs ++ scanM mVarEOI Y := by
  induction rs with
  | nil => simp [marmsR]
  | cons a t ih =>
    obtain ⟨ha, hne⟩ := wfNames_head h
    intro Y
    simp only [marmsR, List.append_assoc]
    rw [scanM_skip sound_mVarEOI (cs ("Rule :: r#")) (by decide)]
    rw [scanVarEOI_name ha (by rfl)]
    rw [scanM_skip sound_mVarEOI (cs (" (_) => rules :: r#")) (by decide)]
    rw [scanVarEOI_name ha (by rfl)]
    rw [scanM_skip sound_mVarEOI (cs ("(state), ")) (by decide)]
    rw [ih (wfNames_tail h) Y]

theorem scanVarEOI_fchainR {rs : List (List Char)} (h : wfNames rs) :
    ∀ Y, scanM mVarEOI (fchainR rs ++ Y) = fchainR rs ++ scanM mVarEOI Y := by
  induction rs with
  | nil => simp [fchainR]
  | cons a t ih =>
    obtain ⟨ha, hne⟩ := wfNames_head h
    intro Y
    simp only [fchainR, List.append_assoc]
    rw [scanM_skip sound_mVarEOI (cs ("pub fn r#")) (by decide)]
    rw [scanVarEOI_name ha (by rfl)]
    rw [scanM_skip sound_mVarEOI
      (cs ("(state : S) -> R \x7b state.rule(Rule::r#")) (by decide)]
    rw [scanVarEOI_name ha (by rfl)]
    rw [scanM_skip sound_mVarEOI (cs ("(crate::r#")) (by decide)]
    rw [scanVarEOI_name ha (by rfl)]
    rw [scanM_skip sound_mVarEOI (cs (" \x7b\x7d),  f) \x7d ")) (by decide)]
    rw [ih (wfNames_tail h) Y]

theorem passVarEOI {rs : List (List Char)} (h : wfNames rs) {I : List Char}
    (hI : allWordB I = true) :
    scanM mVarEOI (stage5 rs I) = stage6 rs I := by
  unfold stage5 stage6 dAttrText
  simp only [List.append_assoc]
  rw [scanM_skip sound_mVarEOI gAllow (by decide)]
  rw [scanM_skip sound_mVarEOI (cs ("#[enum_dispatch(")) (by decide)]
  rw [scanVarEOI_name hI (by rfl)]
  rw [scanM_skip sound_mVarEOI (cs (")]\r\n")) (by decide)]
  rw [scanM_skip sound_mVarEOI gDeriveHead (by decide)]
  have e1 : ∀ Z : List Char, cs ("EOI, ") ++ Z = cs ("EOI") ++ (',' :: (' ' :: Z)) :=
    fun Z => rfl
  simp only [e1]
  rw [scanM_head_match shrinks_mVarEOI (by decide) (mVarEOI_match _)]
  have e2 : ∀ Z : List Char, (' ' : Char) :: Z = cs (" ") ++ Z := fun Z => rfl
  rw [e2]
  rw [scanM_skip sound_mVarEOI (cs (" ")) (by decide)]
  rw [scanVarEOI_vchainV h]
  rw [scanM_skip sound_mVarEOI gImplAll (by decide)]
  rw [scanVarEOI_echainQ h]
  rw [scanM_skip sound_mVarEOI gMatchHead (by decide)]
  rw [scanVarEOI_marmsR h]
  rw [scanM_skip sound_mVarEOI gArmEOIR (by decide)]
  rw [scanVarEOI_fchainR h]
  rw [(by decide : scanM mVarEOI gFnEOIR = gFnEOIR)]
  have e3 : ∀ Z : List Char, cs ("EOI(crate::EOI), ") ++ (cs (" ") ++ Z)
      = cs ("EOI(crate::EOI),  ") ++ Z := fun Z => rfl
  simp only [List.append_assoc, e3]

theorem mQualLast_noMatch2 {a : List Char} {b : Char} {Y : List Char}
    (ha : allWordB a = true) (hne : a ≠ []) (hb : wordc b = false) (hbh : b ≠ '#')
    (hfol : eatLit (cs ("]")) (eatWs (b :: Y)) = none) :
    mQualLast (cs ("Rule::r#") ++ (a ++ b :: Y)) = none := by
  have h0 : mQualLast (cs ("Rule::r#") ++ (a ++ b :: Y)) =
      (eatNameThen (fun t => eatLit (cs ("]")) (eatWs t)) (eatBlanks (a ++ b :: Y))).map
        (fun x => (cs ("Rule::r#") ++ x.1 ++ cs ("(crate::r#") ++ x.1
          ++ cs (" \x7b\x7d)]"), x.2)) := rfl
  rw [h0, eatBlanks_word_head ha hne, eatNameThen_none_of_fol_none ha hne hb hbh hfol]
  rfl

theorem scanQualLast_nameSite2 {a : List Char} {b : Char} {Y : List Char}
    (ha : allWordB a = true) (hne : a ≠ []) (hb : wordc b = false) (hbh : b ≠ '#')
    (hfol : eatLit (cs ("]")) (eatWs (b :: Y)) = none) (hctx : ctxB ':' (b :: Y) = true) :
    scanM mQualLast (cs ("Rule::r#") ++ (a ++ b :: Y)) =
      cs ("Rule::r#") ++ (a ++ scanM mQualLast (b :: Y)) := by
  have e0 : ∀ Z : List Char, cs ("Rule::r#") ++ Z = 'R' :: (cs ("ule::r#") ++ Z) :=
    fun Z => rfl
  have h0 : mQualLast ('R' :: (cs ("ule::r#") ++ (a ++ b :: Y))) = none :=
    mQualLast_noMatch2 ha hne hb hbh hfol
  simp only [e0]
  rw [scanM_cons_none h0]
  rw [scanM_skip sound_mQualLast (cs ("ule::r#")) (by decide)]
  rw [scanQualLast_name ha hctx]

theorem scanQualLast_vchainV {rs : List (List Char)} (h : wfNames rs) :
    ∀ Y, scanM mQualLast (vchainV rs ++ Y) = vchainV rs ++ scanM mQualLast Y := by
  induction rs with
  | nil =>
    intro Y
    simp only [vchainV]
    rw [scanM_skip sound_mQualLast (cs (" \x7d")) (by decide)]
  | cons a t ih =>
    obtain ⟨ha, hne⟩ := wfNames_head h
    cases t with
    | nil =>
      intro Y
      simp only [vchainV, List.append_assoc]
      rw [scanM_skip sound_mQualLast (cs ("r#")) (by decide)]
      rw [scanQualLast_name ha (by rfl)]
      rw [scanM_skip sound_mQualLast (cs (" \x7d")) (by decide)]
    | cons b t' =>
      intro Y
      simp only [vchainV, List.append_assoc]
      rw [scanM_skip sound_mQualLast (cs ("r#")) (by decide)]
      rw [scanQualLast_name ha (by rfl)]
      rw [scanM_skip sound_mQualLast (cs ("(crate::r#")) (by decide)]
      rw [scanQualLast_name ha (by rfl)]
      rw [scanM_skip sound_mQualLast (cs ("),  ")) (by decide)]
      rw [ih (wfNames_tail h) Y]

theorem scanQualLast_echainQ {rs : List (List Char)} (h : wfNames rs) :
    ∀ Y, scanM mQualLast (echainQ rs ++ Y) = echainR rs ++ scanM mQualLast Y := by
  induction rs with
  | nil =>
    intro Y
    simp only [echainQ, echainR]
    rw [scanM_skip sound_mQualLast (cs ("]")) (by decide)]
  | cons a t ih =>
    obtain ⟨ha, hne⟩ := wfNames_head h
    cases t with
    | nil =>
      intro Y
      simp only [echainQ, echainR, List.append_assoc]
      have e1 : ∀ Z : List Char, cs ("]") ++ Z = ']' :: Z := fun Z => rfl
      simp only [e1]
      rw [scanM_head_match shrinks_mQualLast (by decide) (mQualLast_match ha hne)]
      simp only [List.append_assoc]
    | cons b t' =>
      intro Y
      simp only [echainQ, echainR, List.append_assoc]
      have e1 : ∀ Z : List Char, cs ("(crate::r#") ++ Z
          = '(' :: (cs ("crate::r#") ++ Z) := fun Z => rfl
      simp only [e1]
      rw [scanQualLast_nameSite2 ha hne (by decide) (by decide) (by rfl) (by rfl)]
      have e2 : ∀ Z : List Char, ('(' : Char) :: (cs ("crate::r#") ++ Z)
          = cs ("(crate::r#") ++ Z := fun Z => rfl
      simp only [e2]
      rw [scanM_skip sound_mQualLast (cs ("(crate::r#")) (by decide)]
      rw [scanQualLast_name ha (by rfl)]
      rw [scanM_skip sound_mQualLast (cs (" \x7b\x7d),  ")) (by decide)]
      rw [ih (wfNames_tail h) Y]

theorem scanQualLast_marmsR {rs : List (List Char)} (h : wfNames rs) :
    ∀ Y, scanM mQualLast (marmsR rs ++ Y) = marmsR rs ++ scanM mQualLast Y := by
  induction rs with
  | nil => simp [marmsR]
  | cons a t ih =>
    obtain ⟨ha, hne⟩ := wfNames_head h
    intro Y
    simp only [marmsR, List.append_assoc]
    have e1 : ∀ Z : List Char, cs (" (_) => rules :: r#") ++ Z
        = ' ' :: (cs ("(_) => rules :: r#") ++ Z) := fun Z => rfl
    simp only [e1]
    rw [scanQualLast_nameSite ha hne (by decide) (by decide) (by rfl) (by rfl)]
    have e2 : ∀ Z : List Char, (' ' : Char) :: (cs ("(_) => rules :: r#") ++ Z)
        = cs (" (_) => rules :: r#") ++ Z := fun Z => rfl
    simp only [e2]
    rw [scanM_skip sound_mQualLast (cs (" (_) => rules :: r#")) (by decide)]
    rw [scanQualLast_name ha (by rfl)]
    rw [scanM_skip sound_mQualLast (cs ("(state), ")) (by decide)]
    rw [ih (wfNames_tail h) Y]

theorem scanQualLast_fchainR {rs : List (List Char)} (h : wfNames rs) :
    ∀ Y, scanM mQualLast (fchainR rs ++ Y) = fchainR rs ++ scanM mQualLast Y := by
  induction rs with
  | nil => simp [fchainR]
  | cons a t ih =>
    obtain ⟨ha, hne⟩ := wfNames_head h
    intro Y
    simp only [fchainR, List.append_assoc]
    rw [scanM_skip sound_mQualLast (cs ("pub fn r#")) (by decide)]
    rw [scanQualLast_name ha (by rfl)]
    have e1 : ∀ Z : List Char, cs ("(state : S) -> R \x7b state.rule(Rule::r#") ++ Z
        = cs ("(state : S) -> R \x7b state.rule(") ++ (cs ("Rule::r#") ++ Z) :=
      fun Z => rfl
    simp only [e1]
    rw [scanM_skip sound_mQualLast (cs ("(state : S) -> R \x7b state.rule(")) (by decide)]
    have e2 : ∀ Z : List Char, cs ("(crate::r#") ++ Z
        = '(' :: (cs ("crate::r#") ++ Z) := fun Z => rfl
    simp only [e2]
    rw [scanQualLast_nameSite2 ha hne (by decide) (by decide) (by rfl) (by rfl)]
    have e3 : ∀ Z : List Char, ('(' : Char) :: (cs ("crate::r#") ++ Z)
        = cs ("(crate::r#") ++ Z := fun Z => rfl
    simp only [e3]
    rw [scanM_skip sound_mQualLast (cs ("(crate::r#")) (by decide)]
    rw [scanQualLast_name ha (by rfl)]
    rw [scanM_skip sound_mQualLast (cs (" \x7b\x7d),  f) \x7d ")) (by decide)]
    rw [ih (wfNames_tail h) Y]

theorem passQualLast {rs : List (List Char)} (h : wfNames rs) {I : List Char}
    (hI : allWordB I = true) :
    scanM mQualLast (stage6 rs I) = stage7 rs I := by
  unfold stage6 stage7 dAttrText
  simp only [List.append_assoc]
  rw [scanM_skip sound_mQualLast gAllow (by decide)]
  rw [scanM_skip sound_mQualLast (cs ("#[enum_dispatch(")) (by decide)]
  rw [scanQualLast_name hI (by rfl)]
  rw [scanM_skip sound_mQualLast (cs (")]\r\n")) (by decide)]
  rw [scanM_skip sound_mQualLast gDeriveHead (by decide)]
  rw [scanM_skip sound_mQualLast (cs ("EOI(crate::EOI),  ")) (by decide)]
  rw [scanQualLast_vchainV h]
  rw [scanM_skip sound_mQualLast gImplAll (by decide)]
  rw [scanQualLast_echainQ h]
  rw [scanM_skip sound_mQualLast gMatchHead (by decide)]
  rw [scanQualLast_marmsR h]
  rw [scanM_skip sound_mQualLast gArmEOIR (by decide)]
  rw [scanQualLast_fchainR h]
  rw [(by decide : scanM mQualLast gFnEOIR = gFnEOIR)]

theorem scanVarLast_vchainV {rs : List (List Char)} (h : wfNames rs) :
    ∀ Y, scanM mVarLast (vchainV rs ++ Y) = vchainR rs ++ scanM mVarLast Y := by
  induction rs with
  | nil =>
    intro Y
    simp only [vchainV, vchainR]
    rw [scanM_skip sound_mVarLast (cs (" \x7d")) (by decide)]
  | cons a t ih =>
    obtain ⟨ha, hne⟩ := wfNames_head h
    cases t with
    | nil =>
      intro Y
      simp only [vchainV, vchainR, List.append_assoc]
      have e1 : ∀ Z : List Char, cs (" \x7d") ++ Z = ' ' :: rbrace :: Z := fun Z => rfl
      simp only [e1]
      rw [scanM_head_match shrinks_mVarLast (by decide) (mVarLast_match ha hne)]
      simp only [List.append_assoc]
    | cons b t' =>
      intro Y
      simp only [vchainV, vchainR, List.append_assoc]
      have e1 : ∀ Z : List Char, cs ("(crate::r#") ++ Z
          = '(' :: (cs ("crate::r#") ++ Z) := fun Z => rfl
      simp only [e1]
      rw [scanVarLast_nameSite ha hne (by decide) (by decide) (by rfl) (by rfl)]
      have e2 : ∀ Z : List Char, ('(' : Char) :: (cs ("crate::r#") ++ Z)
          = cs ("(crate::") ++ (cs ("r#") ++ Z) := fun Z => rfl
      simp only [e2]
      rw [scanM_skip sound_mVarLast (cs ("(crate::")) (by decide)]
      have e3 : ∀ Z : List Char, cs ("),  ") ++ Z = ')' :: (cs (",  ") ++ Z) :=
        fun Z => rfl
      simp only [e3]
      rw [scanVarLast_nameSite ha hne (by decide) (by decide) (by rfl) (by rfl)]
      have e4 : ∀ Z : List Char, (')' : Char) :: (cs (",  ") ++ Z)
          = cs ("),  ") ++ Z := fun Z => rfl
      simp only [e4]
      rw [scanM_skip sound_mVarLast (cs ("),  ")) (by decide)]
      rw [ih (wfNames_tail h) Y]

theorem scanVarLast_echainR {rs : List (List Char)} (h : wfNames rs) :
    ∀ Y, scanM mVarLast (echainR rs ++ Y) = echainR rs ++ scanM mVarLast Y := by
  induction rs with
  | nil =>
    intro Y
    simp only [echainR]
    rw [scanM_skip sound_mVarLast (cs ("]")) (by decide)]
  | cons a t ih =>
    obtain ⟨ha, hne⟩ := wfNames_head h
    cases t with
    | nil =>
      intro Y
      simp only [echainR, List.append_assoc]
      have e0 : ∀ Z : List Char, cs ("Rule::r#") ++ Z
          = cs ("Rule::") ++ (cs ("r#") ++ Z) := fun Z => rfl
      have e1 : ∀ Z : List Char, cs ("(crate::r#") ++ Z
          = '(' :: (cs ("crate::r#") ++ Z) := fun Z => rfl
      simp only [e0, e1]
      rw [scanM_skip sound_mVarLast (cs ("Rule::")) (by decide)]
      rw [scanVarLast_nameSite ha hne (by decide) (by decide) (by rfl) (by rfl)]
      have e2 : ∀ Z : List Char, ('(' : Char) :: (cs ("crate::r#") ++ Z)
          = cs ("(crate::") ++ (cs ("r#") ++ Z) := fun Z => rfl
      simp only [e2]
      rw [scanM_skip sound_mVarLast (cs ("(crate::")) (by decide)]
      have e3 : ∀ Z : List Char, cs (" \x7b\x7d)]") ++ Z
          = ' ' :: (cs ("\x7b\x7d)]") ++ Z) := fun Z => rfl
      simp only [e3]
      rw [scanVarLast_nameSite ha hne (by decide) (by decide) (by rfl) (by rfl)]
      have e4 : ∀ Z : List Char, (' ' : Char) :: (cs ("\x7b\x7d)]") ++ Z)
          = cs (" \x7b\x7d)]") ++ Z := fun Z => rfl
      simp only [e4]
      rw [scanM_skip sound_mVarLast (cs (" \x7b\x7d)]")) (by decide)]
    | cons b t' =>
      intro Y
      simp only [echainR, List.append_assoc]
      have e0 : ∀ Z : List Char, cs ("Rule::r#") ++ Z
          = cs ("Rule::") ++ (cs ("r#") ++ Z) := fun Z => rfl
      have e1 : ∀ Z : List Char, cs ("(crate::r#") ++ Z
          = '(' :: (cs ("crate::r#") ++ Z) := fun Z => rfl
      simp only [e0, e1]
      rw [scanM_skip sound_mVarLast (cs ("Rule::")) (by decide)]
      rw [scanVarLast_nameSite ha hne (by decide) (by decide) (by rfl) (by rfl)]
      have e2 : ∀ Z : List Char, ('(' : Char) :: (cs ("crate::r#") ++ Z)
          = cs ("(crate::") ++ (cs ("r#") ++ Z) := fun Z => rfl
      simp only [e2]
      rw [scanM_skip sound_mVarLast (cs ("(crate::")) (by decide)]
      have e3 : ∀ Z : List Char, cs (" \x7b\x7d),  ") ++ Z
          = ' ' :: (cs ("\x7b\x7d),  ") ++ Z) := fun Z => rfl
      simp only [e3]
      rw [scanVarLast_nameSite ha hne (by decide) (by decide) (by rfl) (by rfl)]
      have e4 : ∀ Z : List Char, (' ' : Char) :: (cs ("\x7b\x7d),  ") ++ Z)
          = cs (" \x7b\x7d),  ") ++ Z := fun Z => rfl
      simp only [e4]
      rw [scanM_skip sound_mVarLast (cs (" \x7b\x7d),  ")) (by decide)]
      rw [ih (wfNames_tail h) Y]

theorem scanVarLast_marmsR {rs : List (List Char)} (h : wfNames rs) :
    ∀ Y, scanM mVarLast (marmsR rs ++ Y) = marmsR rs ++ scanM mVarLast Y := by
  induction rs with
  | nil => simp [marmsR]
  | cons a t ih =>
    obtain ⟨ha, hne⟩ := wfNames_head h
    intro Y
    simp only [marmsR, List.append_assoc]
    have e0 : ∀ Z : List Char, cs ("Rule :: r#") ++ Z
        = cs ("Rule :: ") ++ (cs ("r#") ++ Z) := fun Z => rfl
    have e1 : ∀ Z : List Char, cs (" (_) => rules :: r#") ++ Z
        = ' ' :: (cs ("(_) => rules :: r#") ++ Z) := fun Z => rfl
    simp only [e0, e1]
    rw [scanM_skip sound_mVarLast (cs ("Rule :: ")) (by decide)]
    rw [scanVarLast_nameSite ha hne (by decide) (by decide) (by rfl) (by rfl)]
    have e2 : ∀ Z : List Char, (' ' : Char) :: (cs ("(_) => rules :: r#") ++ Z)
        = cs (" (_) => rules :: ") ++ (cs ("r#") ++ Z) := fun Z => rfl
    simp only [e2]
    rw [scanM_skip sound_mVarLast (cs (" (_) => rules :: ")) (by decide)]
    have e3 : ∀ Z : List Char, cs ("(state), ") ++ Z
        = '(' :: (cs ("state), ") ++ Z) := fun Z => rfl
    simp only [e3]
    rw [scanVarLast_nameSite ha hne (by decide) (by decide) (by rfl) (by rfl)]
    have e4 : ∀ Z : List Char, ('(' : Char) :: (cs ("state), ") ++ Z)
        = cs ("(state), ") ++ Z := fun Z => rfl
    simp only [e4]
    rw [scanM_skip sound_mVarLast (cs ("(state), ")) (by decide)]
    rw [ih (wfNames_tail h) Y]

theorem scanVarLast_fchainR {rs : List (List Char)} (h : wfNames rs) :
    ∀ Y, scanM mVarLast (fchainR rs ++ Y) = fchainR rs ++ scanM mVarLast Y := by
  induction rs with
  | nil => simp [fchainR]
  | cons a t ih =>
    obtain ⟨ha, hne⟩ := wfNames_head h
    intro Y
    simp only [fchainR, List.append_assoc]
    have e0 : ∀ Z : List Char, cs ("pub fn r#") ++ Z
        = cs ("pub fn ") ++ (cs ("r#") ++ Z) := fun Z => rfl
    have e1 : ∀ Z : List Char, cs ("(state : S) -> R \x7b state.rule(Rule::r#") ++ Z
        = '(' :: (cs ("state : S) -> R \x7b state.rule(Rule::") ++ (cs ("r#") ++ Z)) :=
      fun Z => rfl
    simp only [e0, e1]
    rw [scanM_skip sound_mVarLast (cs ("pub fn ")) (by decide)]
    rw [scanVarLast_nameSite ha hne (by decide) (by decide) (by rfl) (by rfl)]
    have e2 : ∀ Z : List Char,
        ('(' : Char) :: (cs ("state : S) -> R \x7b state.rule(Rule::") ++ Z)
        = cs ("(state : S) -> R \x7b state.rule(Rule::") ++ Z := fun Z => rfl
    simp only [e2]
    rw [scanM_skip sound_mVarLast
      (cs ("(state : S) -> R \x7b state.rule(Rule::")) (by decide)]
    have e3 : ∀ Z : List Char, cs ("(crate::r#") ++ Z
        = '(' :: (cs ("crate::") ++ (cs ("r#") ++ Z)) := fun Z => rfl
    simp only [e3]
    rw [scanVarLast_nameSite ha hne (by decide) (by decide) (by rfl) (by rfl)]
    have e4 : ∀ Z : List Char, ('(' : Char) :: (cs ("crate::") ++ Z)
        = cs ("(crate::") ++ Z := fun Z => rfl
    simp only [e4]
    rw [scanM_skip sound_mVarLast (cs ("(crate::")) (by decide)]
    have e5 : ∀ Z : List Char, cs (" \x7b\x7d),  f) \x7d ") ++ Z
        = ' ' :: (cs ("\x7b\x7d),  f) \x7d ") ++ Z) := fun Z => rfl
    simp only [e5]
    rw [scanVarLast_nameSite ha hne (by decide) (by decide) (by rfl) (by rfl)]
    have e6 : ∀ Z : List Char, (' ' : Char) :: (cs ("\x7b\x7d),  f) \x7d ") ++ Z)
        = cs (" \x7b\x7d),  f) \x7d ") ++ Z := fun Z => rfl
    simp only [e6]
    rw [scanM_skip sound_mVarLast (cs (" \x7b\x7d),  f) \x7d ")) (by decide)]
    rw [ih (wfNames_tail h) Y]

theorem passVarLast {rs : List (List Char)} (h : wfNames rs) {I : List Char}
    (hI : allWordB I = true) :
    scanM mVarLast (stage7 rs I) = stage8 rs I := by
  unfold stage7 stage8 dAttrText
  simp only [List.append_assoc]
  rw [scanM_skip sound_mVarLast gAllow (by decide)]
  rw [scanM_skip sound_mVarLast (cs ("#[enum_dispatch(")) (by decide)]
  rw [scanVarLast_name hI (by rfl)]
  rw [scanM_skip sound_mVarLast (cs (")]\r\n")) (by decide)]
  rw [scanM_skip sound_mVarLast gDeriveHead (by decide)]
  rw [scanM_skip sound_mVarLast (cs ("EOI(crate::EOI),  ")) (by decide)]
  rw [scanVarLast_vchainV h]
  rw [scanM_skip sound_mVarLast gImplAll (by decide)]
  rw [scanVarLast_echainR h]
  rw [scanM_skip sound_mVarLast gMatchHead (by decide)]
  rw [scanVarLast_marmsR h]
  rw [scanM_skip sound_mVarLast gArmEOIR (by decide)]
  rw [scanVarLast_fchainR h]
  rw [(by decide : scanM mVarLast gFnEOIR = gFnEOIR)]

theorem passQual {rs : List (List Char)} (h : wfNames rs) {I : List Char}
    (hI : allWordB I = true) :
    scanM mQual (stage2 rs I) = stage3 rs I := by
  unfold stage2 stage3 dAttrText
  simp only [List.append_assoc]
  rw [scanM_skip sound_mQual gAllow (by decide)]
  rw [scanM_skip sound_mQual (cs ("#[enum_dispatch(")) (by decide)]
  rw [scanQual_name hI (by rfl)]
  rw [scanM_skip sound_mQual (cs (")]\r\n")) (by decide)]
  rw [scanM_skip sound_mQual gDeriveHead (by decide)]
  rw [scanM_skip sound_mQual (cs ("EOI, ")) (by decide)]
  rw [scanQual_vchain h]
  rw [scanM_skip sound_mQual gImplAll (by decide)]
  rw [scanQual_echain h]
  rw [scanM_skip sound_mQual gMatchHead (by decide)]
  rw [scanQual_marmsR h]
  rw [scanM_skip sound_mQual gArmEOIR (by decide)]
  rw [scanQual_fchain h]
  rw [scanM_skip_end sound_mQual (by decide)]

/-! ### Locating the insertion point -/

theorem litPre_append_of_le {p : List Char} :
    ∀ {s : List Char}, p.length ≤ s.length → ∀ B, litPre p (s ++ B) = litPre p s := by
  induction p with
  | nil => intro s _ B; rfl
  | cons c q ih =>
    intro s hl B
    cases s with
    | nil => simp at hl
    | cons d t =>
      simp only [List.cons_append, litPre]
      simp only [List.length_cons, Nat.add_le_add_iff_right] at hl
      simp only [List.append_eq]
      rw [ih hl B]

/-- No position strictly inside `A` starts an occurrence of `p`, whatever
follows `A`, provided `p` itself follows. -/
def noHit (p : List Char) : List Char → Bool
  | [] => true
  | c :: t => !(litPre p (c :: (t ++ p))) && noHit p t

theorem findSub_left {p : List Char} (hp : p ≠ []) :
    ∀ A : List Char, noHit p A = true → ∀ B,
      findSub p (A ++ (p ++ B)) = some A.length := by
  intro A
  induction A with
  | nil =>
    intro _ B
    cases p with
    | nil => exact absurd rfl hp
    | cons d q =>
      have hpre : litPre (d :: q) ((d :: q) ++ B) = true :=
        litPre_iff.mpr (List.prefix_append _ B)
      simp only [List.cons_append] at hpre
      simp only [List.nil_append, List.cons_append, findSub, List.append_eq, hpre, if_pos]
      rfl
  | cons c t ih =>
    intro hA B
    simp only [noHit, Bool.and_eq_true, Bool.not_eq_true'] at hA
    have h1 : litPre p (c :: (t ++ (p ++ B))) = false := by
      have e : c :: (t ++ (p ++ B)) = (c :: (t ++ p)) ++ B := by
        simp [List.append_assoc]
      rw [e, litPre_append_of_le (by simp; omega) B]
      exact hA.1
    have h2 : findSub p (c :: (t ++ (p ++ B)))
        = (findSub p (t ++ (p ++ B))).map (· + 1) := by
      simp [findSub, h1]
    simp only [List.cons_append, h2, ih hA.2 B, List.length_cons]
    rfl

/-- The tail of the derive attribute after the `#[derive(` pattern. -/
def gDerTail : List Char :=
  cs ("Clone, Copy, Debug, Eq, Hash, Ord, PartialEq, PartialOrd)] pub enum Rule \x7b #[doc = \"End-of-input\"] ")

theorem pestFullOut_split (rs : List (List Char)) :
    pestFullOut rs = gAllow ++ (derivePat ++ (gDerTail ++ (cs ("EOI")
      ++ (enumVariantsText rs ++ (gImplAll ++ (echain rs ++ (gMatchHead
      ++ (marms rs ++ (gArmEOI ++ (fchain rs ++ gFnEOI)))))))))) := by
  simp only [pestFullOut, pestEnumText, List.append_assoc]
  have e : ∀ Z : List Char, gDeriveHead ++ Z = derivePat ++ (gDerTail ++ Z) :=
    fun Z => rfl
  simp only [e]

theorem hooker_findSub (rs : List (List Char)) :
    findSub derivePat (pestFullOut rs) = some gAllow.length := by
  rw [pestFullOut_split]
  exact findSub_left (by decide) gAllow (by decide) _

theorem hooker_insert {a : List Char} {t : List (List Char)} (I : List Char) :
    insertAt gAllow.length (cs ("#[enum_dispatch(") ++ I ++ cs (")]\r\n"))
      (pestFullOut (a :: t)) = stage1 (a :: t) I := by
  rw [pestFullOut_split]
  simp only [insertAt, List.take_left, List.drop_left]
  unfold stage1 dAttrText
  simp only [enumVariantsText, List.append_assoc]
  have e1 : ∀ Z : List Char, derivePat ++ (gDerTail ++ Z) = gDeriveHead ++ Z :=
    fun Z => rfl
  have e2 : ∀ Z : List Char, cs ("EOI") ++ (cs (", ") ++ Z) = cs ("EOI, ") ++ Z :=
    fun Z => rfl
  simp only [e1, e2]

theorem stage8_rewrittenOut {a : List Char} {t : List (List Char)} (I : List Char) :
    stage8 (a :: t) I = rewrittenOut (a :: t) I := by
  unfold stage8 rewrittenOut
  simp only [enumVariantsTextR, List.append_assoc]

/-- On the wrap-free pest 2.5.4 shape, the hooker rewrites the enumeration
declaration to payload-type alternatives, the listing entries and construction
sites to constructed values, and every dispatcher arm to a discarding
pattern. -/
theorem hooker_pest_shape {a : List Char} {t : List (List Char)}
    (h : wfNames (a :: t)) {I : List Char} (hI : allWordB I = true) :
    enum_dispatch_generated_enum_hooker (pestFullOut (a :: t)) I
      = Except.ok (rewrittenOut (a :: t) I) := by
  have hch : scanM mVarLast (scanM mQualLast (scanM mVarEOI (scanM mQualEOI
      (scanM mVar (scanM mQual (scanM mArrow (insertAt gAllow.length
        (cs ("#[enum_dispatch(") ++ I ++ cs (")]\r\n"))
        (pestFullOut (a :: t)))))))))
      = rewrittenOut (a :: t) I := by
    rw [hooker_insert I, passArrow h hI, passQual h hI, passVar h hI,
      passQualEOI h hI, passVarEOI h hI, passQualLast h hI, passVarLast h hI,
      stage8_rewrittenOut I]
  unfold enum_dispatch_generated_enum_hooker
  rw [hooker_findSub]
  exact congrArg Except.ok hch

/-! ## Occurrence counting

`countSub p s` (defined with the primitives) counts the leftmost
non-overlapping occurrences of `p`, exactly as iterated `str::find` /
`replace_all` see them.  The lemmas below walk a text piece by piece. -/

theorem countF_irrel (p : List Char) :
    ∀ (f g : Nat) (s : List Char), s.length ≤ f → s.length ≤ g →
      countF p f s = countF p g s := by
  intro f
  induction f with
  | zero =>
    intro g s hf _
    have hs : s = [] := List.eq_nil_of_length_eq_zero (Nat.le_zero.mp hf)
    subst hs
    cases g <;> rfl
  | succ f ih =>
    intro g s hf hg
    cases s with
    | nil => cases g <;> rfl
    | cons c s' =>
      cases g with
      | zero => simp at hg
      | succ g' =>
        simp only [List.length_cons, Nat.add_le_add_iff_right] at hf hg
        simp only [countF]
        split
        · have hd : (s'.drop (p.length - 1)).length ≤ s'.length := by
            simp [List.length_drop]
          rw [ih g' _ (le_trans hd hf) (le_trans hd hg)]
        · rw [ih g' s' hf hg]

theorem countSub_cons (p : List Char) (c : Char) (s : List Char) :
    countSub p (c :: s) =
      if p ≠ [] ∧ litPre p (c :: s) = true then countSub p (s.drop (p.length - 1)) + 1
      else countSub p s := by
  show countF p (s.length + 1) (c :: s) = _
  simp only [countF]
  split
  · have hd : (s.drop (p.length - 1)).length ≤ s.length := by
      simp [List.length_drop]
    rw [countF_irrel p s.length _ _ hd (le_refl _)]
    rfl
  · rfl

theorem countSub_cons_of_not {p : List Char} {c : Char} {s : List Char}
    (h : litPre p (c :: s) = false) : countSub p (c :: s) = countSub p s := by
  rw [countSub_cons]
  rw [if_neg]
  rintro ⟨-, h2⟩
  rw [h] at h2
  simp at h2

theorem countSub_hit {p : List Char} (hp : p ≠ []) (Y : List Char) :
    countSub p (p ++ Y) = countSub p Y + 1 := by
  cases p with
  | nil => exact absurd rfl hp
  | cons d q =>
    have hpre : litPre (d :: q) ((d :: q) ++ Y) = true :=
      litPre_iff.mpr (List.prefix_append _ _)
    rw [List.cons_append] at hpre
    rw [List.cons_append, countSub_cons, if_pos ⟨by simp, hpre⟩]
    have e : (d :: q).length - 1 = q.length := by simp
    rw [e, List.drop_left]

/-- Whatever follows, no position of `A` can start an occurrence of `p`:
each suffix of `A` neither contains `p` as a prefix nor is a prefix of `p`. -/
def cleanFor (p : List Char) : List Char → Bool
  | [] => true
  | c :: t => !(litPre (c :: t) p) && !(litPre p (c :: t)) && cleanFor p t

theorem litPre_false_of_incomparable {p x : List Char} (_hx : x ≠ [])
    (h1 : litPre x p = false) (h2 : litPre p x = false) (Y : List Char) :
    litPre p (x ++ Y) = false := by
  by_contra hxx
  have hx' := (Bool.not_eq_false _).mp hxx
  have hpre := litPre_iff.mp hx'
  rcases Nat.le_total p.length x.length with hle | hle
  · have hp2 : p <+: x :=
      List.prefix_of_prefix_length_le hpre (List.prefix_append _ _) hle
    rw [litPre_iff.mpr hp2] at h2
    exact absurd h2 (by simp)
  · have hp2 : x <+: p :=
      List.prefix_of_prefix_length_le (List.prefix_append _ _) hpre hle
    rw [litPre_iff.mpr hp2] at h1
    exact absurd h1 (by simp)

theorem countSub_clean {p : List Char} :
    ∀ {A : List Char}, cleanFor p A = true → ∀ Y,
      countSub p (A ++ Y) = countSub p Y := by
  intro A
  induction A with
  | nil => intro _ Y; rfl
  | cons c t ih =>
    intro hA Y
    simp only [cleanFor, Bool.and_eq_true, Bool.not_eq_true'] at hA
    obtain ⟨⟨h1, h2⟩, h3⟩ := hA
    have hf : litPre p ((c :: t) ++ Y) = false :=
      litPre_false_of_incomparable (by simp) h1 h2 Y
    rw [List.cons_append] at hf
    rw [List.cons_append, countSub_cons_of_not hf]
    exact ih h3 Y

/-- Walking a word run when an occurrence can provably not start at any of
its positions (with the fixed continuation `Z`). -/
theorem countSub_word_region {p Z : List Char}
    (hno : ∀ w, allWordB w = true → w ≠ [] → litPre p (w ++ Z) = false) :
    ∀ {m : List Char}, allWordB m = true → countSub p (m ++ Z) = countSub p Z := by
  intro m
  induction m with
  | nil => intro _; rfl
  | cons c t ih =>
    intro hm
    have hf := hno (c :: t) hm (by simp)
    rw [List.cons_append] at hf
    rw [List.cons_append, countSub_cons_of_not hf]
    have ht : allWordB t = true := by
      simp only [allWordB, List.all_cons, Bool.and_eq_true] at hm
      exact hm.2
    exact ih ht

theorem beq_false_of_word_nonword {c d : Char} (hc : wordc c = true)
    (hd : wordc d = false) : (d == c) = false := by
  by_contra h
  have h' := (Bool.not_eq_false _).mp h
  rw [show d = c from by simpa using h', hc] at hd
  exact absurd hd (by simp)

theorem litPre_head_ne {d : Char} {q : List Char} {c : Char} {s : List Char}
    (h : (d == c) = false) : litPre (d :: q) (c :: s) = false := by
  simp only [litPre, h, Bool.false_and]

/-- A word run never starts an occurrence of a pattern with a non-word head. -/
theorem countSub_word {d : Char} {q : List Char} (hd : wordc d = false)
    {m : List Char} (hm : allWordB m = true) (Z : List Char) :
    countSub (d :: q) (m ++ Z) = countSub (d :: q) Z := by
  refine countSub_word_region (fun w hw hwne => ?_) hm
  cases w with
  | nil => exact absurd rfl hwne
  | cons c t =>
    have hc : wordc c = true := by
      simp only [allWordB, List.all_cons, Bool.and_eq_true] at hw
      exact hw.1
    rw [List.cons_append]
    exact litPre_head_ne (beq_false_of_word_nonword hc hd)

theorem countSub_word_cs {p : List Char} {d : Char} {q : List Char} (hpd : p = d :: q)
    (hd : wordc d = false) {m : List Char} (hm : allWordB m = true) :
    ∀ Z, countSub p (m ++ Z) = countSub p Z := by
  subst hpd
  exact fun Z => countSub_word hd hm Z

/-- Two word runs followed by the same non-word separator: a prefix relation
forces the runs to agree. -/
theorem words_open {c : Char} (hc : wordc c = false) :
    ∀ {n m P Q : List Char}, allWordB n = true → allWordB m = true →
      (n ++ c :: P <+: m ++ c :: Q) → n = m ∧ (P <+: Q) := by
  intro n
  induction n with
  | nil =>
    intro m P Q _ hm hpre
    cases m with
    | nil =>
      simp only [List.nil_append, List.cons_prefix_cons] at hpre
      exact ⟨rfl, hpre.2⟩
    | cons e m' =>
      simp only [List.nil_append, List.cons_append, List.cons_prefix_cons] at hpre
      have he : wordc e = true := by
        simp only [allWordB, List.all_cons, Bool.and_eq_true] at hm
        exact hm.1
      rw [← hpre.1] at he
      rw [he] at hc
      exact absurd hc (by simp)
  | cons a n' ih =>
    intro m P Q hn hm hpre
    have ha : wordc a = true := by
      simp only [allWordB, List.all_cons, Bool.and_eq_true] at hn
      exact hn.1
    cases m with
    | nil =>
      simp only [List.cons_append, List.nil_append, List.cons_prefix_cons] at hpre
      rw [hpre.1] at ha
      rw [ha] at hc
      exact absurd hc (by simp)
    | cons e m' =>
      simp only [List.cons_append, List.cons_prefix_cons] at hpre
      have hn' : allWordB n' = true := by
        simp only [allWordB, List.all_cons, Bool.and_eq_true] at hn
        exact hn.2
      have hm' : allWordB m' = true := by
        simp only [allWordB, List.all_cons, Bool.and_eq_true] at hm
        exact hm.2
      obtain ⟨hnm, hPQ⟩ := ih hn' hm' hpre.2
      exact ⟨by rw [hpre.1, hnm], hPQ⟩

/-- Two word runs followed by distinct non-word separators: no prefix
relation is possible. -/
theorem words_sep {c d : Char} (hc : wordc c = false) (hd : wordc d = false)
    (hcd : c ≠ d) :
    ∀ {n m P Q : List Char}, allWordB n = true → allWordB m = true →
      ¬ (n ++ c :: P <+: m ++ d :: Q) := by
  intro n
  induction n with
  | nil =>
    intro m P Q _ hm hpre
    cases m with
    | nil =>
      simp only [List.nil_append, List.cons_prefix_cons] at hpre
      exact hcd hpre.1
    | cons e m' =>
      simp only [List.nil_append, List.cons_append, List.cons_prefix_cons] at hpre
      have he : wordc e = true := by
        simp only [allWordB, List.all_cons, Bool.and_eq_true] at hm
        exact hm.1
      rw [← hpre.1] at he
      rw [he] at hc
      exact absurd hc (by simp)
  | cons a n' ih =>
    intro m P Q hn hm hpre
    have ha : wordc a = true := by
      simp only [allWordB, List.all_cons, Bool.and_eq_true] at hn
      exact hn.1
    cases m with
    | nil =>
      simp only [List.cons_append, List.nil_append, List.cons_prefix_cons] at hpre
      rw [hpre.1] at ha
      rw [ha] at hd
      exact absurd hd (by simp)
    | cons e m' =>
      simp only [List.cons_append, List.cons_prefix_cons] at hpre
      have hn' : allWordB n' = true := by
        simp only [allWordB, List.all_cons, Bool.and_eq_true] at hn
        exact hn.2
      have hm' : allWordB m' = true := by
        simp only [allWordB, List.all_cons, Bool.and_eq_true] at hm
        exact hm.2
      exact ih hn' hm' hpre.2

/-! ### Arrow counts over the rewritten output -/

theorem countSub_skip_vchainR {p : List Char} {d : Char} {q : List Char}
    (hpd : p = d :: q) (hd : wordc d = false)
    (h1 : cleanFor p (cs ("r#")) = true)
    (h2 : cleanFor p (cs ("(crate::r#")) = true)
    (h3 : cleanFor p (cs ("),  ")) = true)
    (h4 : cleanFor p (cs (")\x7d")) = true)
    (h5 : cleanFor p (cs (" \x7d")) = true) :
    ∀ {rs : List (List Char)}, wfNames rs → ∀ Y,
      countSub p (vchainR rs ++ Y) = countSub p Y := by
  intro rs
  induction rs with
  | nil =>
    intro _ Y
    simp only [vchainR]
    rw [countSub_clean h5]
  | cons a t ih =>
    intro h Y
    obtain ⟨ha, hne⟩ := wfNames_head h
    have hw : ∀ Z, countSub p (a ++ Z) = countSub p Z := countSub_word_cs hpd hd ha
    cases t with
    | nil =>
      simp only [vchainR, List.append_assoc]
      rw [countSub_clean h1, hw, countSub_clean h2, hw, countSub_clean h4]
    | cons b t' =>
      simp only [vchainR, List.append_assoc]
      rw [countSub_clean h1, hw, countSub_clean h2, hw, countSub_clean h3]
      exact ih (wfNames_tail h) Y

theorem countSub_skip_echainR {p : List Char} {d : Char} {q : List Char}
    (hpd : p = d :: q) (hd : wordc d = false)
    (h1 : cleanFor p (cs ("Rule::r#")) = true)
    (h2 : cleanFor p (cs ("(crate::r#")) = true)
    (h3 : cleanFor p (cs (" \x7b\x7d),  ")) = true)
    (h4 : cleanFor p (cs (" \x7b\x7d)]")) = true)
    (h5 : cleanFor p (cs ("]")) = true) :
    ∀ {rs : List (List Char)}, wfNames rs → ∀ Y,
      countSub p (echainR rs ++ Y) = countSub p Y := by
  intro rs
  induction rs with
  | nil =>
    intro _ Y
    simp only [echainR]
    rw [countSub_clean h5]
  | cons a t ih =>
    intro h Y
    obtain ⟨ha, hne⟩ := wfNames_head h
    have hw : ∀ Z, countSub p (a ++ Z) = countSub p Z := countSub_word_cs hpd hd ha
    cases t with
    | nil =>
      simp only [echainR, List.append_assoc]
      rw [countSub_clean h1, hw, countSub_clean h2, hw, countSub_clean h4]
    | cons b t' =>
      simp only [echainR, List.append_assoc]
      rw [countSub_clean h1, hw, countSub_clean h2, hw, countSub_clean h3]
      exact ih (wfNames_tail h) Y

theorem countSub_skip_fchainR {p : List Char} {d : Char} {q : List Char}
    (hpd : p = d :: q) (hd : wordc d = false)
    (h1 : cleanFor p (cs ("pub fn r#")) = true)
    (h2 : cleanFor p (cs ("(state : S) -> R \x7b state.rule(Rule::r#")) = true)
    (h3 : cleanFor p (cs ("(crate::r#")) = true)
    (h4 : cleanFor p (cs (" \x7b\x7d),  f) \x7d ")) = true) :
    ∀ {rs : List (List Char)}, wfNames rs → ∀ Y,
      countSub p (fchainR rs ++ Y) = countSub p Y := by
  intro rs
  induction rs with
  | nil => intro _ Y; simp [fchainR]
  | cons a t ih =>
    intro h Y
    obtain ⟨ha, hne⟩ := wfNames_head h
    have hw : ∀ Z, countSub p (a ++ Z) = countSub p Z := countSub_word_cs hpd hd ha
    simp only [fchainR, List.append_assoc]
    rw [countSub_clean h1, hw, countSub_clean h2, hw, countSub_clean h3, hw,
      countSub_clean h4]
    exact ih (wfNames_tail h) Y

theorem countA_marmsR {rs : List (List Char)} (h : wfNames rs) :
    ∀ Y, countSub (cs ("=>")) (marmsR rs ++ Y) = rs.length + countSub (cs ("=>")) Y := by
  induction rs with
  | nil => intro Y; simp [marmsR]
  | cons a t ih =>
    obtain ⟨ha, hne⟩ := wfNames_head h
    intro Y
    simp only [marmsR, List.append_assoc]
    have e1 : ∀ Z : List Char, cs (" (_) => rules :: r#") ++ Z
        = cs (" (_) ") ++ (cs ("=>") ++ (cs (" rules :: r#") ++ Z)) := fun Z => rfl
    simp only [e1]
    have hw : ∀ Z, countSub (cs ("=>")) (a ++ Z) = countSub (cs ("=>")) Z :=
      countSub_word_cs rfl (by decide) ha
    rw [countSub_clean (by decide : cleanFor (cs ("=>")) (cs ("Rule :: r#")) = true)]
    rw [hw]
    rw [countSub_clean (by decide : cleanFor (cs ("=>")) (cs (" (_) ")) = true)]
    rw [countSub_hit (by decide)]
    rw [countSub_clean (by decide : cleanFor (cs ("=>")) (cs (" rules :: r#")) = true)]
    rw [hw]
    rw [countSub_clean (by decide : cleanFor (cs ("=>")) (cs ("(state), ")) = true)]
    rw [ih (wfNames_tail h) Y]
    simp only [List.length_cons]
    omega

theorem countB_marmsR {rs : List (List Char)} (h : wfNames rs) :
    ∀ Y, countSub (cs ("(_) =>")) (marmsR rs ++ Y)
      = rs.length + countSub (cs ("(_) =>")) Y := by
  induction rs with
  | nil => intro Y; simp [marmsR]
  | cons a t ih =>
    obtain ⟨ha, hne⟩ := wfNames_head h
    intro Y
    simp only [marmsR, List.append_assoc]
    have e1 : ∀ Z : List Char, cs (" (_) => rules :: r#") ++ Z
        = cs (" ") ++ (cs ("(_) =>") ++ (cs (" rules :: r#") ++ Z)) := fun Z => rfl
    simp only [e1]
    have hw : ∀ Z, countSub (cs ("(_) =>")) (a ++ Z) = countSub (cs ("(_) =>")) Z :=
      countSub_word_cs rfl (by decide) ha
    rw [countSub_clean (by decide : cleanFor (cs ("(_) =>")) (cs ("Rule :: r#")) = true)]
    rw [hw]
    rw [countSub_clean (by decide : cleanFor (cs ("(_) =>")) (cs (" ")) = true)]
    rw [countSub_hit (by decide)]
    rw [countSub_clean
      (by decide : cleanFor (cs ("(_) =>")) (cs (" rules :: r#")) = true)]
    rw [hw]
    rw [countSub_clean (by decide : cleanFor (cs ("(_) =>")) (cs ("(state), ")) = true)]
    rw [ih (wfNames_tail h) Y]
    simp only [List.length_cons]
    omega

/-- The inserted `#[enum_dispatch(I)]` attribute never contains the discard
pattern when the interface name is a word. -/
theorem litPre_discard_paren {I R : List Char} (hI : allWordB I = true) :
    litPre (cs ("(_) =>")) ('(' :: (I ++ (cs (")]\r\n") ++ R))) = false := by
  cases I with
  | nil => rfl
  | cons c I' =>
    by_cases hc : c = '_'
    · subst hc
      cases I' with
      | nil => rfl
      | cons c2 I'' =>
        have hc2 : wordc c2 = true := by
          simp only [allWordB, List.all_cons, Bool.and_eq_true] at hI
          exact hI.2.1
        have h2 : (')' == c2) = false :=
          beq_false_of_word_nonword hc2 (by decide)
        simp [litPre, cs, h2]
    · have h1 : ('_' == c) = false := by
        simp only [beq_eq_false_iff_ne, ne_eq]
        exact fun hx => hc hx.symm
      simp [litPre, cs, h1]

theorem countA_out {a : List Char} {t : List (List Char)} (h : wfNames (a :: t))
    {I : List Char} (hI : allWordB I = true) :
    countSub (cs ("=>")) (rewrittenOut (a :: t) I) = (a :: t).length + 1 := by
  unfold rewrittenOut dAttrText
  simp only [enumVariantsTextR, List.append_assoc]
  have hw : ∀ Z, countSub (cs ("=>")) (I ++ Z) = countSub (cs ("=>")) Z :=
    countSub_word_cs rfl (by decide) hI
  rw [countSub_clean (by decide : cleanFor (cs ("=>")) gAllow = true)]
  rw [countSub_clean (by decide : cleanFor (cs ("=>")) (cs ("#[enum_dispatch(")) = true)]
  rw [hw]
  rw [countSub_clean (by decide : cleanFor (cs ("=>")) (cs (")]\r\n")) = true)]
  rw [countSub_clean (by decide : cleanFor (cs ("=>")) gDeriveHead = true)]
  rw [countSub_clean (by decide : cleanFor (cs ("=>")) (cs ("EOI(crate::EOI),  ")) = true)]
  have hv : ∀ Y, countSub (cs ("=>")) (vchainR (a :: t) ++ Y) = countSub (cs ("=>")) Y :=
    countSub_skip_vchainR rfl (by decide) (by decide) (by decide) (by decide)
      (by decide) (by decide) h
  have he : ∀ Y, countSub (cs ("=>")) (echainR (a :: t) ++ Y) = countSub (cs ("=>")) Y :=
    countSub_skip_echainR rfl (by decide) (by decide) (by decide) (by decide)
      (by decide) (by decide) h
  have hf : ∀ Y, countSub (cs ("=>")) (fchainR (a :: t) ++ Y) = countSub (cs ("=>")) Y :=
    countSub_skip_fchainR rfl (by decide) (by decide) (by decide) (by decide)
      (by decide) h
  rw [hv]
  rw [countSub_clean (by decide : cleanFor (cs ("=>")) gImplAll = true)]
  rw [he]
  rw [countSub_clean (by decide : cleanFor (cs ("=>")) gMatchHead = true)]
  rw [countA_marmsR h]
  have e1 : ∀ Z : List Char, gArmEOIR ++ Z = cs ("Rule :: EOI (_) ")
      ++ (cs ("=>") ++ (cs (" rules :: EOI(state) \x7d) \x7d \x7d mod rules \x7b ") ++ Z)) :=
    fun Z => rfl
  simp only [e1]
  rw [countSub_clean (by decide : cleanFor (cs ("=>")) (cs ("Rule :: EOI (_) ")) = true)]
  rw [countSub_hit (by decide)]
  rw [countSub_clean (by decide :
    cleanFor (cs ("=>")) (cs (" rules :: EOI(state) \x7d) \x7d \x7d mod rules \x7b ")) = true)]
  rw [hf]
  rw [(by decide : countSub (cs ("=>")) gFnEOIR = 0)]

theorem countB_out {a : List Char} {t : List (List Char)} (h : wfNames (a :: t))
    {I : List Char} (hI : allWordB I = true) :
    countSub (cs ("(_) =>")) (rewrittenOut (a :: t) I) = (a :: t).length + 1 := by
  unfold rewrittenOut dAttrText
  simp only [enumVariantsTextR, List.append_assoc]
  have hw : ∀ Z, countSub (cs ("(_) =>")) (I ++ Z) = countSub (cs ("(_) =>")) Z :=
    countSub_word_cs rfl (by decide) hI
  rw [countSub_clean (by decide : cleanFor (cs ("(_) =>")) gAllow = true)]
  have e0 : ∀ Z : List Char, cs ("#[enum_dispatch(") ++ Z
      = cs ("#[enum_dispatch") ++ ('(' :: Z) := fun Z => rfl
  simp only [e0]
  rw [countSub_clean
    (by decide : cleanFor (cs ("(_) =>")) (cs ("#[enum_dispatch")) = true)]
  rw [countSub_cons_of_not (litPre_discard_paren hI)]
  rw [hw]
  rw [countSub_clean (by decide : cleanFor (cs ("(_) =>")) (cs (")]\r\n")) = true)]
  rw [countSub_clean (by decide : cleanFor (cs ("(_) =>")) gDeriveHead = true)]
  rw [countSub_clean
    (by decide : cleanFor (cs ("(_) =>")) (cs ("EOI(crate::EOI),  ")) = true)]
  have hv : ∀ Y, countSub (cs ("(_) =>")) (vchainR (a :: t) ++ Y)
      = countSub (cs ("(_) =>")) Y :=
    countSub_skip_vchainR rfl (by decide) (by decide) (by decide) (by decide)
      (by decide) (by decide) h
  have he : ∀ Y, countSub (cs ("(_) =>")) (echainR (a :: t) ++ Y)
      = countSub (cs ("(_) =>")) Y :=
    countSub_skip_echainR rfl (by decide) (by decide) (by decide) (by decide)
      (by decide) (by decide) h
  have hf : ∀ Y, countSub (cs ("(_) =>")) (fchainR (a :: t) ++ Y)
      = countSub (cs ("(_) =>")) Y :=
    countSub_skip_fchainR rfl (by decide) (by decide) (by decide) (by decide)
      (by decide) h
  rw [hv]
  rw [countSub_clean (by decide : cleanFor (cs ("(_) =>")) gImplAll = true)]
  rw [he]
  rw [countSub_clean (by decide : cleanFor (cs ("(_) =>")) gMatchHead = true)]
  rw [countB_marmsR h]
  have e1 : ∀ Z : List Char, gArmEOIR ++ Z = cs ("Rule :: EOI ")
      ++ (cs ("(_) =>") ++ (cs (" rules :: EOI(state) \x7d) \x7d \x7d mod rules \x7b ") ++ Z)) :=
    fun Z => rfl
  simp only [e1]
  rw [countSub_clean (by decide : cleanFor (cs ("(_) =>")) (cs ("Rule :: EOI ")) = true)]
  rw [countSub_hit (by decide)]
  rw [countSub_clean (by decide :
    cleanFor (cs ("(_) =>")) (cs (" rules :: EOI(state) \x7d) \x7d \x7d mod rules \x7b "))
      = true)]
  rw [hf]
  rw [(by decide : countSub (cs ("(_) =>")) gFnEOIR = 0)]

/-! ### Exactly one payload alternative per rule -/

/-- The payload-type alternative of rule `n` in the rewritten enumeration
declaration (anchored at the `#` of its `r#` spelling). -/
def altPat (n : List Char) : List Char :=
  cs ("#") ++ n ++ cs ("(crate::r#") ++ n ++ cs (")")

/-- The rewritten sentinel alternative. -/
def eoiAlt : List Char := cs ("EOI(crate::EOI)")

/-- The constructed-value reference of rule `n` at listing entries and
construction sites (anchored at the `#` of its `r#` spelling). -/
def listPat (n : List Char) : List Char :=
  cs ("#") ++ n ++ cs ("(crate::r#") ++ n ++ cs (" \x7b\x7d)")

/-- Number of entries of `rs` equal to `n`. -/
def countName (n : List Char) : List (List Char) → Nat
  | [] => 0
  | m :: t => (if m = n then 1 else 0) + countName n t

theorem countName_eq_zero {n : List Char} :
    ∀ {rs : List (List Char)}, n ∉ rs → countName n rs = 0 := by
  intro rs
  induction rs with
  | nil => intro _; rfl
  | cons m t ih =>
    intro hn
    have hmn : m ≠ n := fun hx => hn (by rw [hx]; exact List.mem_cons_self _ _)
    have hnt : n ∉ t := fun hx => hn (List.mem_cons_of_mem _ hx)
    simp only [countName, if_neg hmn, ih hnt]

theorem countName_eq_one {n : List Char} :
    ∀ {rs : List (List Char)}, rs.Nodup → n ∈ rs → countName n rs = 1 := by
  intro rs
  induction rs with
  | nil => intro _ hn; exact absurd hn (by simp)
  | cons m t ih =>
    intro hnd hn
    rcases List.mem_cons.mp hn with hx | hx
    · have hnt : m ∉ t := (List.nodup_cons.mp hnd).1
      rw [← hx] at hnt
      simp only [countName, if_pos hx.symm, countName_eq_zero hnt]
    · have hmn : m ≠ n := by
        rintro rfl
        exact (List.nodup_cons.mp hnd).1 hx
      simp only [countName, if_neg hmn, ih (List.nodup_cons.mp hnd).2 hx]

/-- A `#`-anchored rule pattern cannot fire at the `#` of a different rule
name in the same separator context. -/
theorem noHit_hash_open {n m : List Char} (hn : allWordB n = true)
    (hm : allWordB m = true) (hmn : m ≠ n) {X W : List Char} :
    litPre ('#' :: (n ++ '(' :: X)) ('#' :: (m ++ '(' :: W)) = false := by
  by_contra h
  have h' := (Bool.not_eq_false _).mp h
  have hpre := litPre_iff.mp h'
  rw [List.cons_prefix_cons] at hpre
  exact hmn ((words_open (by decide) hn hm hpre.2).1.symm)

/-- A `#`-anchored rule pattern cannot fire at a `#` whose name is followed
by a different separator. -/
theorem noHit_hash_sep {n m : List Char} (hn : allWordB n = true)
    (hm : allWordB m = true) {c : Char} (hc : wordc c = false) (hcne : '(' ≠ c)
    {X W : List Char} :
    litPre ('#' :: (n ++ '(' :: X)) ('#' :: (m ++ c :: W)) = false := by
  by_contra h
  have h' := (Bool.not_eq_false _).mp h
  have hpre := litPre_iff.mp h'
  rw [List.cons_prefix_cons] at hpre
  exact words_sep (by decide) hc hcne hn hm hpre.2

/-- A `#`-anchored rule pattern cannot fire at a `#` whose parenthesis is
followed by a different character. -/
theorem noHit_hash_open_ne {n m : List Char} (hn : allWordB n = true)
    (hm : allWordB m = true) {x w : Char} (hxw : x ≠ w) {X W : List Char} :
    litPre ('#' :: (n ++ '(' :: x :: X)) ('#' :: (m ++ '(' :: w :: W)) = false := by
  by_contra h
  have h' := (Bool.not_eq_false _).mp h
  have hpre := litPre_iff.mp h'
  rw [List.cons_prefix_cons] at hpre
  obtain ⟨-, hPQ⟩ := words_open (by decide) hn hm hpre.2
  rw [List.cons_prefix_cons] at hPQ
  exact hxw hPQ.1

theorem altPat_cons (n : List Char) :
    altPat n = '#' :: (n ++ cs ("(crate::r#") ++ n ++ cs (")")) := rfl

theorem altPat_ne (n : List Char) : altPat n ≠ [] := by
  rw [altPat_cons]
  simp

theorem altPat_open (n : List Char) :
    altPat n = '#' :: (n ++ '(' :: (cs ("crate::r#") ++ (n ++ cs (")")))) := by
  have e0 : ∀ Z : List Char, cs ("#") ++ Z = '#' :: Z := fun Z => rfl
  have e : ∀ Z : List Char, cs ("(crate::r#") ++ Z = '(' :: (cs ("crate::r#") ++ Z) :=
    fun Z => rfl
  simp only [altPat, List.append_assoc, List.cons_append, e0, e]

theorem countAlt_vchainR {n : List Char} (hn : allWordB n = true) :
    ∀ {rs : List (List Char)}, wfNames rs → ∀ Y,
      countSub (altPat n) (vchainR rs ++ Y) = countName n rs + countSub (altPat n) Y := by
  intro rs
  induction rs with
  | nil =>
    intro _ Y
    simp only [vchainR, countName]
    rw [countSub_clean (by rfl : cleanFor (altPat n) (cs (" \x7d")) = true)]
    omega
  | cons m t ih =>
    intro h Y
    obtain ⟨hm, hmne⟩ := wfNames_head h
    have hwm : ∀ Z, countSub (altPat n) (m ++ Z) = countSub (altPat n) Z :=
      countSub_word_cs (altPat_cons n) (by decide) hm
    have hstep : ∀ (c : Char) (Z : List Char), ('#' == c) = false →
        countSub (altPat n) (c :: Z) = countSub (altPat n) Z := by
      intro c Z hc
      rw [altPat_cons]
      exact countSub_cons_of_not (litPre_head_ne hc)
    have e1 : ∀ Z : List Char, cs ("r#") ++ Z = cs ("r") ++ ('#' :: Z) := fun Z => rfl
    have eopen : ∀ Z : List Char, cs ("(crate::r#") ++ Z
        = '(' :: (cs ("crate::r#") ++ Z) := fun Z => rfl
    have esplit : ∀ Z : List Char, cs ("(crate::r#") ++ Z
        = cs ("(crate::r") ++ ('#' :: Z) := fun Z => rfl
    cases t with
    | nil =>
      by_cases hmn : m = n
      · subst hmn
        simp only [vchainR, List.append_assoc]
        have e2 : ∀ Z : List Char, cs (")\x7d") ++ Z = cs (")") ++ ('\x7d' :: Z) :=
          fun Z => rfl
        simp only [e1, e2]
        rw [countSub_clean (by rfl : cleanFor (altPat m) (cs ("r")) = true)]
        have ejoin : '#' :: (m ++ (cs ("(crate::r#") ++ (m ++ (cs (")")
            ++ ('\x7d' :: Y))))) = altPat m ++ ('\x7d' :: Y) := by
          have e0 : ∀ Z : List Char, cs ("#") ++ Z = '#' :: Z := fun Z => rfl
          simp only [altPat, List.append_assoc, List.cons_append, e0]
        rw [ejoin, countSub_hit (altPat_ne m), hstep '\x7d' Y (by decide)]
        simp only [countName]
        rw [if_pos trivial]
        omega
      · simp only [vchainR, List.append_assoc]
        simp only [e1]
        rw [countSub_clean (by rfl : cleanFor (altPat n) (cs ("r")) = true)]
        have hno1 : litPre (altPat n) ('#' :: (m ++ (cs ("(crate::r#")
            ++ (m ++ (cs (")\x7d") ++ Y))))) = false := by
          rw [altPat_open]
          simp only [eopen]
          exact noHit_hash_open hn hm hmn
        rw [countSub_cons_of_not hno1, hwm]
        simp only [esplit]
        rw [countSub_clean (by rfl : cleanFor (altPat n) (cs ("(crate::r")) = true)]
        have e3 : ∀ Z : List Char, cs (")\x7d") ++ Z = ')' :: ('\x7d' :: Z) :=
          fun Z => rfl
        simp only [e3]
        have hno2 : litPre (altPat n) ('#' :: (m ++ ')' :: ('\x7d' :: Y))) = false := by
          rw [altPat_open]
          exact noHit_hash_sep hn hm (by decide) (by decide)
        rw [countSub_cons_of_not hno2, hwm, hstep ')' _ (by decide),
          hstep '\x7d' _ (by decide)]
        simp only [countName]
        rw [if_neg hmn]
        omega
    | cons b t' =>
      by_cases hmn : m = n
      · subst hmn
        simp only [vchainR, List.append_assoc]
        have e2 : ∀ Z : List Char, cs ("),  ") ++ Z = cs (")") ++ (cs (",  ") ++ Z) :=
          fun Z => rfl
        simp only [e1, e2]
        rw [countSub_clean (by rfl : cleanFor (altPat m) (cs ("r")) = true)]
        have ejoin : ∀ Z : List Char, '#' :: (m ++ (cs ("(crate::r#") ++ (m ++ (cs (")")
            ++ (cs (",  ") ++ Z))))) = altPat m ++ (cs (",  ") ++ Z) := by
          intro Z
          have e0 : ∀ W : List Char, cs ("#") ++ W = '#' :: W := fun W => rfl
          simp only [altPat, List.append_assoc, List.cons_append, e0]
        rw [ejoin, countSub_hit (altPat_ne m)]
        rw [countSub_clean (by rfl : cleanFor (altPat m) (cs (",  ")) = true)]
        rw [ih (wfNames_tail h) Y]
        simp only [countName]
        rw [if_pos trivial]
        omega
      · simp only [vchainR, List.append_assoc]
        simp only [e1]
        rw [countSub_clean (by rfl : cleanFor (altPat n) (cs ("r")) = true)]
        have hno1 : litPre (altPat n) ('#' :: (m ++ (cs ("(crate::r#")
            ++ (m ++ (cs ("),  ") ++ (vchainR (b :: t') ++ Y)))))) = false := by
          rw [altPat_open]
          simp only [eopen]
          exact noHit_hash_open hn hm hmn
        rw [countSub_cons_of_not hno1, hwm]
        simp only [esplit]
        rw [countSub_clean (by rfl : cleanFor (altPat n) (cs ("(crate::r")) = true)]
        have e3 : ∀ Z : List Char, cs ("),  ") ++ Z = ')' :: (cs (",  ") ++ Z) :=
          fun Z => rfl
        simp only [e3]
        have hno2 : litPre (altPat n) ('#' :: (m ++ ')' :: (cs (",  ")
            ++ (vchainR (b :: t') ++ Y)))) = false := by
          rw [altPat_open]
          exact noHit_hash_sep hn hm (by decide) (by decide)
        rw [countSub_cons_of_not hno2, hwm, hstep ')' _ (by decide)]
        rw [countSub_clean (by rfl : cleanFor (altPat n) (cs (",  ")) = true)]
        rw [ih (wfNames_tail h) Y]
        simp only [countName]
        rw [if_neg hmn]
        omega

theorem countAlt_enum {n a : List Char} {t : List (List Char)}
    (hn : allWordB n = true) (h : wfNames (a :: t)) :
    countSub (altPat n) (enumVariantsTextR (a :: t)) = countName n (a :: t) := by
  simp only [enumVariantsTextR]
  rw [countSub_clean (by rfl : cleanFor (altPat n) (cs ("EOI(crate::EOI),  ")) = true)]
  rw [← List.append_nil (vchainR (a :: t))]
  rw [countAlt_vchainR hn h]
  simp [countSub, countF]

theorem noEOI_word_open {Z : List Char} :
    ∀ w, allWordB w = true → w ≠ [] →
      litPre eoiAlt (w ++ (cs ("(crate::r#") ++ Z)) = false := by
  have epat : eoiAlt = 'E' :: 'O' :: 'I' :: '(' :: cs ("crate::EOI)") := rfl
  have etxt : ∀ W : List Char, cs ("(crate::r#") ++ W
      = '(' :: (cs ("crate::r#") ++ W) := fun W => rfl
  intro w hw hne
  cases w with
  | nil => exact absurd rfl hne
  | cons c1 w1 =>
    cases w1 with
    | nil => simp [epat, etxt, litPre]
    | cons c2 w2 =>
      cases w2 with
      | nil => simp [epat, etxt, litPre]
      | cons c3 w3 =>
        cases w3 with
        | nil => simp [epat, etxt, litPre]
        | cons c4 w4 =>
          have hc4 : wordc c4 = true := by
            simp only [allWordB, List.all_cons, Bool.and_eq_true] at hw
            exact hw.2.2.2.1
          have h4 : ('(' == c4) = false := beq_false_of_word_nonword hc4 (by decide)
          simp [epat, litPre, h4]

theorem noEOI_word_close {Z : List Char} :
    ∀ w, allWordB w = true → w ≠ [] →
      litPre eoiAlt (w ++ (')' :: Z)) = false := by
  have epat : eoiAlt = 'E' :: 'O' :: 'I' :: '(' :: cs ("crate::EOI)") := rfl
  intro w hw hne
  cases w with
  | nil => exact absurd rfl hne
  | cons c1 w1 =>
    cases w1 with
    | nil => simp [epat, litPre]
    | cons c2 w2 =>
      cases w2 with
      | nil => simp [epat, litPre]
      | cons c3 w3 =>
        cases w3 with
        | nil => simp [epat, litPre]
        | cons c4 w4 =>
          have hc4 : wordc c4 = true := by
            simp only [allWordB, List.all_cons, Bool.and_eq_true] at hw
            exact hw.2.2.2.1
          have h4 : ('(' == c4) = false := beq_false_of_word_nonword hc4 (by decide)
          simp [epat, litPre, h4]

theorem countEOI_vchainR :
    ∀ {rs : List (List Char)}, wfNames rs → ∀ Y,
      countSub eoiAlt (vchainR rs ++ Y) = countSub eoiAlt Y := by
  intro rs
  have hstepE : ∀ (c : Char) (Z : List Char), ('E' == c) = false →
      countSub eoiAlt (c :: Z) = countSub eoiAlt Z := by
    intro c Z hc
    exact countSub_cons_of_not (litPre_head_ne hc)
  induction rs with
  | nil =>
    intro _ Y
    simp only [vchainR]
    rw [countSub_clean (by decide : cleanFor eoiAlt (cs (" \x7d")) = true)]
  | cons m t ih =>
    intro h Y
    obtain ⟨hm, hmne⟩ := wfNames_head h
    cases t with
    | nil =>
      simp only [vchainR, List.append_assoc]
      rw [countSub_clean (by decide : cleanFor eoiAlt (cs ("r#")) = true)]
      rw [countSub_word_region (fun w hw hne => noEOI_word_open w hw hne) hm]
      rw [countSub_clean (by decide : cleanFor eoiAlt (cs ("(crate::r#")) = true)]
      have e3 : ∀ Z : List Char, cs (")\x7d") ++ Z = ')' :: ('\x7d' :: Z) :=
        fun Z => rfl
      simp only [e3]
      rw [countSub_word_region (fun w hw hne => noEOI_word_close w hw hne) hm]
      rw [hstepE ')' _ (by decide), hstepE '\x7d' _ (by decide)]
    | cons b t' =>
      simp only [vchainR, List.append_assoc]
      rw [countSub_clean (by decide : cleanFor eoiAlt (cs ("r#")) = true)]
      rw [countSub_word_region (fun w hw hne => noEOI_word_open w hw hne) hm]
      rw [countSub_clean (by decide : cleanFor eoiAlt (cs ("(crate::r#")) = true)]
      have e3 : ∀ Z : List Char, cs ("),  ") ++ Z = ')' :: (cs (",  ") ++ Z) :=
        fun Z => rfl
      simp only [e3]
      rw [countSub_word_region (fun w hw hne => noEOI_word_close w hw hne) hm]
      rw [hstepE ')' _ (by decide)]
      rw [countSub_clean (by decide : cleanFor eoiAlt (cs (",  ")) = true)]
      exact ih (wfNames_tail h) Y

theorem countEOI_enum {a : List Char} {t : List (List Char)} (h : wfNames (a :: t)) :
    countSub eoiAlt (enumVariantsTextR (a :: t)) = 1 := by
  simp only [enumVariantsTextR]
  have e : ∀ Z : List Char, cs ("EOI(crate::EOI),  ") ++ Z
      = eoiAlt ++ (cs (",  ") ++ Z) := fun Z => rfl
  rw [e]
  rw [countSub_hit (by decide)]
  rw [countSub_clean (by decide : cleanFor eoiAlt (cs (",  ")) = true)]
  rw [← List.append_nil (vchainR (a :: t)), countEOI_vchainR h]
  rfl

theorem listPat_cons (n : List Char) :
    listPat n = '#' :: (n ++ cs ("(crate::r#") ++ n ++ cs (" \x7b\x7d)")) := rfl

theorem listPat_ne (n : List Char) : listPat n ≠ [] := by
  rw [listPat_cons]
  simp

theorem listPat_open (n : List Char) :
    listPat n = '#' :: (n ++ '(' :: (cs ("crate::r#") ++ (n ++ cs (" \x7b\x7d)")))) := by
  have e0 : ∀ Z : List Char, cs ("#") ++ Z = '#' :: Z := fun Z => rfl
  have e : ∀ Z : List Char, cs ("(crate::r#") ++ Z = '(' :: (cs ("crate::r#") ++ Z) :=
    fun Z => rfl
  simp only [listPat, List.append_assoc, List.cons_append, e0, e]

theorem listPat_open2 (n : List Char) :
    listPat n
      = '#' :: (n ++ '(' :: 'c' :: (cs ("rate::r#") ++ (n ++ cs (" \x7b\x7d)")))) := by
  have e0 : ∀ Z : List Char, cs ("#") ++ Z = '#' :: Z := fun Z => rfl
  have e : ∀ Z : List Char, cs ("(crate::r#") ++ Z
      = '(' :: 'c' :: (cs ("rate::r#") ++ Z) := fun Z => rfl
  simp only [listPat, List.append_assoc, List.cons_append, e0, e]

theorem countList_echainR {n : List Char} (hn : allWordB n = true) :
    ∀ {rs : List (List Char)}, wfNames rs → ∀ Y,
      countSub (listPat n) (echainR rs ++ Y) = countName n rs + countSub (listPat n) Y := by
  intro rs
  induction rs with
  | nil =>
    intro _ Y
    simp only [echainR, countName]
    rw [countSub_clean (by rfl : cleanFor (listPat n) (cs ("]")) = true)]
    omega
  | cons m t ih =>
    intro h Y
    obtain ⟨hm, hmne⟩ := wfNames_head h
    have hwm : ∀ Z, countSub (listPat n) (m ++ Z) = countSub (listPat n) Z :=
      countSub_word_cs (listPat_cons n) (by decide) hm
    have e1 : ∀ Z : List Char, cs ("Rule::r#") ++ Z = cs ("Rule::r") ++ ('#' :: Z) :=
      fun Z => rfl
    have eopen : ∀ Z : List Char, cs ("(crate::r#") ++ Z
        = '(' :: (cs ("crate::r#") ++ Z) := fun Z => rfl
    have esplit : ∀ Z : List Char, cs ("(crate::r#") ++ Z
        = cs ("(crate::r") ++ ('#' :: Z) := fun Z => rfl
    cases t with
    | nil =>
      by_cases hmn : m = n
      · subst hmn
        simp only [echainR, List.append_assoc]
        have e2 : ∀ Z : List Char, cs (" \x7b\x7d)]") ++ Z
            = cs (" \x7b\x7d)") ++ (']' :: Z) := fun Z => rfl
        simp only [e1, e2]
        rw [countSub_clean (by rfl : cleanFor (listPat m) (cs ("Rule::r")) = true)]
        have ejoin : '#' :: (m ++ (cs ("(crate::r#") ++ (m ++ (cs (" \x7b\x7d)")
            ++ (']' :: Y))))) = listPat m ++ (']' :: Y) := by
          have e0 : ∀ W : List Char, cs ("#") ++ W = '#' :: W := fun W => rfl
          simp only [listPat, List.append_assoc, List.cons_append, e0]
        rw [ejoin, countSub_hit (listPat_ne m)]
        rw [show countSub (listPat m) (']' :: Y) = countSub (listPat m) Y from
          countSub_cons_of_not (by rw [listPat_cons]; exact litPre_head_ne (by decide))]
        simp only [countName]
        rw [if_pos trivial]
        omega
      · simp only [echainR, List.append_assoc]
        simp only [e1]
        rw [countSub_clean (by rfl : cleanFor (listPat n) (cs ("Rule::r")) = true)]
        have hno1 : litPre (listPat n) ('#' :: (m ++ (cs ("(crate::r#")
            ++ (m ++ (cs (" \x7b\x7d)]") ++ Y))))) = false := by
          rw [listPat_open]
          simp only [eopen]
          exact noHit_hash_open hn hm hmn
        rw [countSub_cons_of_not hno1, hwm]
        simp only [esplit]
        rw [countSub_clean (by rfl : cleanFor (listPat n) (cs ("(crate::r")) = true)]
        have e3 : ∀ Z : List Char, cs (" \x7b\x7d)]") ++ Z
            = ' ' :: (cs ("\x7b\x7d)]") ++ Z) := fun Z => rfl
        simp only [e3]
        have hno2 : litPre (listPat n)
            ('#' :: (m ++ ' ' :: (cs ("\x7b\x7d)]") ++ Y))) = false := by
          rw [listPat_open]
          exact noHit_hash_sep hn hm (by decide) (by decide)
        rw [countSub_cons_of_not hno2, hwm]
        rw [show ∀ Z, (' ' : Char) :: (cs ("\x7b\x7d)]") ++ Z)
            = cs (" \x7b\x7d)]") ++ Z from fun Z => rfl]
        rw [countSub_clean (by rfl : cleanFor (listPat n) (cs (" \x7b\x7d)]")) = true)]
        simp only [countName]
        rw [if_neg hmn]
        omega
    | cons b t' =>
      by_cases hmn : m = n
      · subst hmn
        simp only [echainR, List.append_assoc]
        have e2 : ∀ Z : List Char, cs (" \x7b\x7d),  ") ++ Z
            = cs (" \x7b\x7d)") ++ (cs (",  ") ++ Z) := fun Z => rfl
        simp only [e1, e2]
        rw [countSub_clean (by rfl : cleanFor (listPat m) (cs ("Rule::r")) = true)]
        have ejoin : ∀ Z : List Char, '#' :: (m ++ (cs ("(crate::r#") ++ (m
            ++ (cs (" \x7b\x7d)") ++ (cs (",  ") ++ Z)))))
            = listPat m ++ (cs (",  ") ++ Z) := by
          intro Z
          have e0 : ∀ W : List Char, cs ("#") ++ W = '#' :: W := fun W => rfl
          simp only [listPat, List.append_assoc, List.cons_append, e0]
        rw [ejoin, countSub_hit (listPat_ne m)]
        rw [countSub_clean (by rfl : cleanFor (listPat m) (cs (",  ")) = true)]
        rw [ih (wfNames_tail h) Y]
        simp only [countName]
        rw [if_pos trivial]
        omega
      · simp only [echainR, List.append_assoc]
        simp only [e1]
        rw [countSub_clean (by rfl : cleanFor (listPat n) (cs ("Rule::r")) = true)]
        have hno1 : litPre (listPat n) ('#' :: (m ++ (cs ("(crate::r#")
            ++ (m ++ (cs (" \x7b\x7d),  ") ++ (echainR (b :: t') ++ Y)))))) = false := by
          rw [listPat_open]
          simp only [eopen]
          exact noHit_hash_open hn hm hmn
        rw [countSub_cons_of_not hno1, hwm]
        simp only [esplit]
        rw [countSub_clean (by rfl : cleanFor (listPat n) (cs ("(crate::r")) = true)]
        have e3 : ∀ Z : List Char, cs (" \x7b\x7d),  ") ++ Z
            = ' ' :: (cs ("\x7b\x7d),  ") ++ Z) := fun Z => rfl
        simp only [e3]
        have hno2 : litPre (listPat n) ('#' :: (m ++ ' ' :: (cs ("\x7b\x7d),  ")
            ++ (echainR (b :: t') ++ Y)))) = false := by
          rw [listPat_open]
          exact noHit_hash_sep hn hm (by decide) (by decide)
        rw [countSub_cons_of_not hno2, hwm]
        rw [show ∀ Z, (' ' : Char) :: (cs ("\x7b\x7d),  ") ++ Z)
            = cs (" \x7b\x7d),  ") ++ Z from fun Z => rfl]
        rw [countSub_clean (by rfl : cleanFor (listPat n) (cs (" \x7b\x7d),  ")) = true)]
        rw [ih (wfNames_tail h) Y]
        simp only [countName]
        rw [if_neg hmn]
        omega

theorem countList_fchainR {n : List Char} (hn : allWordB n = true) :
    ∀ {rs : List (List Char)}, wfNames rs → ∀ Y,
      countSub (listPat n) (fchainR rs ++ Y) = countName n rs + countSub (listPat n) Y := by
  intro rs
  induction rs with
  | nil => intro _ Y; simp [fchainR, countName]
  | cons m t ih =>
    intro h Y
    obtain ⟨hm, hmne⟩ := wfNames_head h
    have hwm : ∀ Z, countSub (listPat n) (m ++ Z) = countSub (listPat n) Z :=
      countSub_word_cs (listPat_cons n) (by decide) hm
    have e1 : ∀ Z : List Char, cs ("pub fn r#") ++ Z = cs ("pub fn r") ++ ('#' :: Z) :=
      fun Z => rfl
    have eA : ∀ Z : List Char, cs ("(state : S) -> R \x7b state.rule(Rule::r#") ++ Z
        = '(' :: 's' :: (cs ("tate : S) -> R \x7b state.rule(Rule::r#") ++ Z) :=
      fun Z => rfl
    have eB : ∀ Z : List Char, cs ("tate : S) -> R \x7b state.rule(Rule::r#") ++ Z
        = cs ("tate : S) -> R \x7b state.rule(Rule::r") ++ ('#' :: Z) := fun Z => rfl
    have eopen : ∀ Z : List Char, cs ("(crate::r#") ++ Z
        = '(' :: (cs ("crate::r#") ++ Z) := fun Z => rfl
    have esplit : ∀ Z : List Char, cs ("(crate::r#") ++ Z
        = cs ("(crate::r") ++ ('#' :: Z) := fun Z => rfl
    simp only [fchainR, List.append_assoc, List.cons_append, e1]
    rw [countSub_clean (by rfl : cleanFor (listPat n) (cs ("pub fn r")) = true)]
    have hno1 : litPre (listPat n) ('#' :: (m ++ (cs ("(state : S) -> R \x7b state.rule(Rule::r#")
        ++ (m ++ (cs ("(crate::r#") ++ (m ++ (cs (" \x7b\x7d),  f) \x7d ")
          ++ (fchainR t ++ Y)))))))) = false := by
      rw [listPat_open2]
      simp only [eA]
      exact noHit_hash_open_ne hn hm (by decide)
    rw [countSub_cons_of_not hno1, hwm]
    simp only [eA]
    rw [show ∀ Z, ('(' : Char) :: ('s' :: Z) = cs ("(s") ++ Z from fun Z => rfl]
    rw [countSub_clean (by rfl : cleanFor (listPat n) (cs ("(s")) = true)]
    simp only [eB]
    rw [countSub_clean (by rfl :
      cleanFor (listPat n) (cs ("tate : S) -> R \x7b state.rule(Rule::r")) = true)]
    by_cases hmn : m = n
    · subst hmn
      have e2 : ∀ Z : List Char, cs (" \x7b\x7d),  f) \x7d ") ++ Z
          = cs (" \x7b\x7d)") ++ (cs (",  f) \x7d ") ++ Z) := fun Z => rfl
      simp only [e2]
      have ejoin : ∀ Z : List Char, '#' :: (m ++ (cs ("(crate::r#") ++ (m
          ++ (cs (" \x7b\x7d)") ++ (cs (",  f) \x7d ") ++ Z)))))
          = listPat m ++ (cs (",  f) \x7d ") ++ Z) := by
        intro Z
        have e0 : ∀ W : List Char, cs ("#") ++ W = '#' :: W := fun W => rfl
        simp only [listPat, List.append_assoc, List.cons_append, e0]
      rw [ejoin, countSub_hit (listPat_ne m)]
      rw [countSub_clean (by rfl : cleanFor (listPat m) (cs (",  f) \x7d ")) = true)]
      rw [ih (wfNames_tail h) Y]
      simp only [countName]
      rw [if_pos trivial]
      omega
    · have hno2 : litPre (listPat n) ('#' :: (m ++ (cs ("(crate::r#")
          ++ (m ++ (cs (" \x7b\x7d),  f) \x7d ") ++ (fchainR t ++ Y)))))) = false := by
        rw [listPat_open]
        simp only [eopen]
        exact noHit_hash_open hn hm hmn
      rw [countSub_cons_of_not hno2, hwm]
      simp only [esplit]
      rw [countSub_clean (by rfl : cleanFor (listPat n) (cs ("(crate::r")) = true)]
      have e3 : ∀ Z : List Char, cs (" \x7b\x7d),  f) \x7d ") ++ Z
          = ' ' :: (cs ("\x7b\x7d),  f) \x7d ") ++ Z) := fun Z => rfl
      simp only [e3]
      have hno3 : litPre (listPat n) ('#' :: (m ++ ' ' :: (cs ("\x7b\x7d),  f) \x7d ")
          ++ (fchainR t ++ Y)))) = false := by
        rw [listPat_open]
        exact noHit_hash_sep hn hm (by decide) (by decide)
      rw [countSub_cons_of_not hno3, hwm]
      rw [show ∀ Z, (' ' : Char) :: (cs ("\x7b\x7d),  f) \x7d ") ++ Z)
          = cs (" \x7b\x7d),  f) \x7d ") ++ Z from fun Z => rfl]
      rw [countSub_clean (by rfl :
        cleanFor (listPat n) (cs (" \x7b\x7d),  f) \x7d ")) = true)]
      rw [ih (wfNames_tail h) Y]
      simp only [countName]
      rw [if_neg hmn]
      omega

/-! ## Claim C1 -/

/-- A documented pest 2.5.4 output in which the `all_rules` listing wraps a
`Rule ::` qualifier onto the next line (lib.rs lines 135-138 show exactly this
rendering), with user rules `Alpha` and `Beta`. -/
def cexWrapIn : List Char :=
  pestEnumText [cs ("Alpha"), cs ("Beta")] ++ gImplAll
    ++ cs ("Rule ::\nr#Alpha, Rule :: r#Beta] \x7d \x7d")

/-- The hooker output on success, `[]` on error. -/
def hookOut (raw I : List Char) : List Char :=
  match enum_dispatch_generated_enum_hooker raw I with
  | Except.ok out => out
  | Except.error _ => []

/-- C1, as stated, is refuted on the documented pest 2.5.4 shape: on a full
output whose listing wraps `Rule ::` before `r#Alpha,` (the crate source
documents this exact rendering), the hooker succeeds but the listing
occurrence of `Alpha` is rewritten to the payload-type form
`r#Alpha(crate::r#Alpha)` instead of the constructed-value form — the output
contains no `(crate::r#Alpha \x7b\x7d)` at all, because the qualified-comma pass
requires the qualifier and the name on one line (`[[:blank:]]` does not match
the line break) and the variant pass then claims the site. -/
theorem claim_C1_counterexample :
    containsSub (cs ("Rule ::\nr#Alpha,")) cexWrapIn = true
    ∧ (enum_dispatch_generated_enum_hooker cexWrapIn (cs ("IF"))).isOk = true
    ∧ containsSub (cs ("(crate::r#Alpha \x7b\x7d)")) (hookOut cexWrapIn (cs ("IF"))) = false
    ∧ containsSub (cs ("r#Alpha(crate::r#Alpha), ")) (hookOut cexWrapIn (cs ("IF")))
        = true := by
  set_option maxRecDepth 10000 in
  refine ⟨by decide, by decide, by decide, by decide⟩

/-- C1 (amended to the wrap-free rendering of the pest 2.5.4 shape): the
hooker rewrites the full output exactly to `rewrittenOut`; in the rewritten
enumeration region every rule (each user rule and the sentinel) carries
exactly one payload alternative whose payload type is the synthesized nominal
type of the same name, and in the listing region and at every construction
site each rule occurs exactly once in constructed-value form. -/
theorem claim_C1 {a : List Char} {t : List (List Char)} (h : wfNames (a :: t))
    (hnd : (a :: t).Nodup) {I : List Char} (hI : allWordB I = true) :
    enum_dispatch_generated_enum_hooker (pestFullOut (a :: t)) I
      = Except.ok (rewrittenOut (a :: t) I)
    ∧ countSub eoiAlt (enumVariantsTextR (a :: t)) = 1
    ∧ (∀ n ∈ a :: t, countSub (altPat n) (enumVariantsTextR (a :: t)) = 1)
    ∧ (∀ n ∈ a :: t, countSub (listPat n) (echainR (a :: t)) = 1)
    ∧ (∀ n ∈ a :: t, countSub (listPat n) (fchainR (a :: t)) = 1) := by
  refine ⟨hooker_pest_shape h hI, countEOI_enum h, ?_, ?_, ?_⟩
  · intro n hmem
    obtain ⟨hnW, -⟩ := h n hmem
    rw [countAlt_enum hnW h, countName_eq_one hnd hmem]
  · intro n hmem
    obtain ⟨hnW, -⟩ := h n hmem
    rw [← List.append_nil (echainR (a :: t)), countList_echainR hnW h,
      countName_eq_one hnd hmem]
    rfl
  · intro n hmem
    obtain ⟨hnW, -⟩ := h n hmem
    rw [← List.append_nil (fchainR (a :: t)), countList_fchainR hnW h,
      countName_eq_one hnd hmem]
    rfl

theorem claim_C1_witness :
    enum_dispatch_generated_enum_hooker (pestFullOut [cs ("A")]) (cs ("B"))
      = Except.ok (rewrittenOut [cs ("A")] (cs ("B")))
    ∧ countSub (altPat (cs ("A"))) (enumVariantsTextR [cs ("A")]) = 1
    ∧ countSub (listPat (cs ("A"))) (echainR [cs ("A")]) = 1 := by
  have h := claim_C1 (a := cs ("A")) (t := []) (I := cs ("B"))
    (show ∀ x ∈ [cs ("A")], allWordB x = true ∧ x ≠ [] from by decide)
    (by decide) (by decide)
  exact ⟨h.1, h.2.2.1 (cs ("A")) (by simp), h.2.2.2.1 (cs ("A")) (by simp)⟩

/-! ## Claim C2: the tag generator on the enumeration-only shape -/

theorem dropToClose_through :
    ∀ {B : List Char}, B.all (fun c => !(c == ']')) = true → ∀ R,
      dropToClose (B ++ ']' :: R) = some R := by
  intro B
  induction B with
  | nil => intro _ R; rfl
  | cons c t ih =>
    intro hB R
    simp only [List.all_cons, Bool.and_eq_true, Bool.not_eq_true'] at hB
    have hc : ¬ (c = ']') := by
      intro hx
      rw [hx] at hB
      simp at hB
    simp only [List.cons_append, dropToClose, if_neg hc]
    exact ih hB.2 R

theorem skipAttrs_attr {f : Nat} {B R : List Char}
    (hB : B.all (fun c => !(c == ']')) = true) :
    skipAttrs (f + 1) ('#' :: '[' :: (B ++ ']' :: R)) = skipAttrs f R := by
  show skipAttrs (f + 1) ('#' :: '[' :: (B ++ ']' :: R)) = skipAttrs f R
  simp only [skipAttrs]
  have e1 : List.dropWhile wsc ('#' :: '[' :: (B ++ ']' :: R))
      = '#' :: '[' :: (B ++ ']' :: R) := rfl
  have e2 : List.dropWhile wsc ('[' :: (B ++ ']' :: R)) = '[' :: (B ++ ']' :: R) := rfl
  rw [e1]
  simp only [e2, dropToClose_through hB]

theorem skipAttrs_attr_blank {f : Nat} {B R : List Char}
    (hB : B.all (fun c => !(c == ']')) = true) :
    skipAttrs (f + 1) (' ' :: '#' :: '[' :: (B ++ ']' :: R)) = skipAttrs f R := by
  simp only [skipAttrs]
  have e1 : List.dropWhile wsc (' ' :: '#' :: '[' :: (B ++ ']' :: R))
      = '#' :: '[' :: (B ++ ']' :: R) := rfl
  have e2 : List.dropWhile wsc ('[' :: (B ++ ']' :: R)) = '[' :: (B ++ ']' :: R) := rfl
  rw [e1]
  simp only [e2, dropToClose_through hB]

theorem skipAttrs_stop {f : Nat} {c : Char} {R : List Char} (hw : wsc c = false)
    (hc : ¬ (c = '#')) : skipAttrs (f + 1) (c :: R) = some (c :: R) := by
  simp only [skipAttrs]
  have e1 : List.dropWhile wsc (c :: R) = c :: R := by
    simp [List.dropWhile, hw]
  rw [e1]
  split
  · rename_i t ht
    injection ht with h1 h2
    exact absurd h1 hc
  · rfl

theorem skipAttrs_stop_blank {f : Nat} {c : Char} {R : List Char} (hw : wsc c = false)
    (hc : ¬ (c = '#')) : skipAttrs (f + 1) (' ' :: c :: R) = some (c :: R) := by
  simp only [skipAttrs]
  have h2 : wsc ' ' = true := rfl
  have e1 : List.dropWhile wsc (' ' :: c :: R) = c :: R := by
    simp [List.dropWhile, h2, hw]
  rw [e1]
  split
  · rename_i t ht
    injection ht with h1 h2
    exact absurd h1 hc
  · rfl

theorem parseIdent_raw {m : List Char} (hm : allWordB m = true) (hne : m ≠ [])
    {b : Char} {Y : List Char} (hb : wordc b = false) :
    parseIdent (cs ("r#") ++ (m ++ b :: Y)) = some (cs ("r#") ++ m, b :: Y) := by
  show parseIdent ('r' :: '#' :: (m ++ b :: Y)) = some (cs ("r#") ++ m, b :: Y)
  simp only [parseIdent]
  rw [if_pos (by trivial)]
  rw [takeWhile_word_append hm hb]
  rw [if_neg hne]
  rw [List.drop_left]

theorem findSub_zero {p s : List Char} (hp : p ≠ []) (hs : litPre p s = true) :
    findSub p s = some 0 := by
  cases s with
  | nil =>
    cases p with
    | nil => exact absurd rfl hp
    | cons d q => simp [litPre] at hs
  | cons c t => simp only [findSub, hs, if_pos]

theorem findSub_clean {p : List Char} :
    ∀ {A : List Char}, cleanFor p A = true → ∀ Y,
      findSub p (A ++ Y) = (findSub p Y).map (· + A.length) := by
  intro A
  induction A with
  | nil =>
    intro _ Y
    simp only [List.nil_append, List.length_nil]
    cases findSub p Y <;> simp
  | cons c t ih =>
    intro hA Y
    simp only [cleanFor, Bool.and_eq_true, Bool.not_eq_true'] at hA
    obtain ⟨⟨h1, h2⟩, h3⟩ := hA
    have hf : litPre p ((c :: t) ++ Y) = false :=
      litPre_false_of_incomparable (by simp) h1 h2 Y
    rw [List.cons_append] at hf
    rw [List.cons_append]
    simp only [findSub, hf, Bool.false_eq_true, if_false, ih h3 Y]
    cases findSub p Y with
    | none => rfl
    | some k =>
      simp [Nat.add_assoc]

theorem findSub_word {d : Char} {q : List Char} (hd : wordc d = false)
    {m : List Char} (hm : allWordB m = true) (Z : List Char) :
    findSub (d :: q) (m ++ Z) = (findSub (d :: q) Z).map (· + m.length) := by
  induction m with
  | nil =>
    simp only [List.nil_append, List.length_nil]
    cases findSub (d :: q) Z <;> simp
  | cons c t ih =>
    have hc : wordc c = true := by
      simp only [allWordB, List.all_cons, Bool.and_eq_true] at hm
      exact hm.1
    have ht : allWordB t = true := by
      simp only [allWordB, List.all_cons, Bool.and_eq_true] at hm
      exact hm.2
    have hf : litPre (d :: q) (c :: (t ++ Z)) = false :=
      litPre_head_ne (beq_false_of_word_nonword hc hd)
    rw [List.cons_append]
    simp only [findSub, hf, Bool.false_eq_true, if_false, ih ht]
    cases findSub (d :: q) Z with
    | none => rfl
    | some k =>
      simp [Nat.add_assoc]

theorem words_no_char {d : Char} (hd : wordc d = false) :
    ∀ {m : List Char}, allWordB m = true → m.all (fun c => !(c == d)) = true := by
  intro m
  induction m with
  | nil => intro _; rfl
  | cons c t ih =>
    intro hm
    simp only [allWordB, List.all_cons, Bool.and_eq_true] at hm
    obtain ⟨h1, h2⟩ := hm
    simp only [List.all_cons, Bool.and_eq_true]
    refine ⟨?_, ih h2⟩
    simp only [Bool.not_eq_true', beq_eq_false_iff_ne, ne_eq]
    intro hx
    rw [hx, hd] at h1
    simp at h1

theorem cleanFor_brace :
    ∀ {A : List Char}, A.all (fun c => !(c == rbrace)) = true →
      cleanFor [rbrace] A = true := by
  intro A
  induction A with
  | nil => intro _; rfl
  | cons c t ih =>
    intro hA
    simp only [List.all_cons, Bool.and_eq_true, Bool.not_eq_true'] at hA
    have hc : (c == rbrace) = false := hA.1
    have hc2 : (rbrace == c) = false := by
      simp only [beq_eq_false_iff_ne, ne_eq] at hc ⊢
      exact fun hx => hc hx.symm
    simp only [cleanFor, Bool.and_eq_true, Bool.not_eq_true']
    refine ⟨⟨?_, ?_⟩, ih hA.2⟩
    · simp only [litPre, hc, Bool.false_and]
    · simp only [litPre, hc2, Bool.false_and]

/-- The variant chain without its closing ` \x7d`. -/
def vbody : List (List Char) → List Char
  | [] => []
  | [m] => cs ("r#") ++ m
  | m :: b :: t => cs ("r#") ++ m ++ cs (", ") ++ vbody (b :: t)

theorem vchain_vbody : ∀ rs : List (List Char), vchain rs = vbody rs ++ cs (" \x7d") := by
  intro rs
  induction rs with
  | nil => rfl
  | cons m t ih =>
    cases t with
    | nil => rfl
    | cons b t' =>
      simp only [vchain, vbody, List.append_assoc, ih]

theorem vbody_no_brace : ∀ {rs : List (List Char)}, wfNames rs →
    (vbody rs).all (fun c => !(c == rbrace)) = true := by
  intro rs
  induction rs with
  | nil => intro _; rfl
  | cons m t ih =>
    intro h
    obtain ⟨hm, -⟩ := wfNames_head h
    cases t with
    | nil =>
      simp only [vbody, List.all_append, Bool.and_eq_true]
      exact ⟨by decide, words_no_char (by decide) hm⟩
    | cons b t' =>
      simp only [vbody, List.all_append, Bool.and_eq_true]
      exact ⟨⟨⟨by decide, words_no_char (by decide) hm⟩, by decide⟩,
        ih (wfNames_tail h)⟩

theorem vchain_len : ∀ rs : List (List Char), rs.length ≤ (vchain rs).length := by
  intro rs
  induction rs with
  | nil => simp [vchain]
  | cons m t ih =>
    cases t with
    | nil =>
      rw [show vchain [m] = cs ("r#") ++ m ++ cs (" \x7d") from rfl]
      simp only [List.length_append, List.length_cons, List.length_nil]
      rw [(show (cs ("r#")).length = 2 from rfl), (show (cs (" \x7d")).length = 2 from rfl)]
      omega
    | cons b t' =>
      simp only [vchain, List.length_append, List.length_cons]
      simp only [List.length_cons] at ih
      rw [(show (cs ("r#")).length = 2 from rfl), (show (cs (", ")).length = 2 from rfl)]
      omega

theorem parseVars_chain :
    ∀ {rs : List (List Char)}, wfNames rs → rs ≠ [] → ∀ f,
      parseVariantsF (f + rs.length) (cs (" ") ++ vchain rs)
        = some (rs.map (fun n => cs ("r#") ++ n)) := by
  intro rs
  induction rs with
  | nil => intro _ hne; exact absurd rfl hne
  | cons m t ih =>
    intro h _ f
    obtain ⟨hm, hmne⟩ := wfNames_head h
    cases t with
    | nil =>
      have e1 : cs (" ") ++ vchain [m] = ' ' :: 'r' :: ('#' :: (m ++ cs (" \x7d"))) := rfl
      show parseVariantsF (f + 1) (cs (" ") ++ vchain [m]) = some [cs ("r#") ++ m]
      rw [e1]
      simp only [parseVariantsF]
      rw [skipAttrs_stop_blank (by decide) (by decide)]
      rw [Option.some_bind]
      rw [show ('r' : Char) :: ('#' :: (m ++ cs (" \x7d")))
          = cs ("r#") ++ (m ++ ' ' :: '\x7d' :: []) from rfl]
      rw [parseIdent_raw hm hmne (by decide)]
      rfl
    | cons b t' =>
      have efuel : f + (m :: b :: t').length = (f + (b :: t').length) + 1 := by
        simp only [List.length_cons]
        omega
      rw [efuel]
      have e1 : cs (" ") ++ vchain (m :: b :: t')
          = ' ' :: 'r' :: ('#' :: ((m ++ cs (", ")) ++ vchain (b :: t'))) := rfl
      rw [e1]
      have e2 : ∀ V : List Char, cs (", ") ++ V = ',' :: (cs (" ") ++ V) := fun V => rfl
      simp only [List.append_assoc, e2]
      simp only [parseVariantsF]
      rw [skipAttrs_stop_blank (by decide) (by decide)]
      rw [Option.some_bind]
      rw [show ('r' : Char) :: ('#' :: (m ++ ',' :: (cs (" ") ++ vchain (b :: t'))))
          = cs ("r#") ++ (m ++ ',' :: (cs (" ") ++ vchain (b :: t'))) from rfl]
      rw [parseIdent_raw hm hmne (by decide)]
      rw [Option.some_bind]
      show (parseVariantsF (f + (b :: t').length) (cs (" ") ++ vchain (b :: t'))).map
        (fun vs => (cs ("r#") ++ m) :: vs) = _
      rw [ih (wfNames_tail h) (by simp) f]
      rfl

theorem parse_pestEnum {a : List Char} {t : List (List Char)} (h : wfNames (a :: t)) :
    parseItemEnumVariants (pestEnumText (a :: t))
      = some (cs ("EOI") :: (a :: t).map (fun n => cs ("r#") ++ n)) := by
  show (parseVariantsF ((cs (" #[doc = \"End-of-input\"] EOI, ") ++ vchain (a :: t)).length)
      (cs (" ") ++ vchain (a :: t))).map (fun vs => cs ("EOI") :: vs)
    = some (cs ("EOI") :: (a :: t).map (fun n => cs ("r#") ++ n))
  have hge : (a :: t).length
      ≤ (cs (" #[doc = \"End-of-input\"] EOI, ") ++ vchain (a :: t)).length := by
    rw [List.length_append]
    have := vchain_len (a :: t)
    omega
  rw [show (cs (" #[doc = \"End-of-input\"] EOI, ") ++ vchain (a :: t)).length
      = ((cs (" #[doc = \"End-of-input\"] EOI, ") ++ vchain (a :: t)).length
        - (a :: t).length) + (a :: t).length from by omega]
  rw [parseVars_chain h (by simp) _]
  rfl

theorem tag_findSub_marker (rs : List (List Char)) :
    findSub allowMarker (pestEnumText rs) = some 0 := by
  apply findSub_zero (by decide)
  have e : pestEnumText rs
      = allowMarker ++ (cs (" ") ++ (gDeriveHead ++ (cs ("EOI") ++ enumVariantsText rs))) := by
    simp only [pestEnumText, gAllow, List.append_assoc]
  rw [e]
  exact litPre_iff.mpr (List.prefix_append _ _)

theorem pestEnum_split {a : List Char} {t : List (List Char)} :
    pestEnumText (a :: t)
      = (gAllow ++ gDeriveHead ++ cs ("EOI, ") ++ vbody (a :: t) ++ cs (" ")) ++ [rbrace] := by
  have e1 : ∀ Z : List Char, cs ("EOI") ++ (cs (", ") ++ Z) = cs ("EOI, ") ++ Z :=
    fun Z => rfl
  have e2 : cs (" \x7d") = cs (" ") ++ [rbrace] := rfl
  simp only [pestEnumText, enumVariantsText, vchain_vbody (a :: t), e2,
    List.append_assoc, e1]

theorem tag_findSub_brace {a : List Char} {t : List (List Char)} (h : wfNames (a :: t)) :
    findSub [rbrace] (pestEnumText (a :: t))
      = some ((pestEnumText (a :: t)).length - 1) := by
  have hclean : cleanFor [rbrace]
      (gAllow ++ gDeriveHead ++ cs ("EOI, ") ++ vbody (a :: t) ++ cs (" ")) = true := by
    apply cleanFor_brace
    simp only [List.all_append, Bool.and_eq_true]
    exact ⟨⟨⟨⟨by decide, by decide⟩, by decide⟩, vbody_no_brace h⟩, by decide⟩
  rw [pestEnum_split]
  rw [findSub_clean hclean]
  rw [findSub_zero (by decide) (by decide)]
  have hlen : ((gAllow ++ gDeriveHead ++ cs ("EOI, ") ++ vbody (a :: t) ++ cs (" "))
        ++ [rbrace]).length - 1
      = (gAllow ++ gDeriveHead ++ cs ("EOI, ") ++ vbody (a :: t) ++ cs (" ")).length := by
    simp only [List.length_append, List.length_cons, List.length_nil]
    omega
  rw [hlen]
  simp [Option.map]

set_option maxRecDepth 40000 in
theorem tag_pest {rs : List (List Char)} (h : wfNames rs) :
    enum_dispatch_tag_generator (pestEnumText rs)
      = Except.ok ((cs ("EOI") :: rs.map (fun n => cs ("r#") ++ n)).map renderStructDecl) := by
  cases rs with
  | nil => rfl
  | cons a t =>
    have hL : 1 ≤ (pestEnumText (a :: t)).length := by
      have hg : 0 < gAllow.length := by decide
      simp only [pestEnumText, List.length_append]
      omega
    simp only [enum_dispatch_tag_generator]
    rw [tag_findSub_marker, tag_findSub_brace h]
    show (if 0 ≤ (pestEnumText (a :: t)).length - 1 + 1 then
        match parseItemEnumVariants
            (((pestEnumText (a :: t)).take ((pestEnumText (a :: t)).length - 1 + 1)).drop 0) with
        | some vs => Except.ok (vs.map renderStructDecl)
        | none =>
          Except.error (cs ("cannot parse cutted pest enum definition string into enum."))
      else Except.error (cs ("slice index starts at a position beyond its end")))
      = Except.ok ((cs ("EOI") :: (a :: t).map (fun n => cs ("r#") ++ n)).map renderStructDecl)
    rw [if_pos (Nat.zero_le _)]
    rw [show (pestEnumText (a :: t)).length - 1 + 1 = (pestEnumText (a :: t)).length from
      by omega]
    rw [List.take_length, List.drop_zero]
    rw [parse_pestEnum h]

/-- The rule-set extractor as the specification words it: slice from the
marker to the first closing brace occurring at or after the marker (cf.
`enum_dispatch_tag_generator`, which uses the first closing brace of the
whole string instead). -/
def tag_generator_specSlice (raw_codes : List Char) :
    Except (List Char) (List (List Char)) :=
  match findSub allowMarker raw_codes with
  | none =>
    Except.error (cs
      ("cannot find `pub enum Rule` in pest auto-generated code. this error might be a false positive in rust-analyzer, so please refer to the compilation results."))
  | some enum_start =>
    match findSub [rbrace] (raw_codes.drop enum_start) with
    | none =>
      Except.error (cs
        ("cannot find `pub enum Rule` in pest auto-generated code. this error might be a false positive in rust-analyzer, so please refer to the compilation results."))
    | some off =>
      match parseItemEnumVariants
          ((raw_codes.take (enum_start + off + 1)).drop enum_start) with
      | some vs => Except.ok (vs.map renderStructDecl)
      | none => Except.error (cs ("cannot parse cutted pest enum definition string into enum."))

/-- An enumeration-only text with a stray closing brace before the marker:
the marker is present and a closing brace follows it, yet the code slices to
the first brace of the whole string. -/
def cexC4 : List Char := cs ("\x7d ") ++ pestEnumText []

theorem claim_C4_counterexample :
    tag_generator_specSlice cexC4 = Except.ok ([cs ("EOI")].map renderStructDecl)
    ∧ enum_dispatch_tag_generator cexC4
        = Except.error (cs ("slice index starts at a position beyond its end")) := by
  constructor
  · set_option maxRecDepth 40000 in rfl
  · set_option maxRecDepth 40000 in rfl

/-- C4 (amended): the extractor slices from the marker position to the first
closing brace of the WHOLE input — not the first closing brace after the
marker — parsing that slice when the slice is non-degenerate and aborting
with the slice panic when the first brace of the string lies before the
marker. -/
theorem claim_C4 {raw : List Char} {s e : Nat}
    (hs : findSub allowMarker raw = some s)
    (he : findSub [rbrace] raw = some e) :
    (s ≤ e + 1 →
      enum_dispatch_tag_generator raw
        = match parseItemEnumVariants ((raw.take (e + 1)).drop s) with
          | some vs => Except.ok (vs.map renderStructDecl)
          | none =>
            Except.error (cs ("cannot parse cutted pest enum definition string into enum.")))
    ∧ (e + 1 < s →
      enum_dispatch_tag_generator raw
        = Except.error (cs ("slice index starts at a position beyond its end"))) := by
  constructor <;> intro hle <;> simp only [enum_dispatch_tag_generator, hs, he]
  · rw [if_pos hle]
  · rw [if_neg (by omega)]

theorem claim_C4_witness :
    findSub allowMarker cexC4 = some 2
    ∧ findSub [rbrace] cexC4 = some 0
    ∧ ((2 ≤ 0 + 1 →
        enum_dispatch_tag_generator cexC4
          = match parseItemEnumVariants ((cexC4.take (0 + 1)).drop 2) with
            | some vs => Except.ok (vs.map renderStructDecl)
            | none =>
              Except.error
                (cs ("cannot parse cutted pest enum definition string into enum.")))
      ∧ (0 + 1 < 2 →
        enum_dispatch_tag_generator cexC4
          = Except.error (cs ("slice index starts at a position beyond its end")))) :=
  ⟨by set_option maxRecDepth 40000 in decide,
   by set_option maxRecDepth 40000 in decide,
   claim_C4 (by set_option maxRecDepth 40000 in decide)
     (by set_option maxRecDepth 40000 in decide)⟩

theorem claim_C5_counterexample :
    enum_dispatch_generated_enum_hooker (cs ("xyz")) (cs ("I"))
      = Except.error (cs ("called Option::unwrap() on a None value")) := rfl

/-- C5 (amended): the six regex rewrite passes and the arrow pass each leave
a text unchanged whenever their token pattern is absent from it (no position
of the text matches), but the dispatch-annotation insertion step does NOT
silently no-op: when its anchor `#[derive(` is absent from the input the
hooker aborts the pipeline with the unwrap panic instead of emitting
output. -/
theorem claim_C5 {raw I : List Char} (hins : findSub derivePat raw = none) :
    enum_dispatch_generated_enum_hooker raw I
      = Except.error (cs ("called Option::unwrap() on a None value"))
    ∧ (∀ s, hasMatch mArrow s = false → scanM mArrow s = s)
    ∧ (∀ s, hasMatch mQual s = false → scanM mQual s = s)
    ∧ (∀ s, hasMatch mVar s = false → scanM mVar s = s)
    ∧ (∀ s, hasMatch mQualEOI s = false → scanM mQualEOI s = s)
    ∧ (∀ s, hasMatch mVarEOI s = false → scanM mVarEOI s = s)
    ∧ (∀ s, hasMatch mQualLast s = false → scanM mQualLast s = s)
    ∧ (∀ s, hasMatch mVarLast s = false → scanM mVarLast s = s) := by
  refine ⟨?_, fun s hs => scanM_id_of_no_match hs,
    fun s hs => scanM_id_of_no_match hs,
    fun s hs => scanM_id_of_no_match hs,
    fun s hs => scanM_id_of_no_match hs,
    fun s hs => scanM_id_of_no_match hs,
    fun s hs => scanM_id_of_no_match hs,
    fun s hs => scanM_id_of_no_match hs⟩
  unfold enum_dispatch_generated_enum_hooker
  rw [hins]

theorem claim_C5_witness :
    findSub derivePat (cs ("abc")) = none
    ∧ (enum_dispatch_generated_enum_hooker (cs ("abc")) (cs ("J"))
        = Except.error (cs ("called Option::unwrap() on a None value"))
      ∧ (∀ s, hasMatch mArrow s = false → scanM mArrow s = s)
      ∧ (∀ s, hasMatch mQual s = false → scanM mQual s = s)
      ∧ (∀ s, hasMatch mVar s = false → scanM mVar s = s)
      ∧ (∀ s, hasMatch mQualEOI s = false → scanM mQualEOI s = s)
      ∧ (∀ s, hasMatch mVarEOI s = false → scanM mVarEOI s = s)
      ∧ (∀ s, hasMatch mQualLast s = false → scanM mQualLast s = s)
      ∧ (∀ s, hasMatch mVarLast s = false → scanM mVarLast s = s)) :=
  ⟨by decide, claim_C5 (by decide)⟩

/-- C2: on the pest enumeration-only output for user rules `rs` (in
declaration order), the tag generator succeeds and emits exactly
`rs.length + 1` struct declarations — the `EOI` sentinel first, then one per
user rule in declaration order, each of the fixed shape
`#[derive(Clone, Copy, Debug, Eq, Hash, Ord, PartialEq, PartialOrd)] pub struct <name> ;`
with exactly the variant's name — and distinct rule names give declarations
with no duplicates. -/
theorem claim_C2 {rs : List (List Char)} (h : wfNames rs) :
    enum_dispatch_tag_generator (pestEnumText rs)
        = Except.ok ((cs ("EOI") :: rs.map (fun n => cs ("r#") ++ n)).map renderStructDecl)
    ∧ ((cs ("EOI") :: rs.map (fun n => cs ("r#") ++ n)).map renderStructDecl).length
        = rs.length + 1
    ∧ (rs.Nodup →
        ((cs ("EOI") :: rs.map (fun n => cs ("r#") ++ n)).map renderStructDecl).Nodup) := by
  refine ⟨tag_pest h, by simp, fun hnd => ?_⟩
  have hinj : Function.Injective renderStructDecl := by
    intro x y hxy
    simp only [renderStructDecl] at hxy
    exact List.append_cancel_left (List.append_cancel_right hxy)
  apply List.Nodup.map hinj
  rw [List.nodup_cons]
  constructor
  · intro hmem
    obtain ⟨n, hn, heq⟩ := List.mem_map.mp hmem
    have heq2 : 'r' :: '#' :: n = 'E' :: 'O' :: 'I' :: ([] : List Char) := heq
    injection heq2 with h1 h2
    exact absurd h1 (by decide)
  · exact hnd.map (fun x y hxy => List.append_cancel_left hxy)

theorem claim_C2_witness :
    enum_dispatch_tag_generator (pestEnumText [cs ("A")])
        = Except.ok ((cs ("EOI") :: [cs ("A")].map (fun n => cs ("r#") ++ n)).map
            renderStructDecl)
    ∧ ((cs ("EOI") :: [cs ("A")].map (fun n => cs ("r#") ++ n)).map renderStructDecl).length
        = [cs ("A")].length + 1
    ∧ ([cs ("A")].Nodup →
        ((cs ("EOI") :: [cs ("A")].map (fun n => cs ("r#") ++ n)).map
            renderStructDecl).Nodup) :=
  claim_C2 (show ∀ x ∈ [cs ("A")], allWordB x = true ∧ x ≠ [] from by decide)

/-- C3: whenever the hooker succeeds on the wrap-free pest output for rules
`a :: t`, every one of the `(a :: t).length + 1` match arms of the dispatcher
(one per user rule plus the `EOI` arm) carries the `(_)` payload-discarding
pattern: the arrow token `=>` occurs exactly `(a :: t).length + 1` times in
the rewritten output and every occurrence is part of an occurrence of
`(_) =>`. -/
theorem claim_C3 {a : List Char} {t : List (List Char)} (h : wfNames (a :: t))
    {I : List Char} (hI : allWordB I = true) {out : List Char}
    (hout : enum_dispatch_generated_enum_hooker (pestFullOut (a :: t)) I
      = Except.ok out) :
    countSub (cs ("=>")) out = (a :: t).length + 1
    ∧ countSub (cs ("(_) =>")) out = (a :: t).length + 1 := by
  rw [hooker_pest_shape h hI] at hout
  injection hout with hout
  rw [← hout]
  exact ⟨countA_out h hI, countB_out h hI⟩

theorem claim_C3_witness :
    countSub (cs ("=>")) (rewrittenOut [cs ("A")] (cs ("B"))) = [cs ("A")].length + 1
    ∧ countSub (cs ("(_) =>")) (rewrittenOut [cs ("A")] (cs ("B")))
        = [cs ("A")].length + 1 :=
  claim_C3 (show ∀ x ∈ [cs ("A")], allWordB x = true ∧ x ≠ [] from by decide)
    (by decide)
    (hooker_pest_shape
      (show ∀ x ∈ [cs ("A")], allWordB x = true ∧ x ≠ [] from by decide) (by decide))

/-- C6: an argument list that is not exactly two named string arguments with
key set \x7bgrammar, interface\x7d is rejected with the descriptive count or
key message, for EVERY compile collaborator — i.e. before the grammar
compiler is consulted — and no output is produced. -/
theorem claim_C6 (compile : List Char → Bool → List Char) (input : RustItemStruct)
    (args : List RustMetaNameValue) :
    (args.length ≠ 2 →
      pest_parser_attr compile input args = Except.error (argCountMsg args.length))
    ∧ (∀ a0 a1 k0 v0 k1 v1, args = [a0, a1] →
        get_pest_parser_argument a0 = Except.ok (k0, v0) →
        get_pest_parser_argument a1 = Except.ok (k1, v1) →
        ¬((k0 = cs ("grammar") ∧ k1 = cs ("interface")) ∨
          (k0 = cs ("interface") ∧ k1 = cs ("grammar"))) →
        pest_parser_attr compile input args = Except.error (keyMsg k0 k1)) := by
  constructor
  · intro hne
    cases args with
    | nil => rfl
    | cons a0 t0 =>
      cases t0 with
      | nil => rfl
      | cons a1 t1 =>
        cases t1 with
        | nil => exact absurd rfl hne
        | cons a2 t2 => rfl
  · intro a0 a1 k0 v0 k1 v1 hargs h0 h1 hk
    subst hargs
    simp only [pest_parser_attr, h0, h1, Except.bind]
    rw [if_neg hk]

theorem claim_C6_witness :
    (([] : List RustMetaNameValue).length ≠ 2 →
      pest_parser_attr (fun _ _ => []) ⟨cs ("pub"), cs ("P"), [], [], []⟩ []
        = Except.error (argCountMsg ([] : List RustMetaNameValue).length))
    ∧ pest_parser_attr (fun _ _ => []) ⟨cs ("pub"), cs ("P"), [], [], []⟩
        [⟨some (cs ("foo")), RustExpr.lit (RustLit.strLit (cs ("g")))⟩,
         ⟨some (cs ("interface")), RustExpr.lit (RustLit.strLit (cs ("I")))⟩]
        = Except.error (keyMsg (cs ("foo")) (cs ("interface"))) :=
  ⟨(claim_C6 (fun _ _ => []) ⟨cs ("pub"), cs ("P"), [], [], []⟩ []).1,
   (claim_C6 (fun _ _ => []) ⟨cs ("pub"), cs ("P"), [], [], []⟩
      [⟨some (cs ("foo")), RustExpr.lit (RustLit.strLit (cs ("g")))⟩,
       ⟨some (cs ("interface")), RustExpr.lit (RustLit.strLit (cs ("I")))⟩]).2
     _ _ _ _ _ _ rfl rfl rfl (by decide)⟩

/-- C7: passing the two recognized arguments in either order yields exactly
the same generated output, for every grammar value, interface value, item
and compile collaborator: values are assigned by key, not by position. -/
theorem claim_C7 (compile : List Char → Bool → List Char) (input : RustItemStruct)
    (g I : List Char) :
    pest_parser_attr compile input
        [⟨some (cs ("grammar")), RustExpr.lit (RustLit.strLit g)⟩,
         ⟨some (cs ("interface")), RustExpr.lit (RustLit.strLit I)⟩]
      = pest_parser_attr compile input
        [⟨some (cs ("interface")), RustExpr.lit (RustLit.strLit I)⟩,
         ⟨some (cs ("grammar")), RustExpr.lit (RustLit.strLit g)⟩] := rfl

/-- C8: when the fixed marker is absent from the enumeration-only compiler
output, the tag generator aborts with the diagnostic naming the missing
`pub enum Rule` boundary, whatever the rest of the input looks like, and
emits no declarations. -/
theorem claim_C8 {raw : List Char} (h : findSub allowMarker raw = none) :
    enum_dispatch_tag_generator raw
      = Except.error (cs
        ("cannot find `pub enum Rule` in pest auto-generated code. this error might be a false positive in rust-analyzer, so please refer to the compilation results.")) := by
  unfold enum_dispatch_tag_generator
  rw [h]

theorem claim_C8_witness :
    findSub allowMarker (cs ("pub enum Rule \x7b EOI \x7d")) = none
    ∧ enum_dispatch_tag_generator (cs ("pub enum Rule \x7b EOI \x7d"))
        = Except.error (cs
          ("cannot find `pub enum Rule` in pest auto-generated code. this error might be a false positive in rust-analyzer, so please refer to the compilation results.")) :=
  ⟨by decide, claim_C8 (by decide)⟩

/-- C9: the macro re-emits the annotated item as the bare declaration
`vis struct ident ;` built from the item's visibility and name only — every
successful output starts with exactly that declaration, and the whole result
(success or failure) is unchanged when the item's fields, generics or
attributes change, so those parts are silently discarded. -/
theorem claim_C9 (compile : List Char → Bool → List Char)
    (input input2 : RustItemStruct) (args : List RustMetaNameValue)
    (hv : input2.vis = input.vis) (hi : input2.ident = input.ident) :
    pest_parser_attr compile input args = pest_parser_attr compile input2 args
    ∧ ∀ out, pest_parser_attr compile input args = Except.ok out →
        ∃ rest, out = structDecl input.vis input.ident ++ rest := by
  constructor
  · cases args with
    | nil => rfl
    | cons a0 t0 =>
      cases t0 with
      | nil => rfl
      | cons a1 t1 =>
        cases t1 with
        | cons a2 t2 => rfl
        | nil => simp only [pest_parser_attr, hv, hi]
  · intro out hout
    cases args with
    | nil => exact Except.noConfusion hout
    | cons a0 t0 =>
      cases t0 with
      | nil => exact Except.noConfusion hout
      | cons a1 t1 =>
        cases t1 with
        | cons a2 t2 => exact Except.noConfusion hout
        | nil =>
          simp only [pest_parser_attr] at hout
          cases h0 : get_pest_parser_argument a0 with
          | error e => rw [h0] at hout; exact Except.noConfusion hout
          | ok x0 =>
            rw [h0] at hout
            simp only [Except.bind] at hout
            cases h1 : get_pest_parser_argument a1 with
            | error e => rw [h1] at hout; exact Except.noConfusion hout
            | ok x1 =>
              rw [h1] at hout
              simp only [Except.bind] at hout
              by_cases hk : (x0.1 = cs ("grammar") ∧ x1.1 = cs ("interface")) ∨
                  (x0.1 = cs ("interface") ∧ x1.1 = cs ("grammar"))
              · rw [if_pos hk] at hout
                cases h2 : enum_dispatch_tag_generator
                    (compile (if x0.1 = cs ("interface") then (x1.2, x0.2)
                      else (x0.2, x1.2)).1 false) with
                | error e => rw [h2] at hout; exact Except.noConfusion hout
                | ok part2 =>
                  rw [h2] at hout
                  simp only [Except.bind] at hout
                  cases h3 : enum_dispatch_generated_enum_hooker
                      (compile (if x0.1 = cs ("interface") then (x1.2, x0.2)
                        else (x0.2, x1.2)).1 true)
                      ((if x0.1 = cs ("interface") then (x1.2, x0.2)
                        else (x0.2, x1.2)).2) with
                  | error e => rw [h3] at hout; exact Except.noConfusion hout
                  | ok part3 =>
                    rw [h3] at hout
                    simp only [Except.map] at hout
                    injection hout with hout
                    exact ⟨part2.flatten ++ part3,
                      by rw [← hout, List.append_assoc]⟩
              · rw [if_neg hk] at hout
                exact Except.noConfusion hout

theorem claim_C9_witness :
    (⟨cs ("pub"), cs ("P"), [], [], []⟩ : RustItemStruct).vis
        = (⟨cs ("pub"), cs ("P"), cs ("<T>"), cs ("(u8)"),
            [cs ("#[serde]")]⟩ : RustItemStruct).vis
    ∧ (⟨cs ("pub"), cs ("P"), [], [], []⟩ : RustItemStruct).ident
        = (⟨cs ("pub"), cs ("P"), cs ("<T>"), cs ("(u8)"),
            [cs ("#[serde]")]⟩ : RustItemStruct).ident
    ∧ (pest_parser_attr (fun _ _ => [])
          ⟨cs ("pub"), cs ("P"), cs ("<T>"), cs ("(u8)"), [cs ("#[serde]")]⟩ []
        = pest_parser_attr (fun _ _ => []) ⟨cs ("pub"), cs ("P"), [], [], []⟩ []
      ∧ ∀ out, pest_parser_attr (fun _ _ => [])
            ⟨cs ("pub"), cs ("P"), cs ("<T>"), cs ("(u8)"), [cs ("#[serde]")]⟩ []
            = Except.ok out →
          ∃ rest, out = structDecl
              (⟨cs ("pub"), cs ("P"), cs ("<T>"), cs ("(u8)"),
                [cs ("#[serde]")]⟩ : RustItemStruct).vis
              (⟨cs ("pub"), cs ("P"), cs ("<T>"), cs ("(u8)"),
                [cs ("#[serde]")]⟩ : RustItemStruct).ident ++ rest) :=
  ⟨rfl, rfl,
   claim_C9 (fun _ _ => [])
     ⟨cs ("pub"), cs ("P"), cs ("<T>"), cs ("(u8)"), [cs ("#[serde]")]⟩
     ⟨cs ("pub"), cs ("P"), [], [], []⟩ [] rfl rfl⟩

/-- C10: an argument whose key is not a plain identifier, or whose value is
not a string literal, makes the argument reader fail with the corresponding
explicit panic message, and the macro front end propagates that failure as
its result for every compile collaborator — before any compiler invocation
and with no output. -/
theorem claim_C10 (compile : List Char → Bool → List Char) (input : RustItemStruct)
    (a0 a1 : RustMetaNameValue) :
    (a0.pathIdent = none →
      get_pest_parser_argument a0
        = Except.error (cs ("key of argument must be an identifier")))
    ∧ (∀ k, a0.pathIdent = some k →
        (∀ v, a0.value ≠ RustExpr.lit (RustLit.strLit v)) →
        get_pest_parser_argument a0
          = Except.error (cs ("value of argument must be a string literal")))
    ∧ (∀ e, get_pest_parser_argument a0 = Except.error e →
        pest_parser_attr compile input [a0, a1] = Except.error e)
    ∧ (∀ x0 e, get_pest_parser_argument a0 = Except.ok x0 →
        get_pest_parser_argument a1 = Except.error e →
        pest_parser_attr compile input [a0, a1] = Except.error e) := by
  refine ⟨?_, ?_, ?_, ?_⟩
  · intro h
    simp only [get_pest_parser_argument, h]
  · intro k hk hv
    simp only [get_pest_parser_argument, hk]
  · intro e he
    simp only [pest_parser_attr, he, Except.bind]
  · intro x0 e h0 h1
    simp only [pest_parser_attr, h0, h1, Except.bind]

theorem claim_C10_witness :
    get_pest_parser_argument ⟨none, RustExpr.nonLit⟩
        = Except.error (cs ("key of argument must be an identifier"))
    ∧ get_pest_parser_argument ⟨some (cs ("grammar")), RustExpr.nonLit⟩
        = Except.error (cs ("value of argument must be a string literal"))
    ∧ pest_parser_attr (fun _ _ => []) ⟨cs ("pub"), cs ("P"), [], [], []⟩
        [⟨none, RustExpr.nonLit⟩, ⟨some (cs ("grammar")), RustExpr.nonLit⟩]
        = Except.error (cs ("key of argument must be an identifier")) :=
  ⟨(claim_C10 (fun _ _ => []) ⟨cs ("pub"), cs ("P"), [], [], []⟩
      ⟨none, RustExpr.nonLit⟩ ⟨some (cs ("grammar")), RustExpr.nonLit⟩).1 rfl,
   (claim_C10 (fun _ _ => []) ⟨cs ("pub"), cs ("P"), [], [], []⟩
      ⟨some (cs ("grammar")), RustExpr.nonLit⟩ ⟨none, RustExpr.nonLit⟩).2.1
     (cs ("grammar")) rfl (fun v h => by simp at h),
   (claim_C10 (fun _ _ => []) ⟨cs ("pub"), cs ("P"), [], [], []⟩
      ⟨none, RustExpr.nonLit⟩ ⟨some (cs ("grammar")), RustExpr.nonLit⟩).2.2.1
     (cs ("key of argument must be an identifier")) rfl⟩

end EnumDispatch
